import Mathlib

/-!
Verification of the search-algorithm engine of the SearchAlgorithmsV2
repository (a city-graph search visualizer).  The engine lives in the
bundled script file; the algorithmic core consists of eight search
strategies (BFS, DFS, UCS, DLS, IDDFS, bidirectional, greedy best-first,
A*), a shared outcome record, a heuristic provider and small graph helpers.

Modelling conventions:
* JavaScript numbers (used for road distances, costs and heuristic values)
  are modelled as integers `ℤ`: every arithmetic the engine performs on
  them is addition and comparison, which ℤ models exactly for the integer
  and fractional inputs the program supplies.
* The haversine computation inside `calculateStraightLineDistance` uses
  transcendental functions that have no computable counterpart; it is kept
  abstract as a parameter `hav : City → City → ℤ` (only the control flow
  around it, and the informed strategies that consume it, are the subject
  of claims).  The informed searches take the already-composed heuristic
  `h : String → ℤ` (the value of `heuristicToGoalOrGoals(·, goal)`).
* The global `isSearchRunning` cancellation flag is external mutable state
  that the event loop may change between expansion steps; it is modelled
  as a schedule `running : ℕ → Bool` consulted at the `k`-th check, with
  the check counter `k` threaded through each strategy's state.
* The `while` loops are modelled by fuel recursion returning
  `Option SearchOutcome`; `none` means the fuel was insufficient and never
  corresponds to a source behaviour.  Wall-clock execution time is omitted.
* JavaScript `Set`/`Map` (insertion-ordered) become `List String` and
  association lists `List (String × List String)`; `Array.prototype.sort`
  (stable, ascending by the numeric comparator) becomes a stable insertion
  sort `sortByKey`.
-/

set_option maxHeartbeats 2000000
set_option maxRecDepth 4000

namespace SearchAlgo

/-- A city record from `data/cities.json`: identifier and coordinates
(the `category` field is never consulted by the engine). -/
structure City where
  id : String
  lat : ℤ
  lon : ℤ
deriving DecidableEq, Repr

/-- A road record: unordered pair of city identifiers plus distance. -/
structure Link where
  source : String
  target : String
  distance : ℤ
deriving DecidableEq, Repr

/-- The loaded graph document: `nodes` and `links`. -/
structure GraphData where
  nodes : List City
  links : List Link
deriving DecidableEq, Repr

/-- A neighbour surfaced by `getNeighbors`. -/
structure Neighbor where
  id : String
  distance : ℤ
deriving DecidableEq, Repr

/-- `getNeighbors(cityId)`: scan the links in order, surfacing the opposite
endpoint of every link touching `cityId` (a link with `source === cityId`
contributes its target, otherwise one with `target === cityId` contributes
its source). -/
def getNeighbors (g : GraphData) (cityId : String) : List Neighbor :=
  g.links.filterMap (fun l =>
    if l.source = cityId then some ⟨l.target, l.distance⟩
    else if l.target = cityId then some ⟨l.source, l.distance⟩
    else none)

/-- `getNodeById(id)`: first node whose id matches. -/
def getNodeById (g : GraphData) (id : String) : Option City :=
  g.nodes.find? (fun n => n.id == id)

/-- `getLinkByNodes(sourceId, targetId)`: first link joining the two ids in
either orientation. -/
def getLinkByNodes (g : GraphData) (sourceId targetId : String) : Option Link :=
  g.links.find? (fun l =>
    (l.source == sourceId && l.target == targetId) ||
    (l.source == targetId && l.target == sourceId))

/-- `calculatePathCost(path)`: sum the distances of the links joining
consecutive path entries; a consecutive pair with no connecting link is
silently skipped (`if (link) { totalCost += link.distance; }`). -/
def calculatePathCost (g : GraphData) : List String → ℤ
  | a :: b :: rest =>
    (match getLinkByNodes g a b with
     | some l => l.distance
     | none => 0) + calculatePathCost g (b :: rest)
  | _ => 0

/-- The goal argument of a strategy: a single id or a `Set` of ids. -/
inductive GoalSpec where
  | single (goal : String)
  | multi (goals : List String)
deriving DecidableEq, Repr

/-- `isGoalNode(nodeId, goalOrSet)`. -/
def isGoalNode (nodeId : String) : GoalSpec → Bool
  | .single g => nodeId == g
  | .multi gs => gs.contains nodeId

/-- `reachedGoalFromPath(path)`: last element of a nonempty path. -/
def reachedGoalFromPath (path : List String) : Option String :=
  path.getLast?

/-- The common result record (`executionTime` omitted: wall-clock). -/
structure SearchOutcome where
  success : Bool
  path : Option (List String) := none
  cost : Option ℤ := none
  nodesExplored : ℕ := 0
  nodesDiscovered : ℕ := 0
  edgesProcessed : ℕ := 0
  reachedGoal : Option String := none
  reason : Option String := none
deriving DecidableEq, Repr

/-! ### Stable sort by an integer key (JS `Array.prototype.sort`) -/

/-- Insert `a` before the first element with a strictly larger key
(after all elements with key ≤ its own), preserving stability. -/
def insertByKey {α : Type} (key : α → ℤ) (a : α) : List α → List α
  | [] => [a]
  | b :: t => if key a ≤ key b then a :: b :: t else b :: insertByKey key a t

/-- Stable ascending sort by an integer key. -/
def sortByKey {α : Type} (key : α → ℤ) : List α → List α
  | [] => []
  | a :: t => insertByKey key a (sortByKey key t)

/-! ### Breadth-first search -/

/-- A FIFO/LIFO frontier entry: node plus path-so-far. -/
structure QEntry where
  node : String
  path : List String
deriving DecidableEq, Repr

/-- Loop state of BFS/DFS: frontier, visited set, the three counters and
the index `k` of the next cancellation check. -/
structure BfsState where
  queue : List QEntry
  visited : List String
  nodesExplored : ℕ
  nodesDiscovered : ℕ
  edgesProcessed : ℕ
  k : ℕ
deriving DecidableEq, Repr

/-- The failure outcome BFS/DFS/UCS/Greedy/A*/bidirectional fall through to,
both on frontier exhaustion and on cancellation. -/
def noPathOutcome (ne nd ep : ℕ) : SearchOutcome :=
  { success := false, nodesExplored := ne, nodesDiscovered := nd,
    edgesProcessed := ep, reason := some "No path exists between the cities" }

/-- The success outcome shared by BFS/DFS/DLS/Greedy (cost recomputed from
the path by `calculatePathCost`). -/
def foundOutcome (g : GraphData) (path : List String) (ne nd ep : ℕ) :
    SearchOutcome :=
  { success := true, path := some path, cost := some (calculatePathCost g path),
    nodesExplored := ne, nodesDiscovered := nd, edgesProcessed := ep,
    reachedGoal := reachedGoalFromPath path }

/-- Result of one neighbour-expansion pass. -/
structure ExpandOut where
  queue : List QEntry
  visited : List String
  nd : ℕ
  ep : ℕ
deriving DecidableEq, Repr

/-- BFS neighbour loop: for each neighbour, count the edge, and when it is
not yet visited, mark it, count the discovery and enqueue it at the back. -/
def bfsExpand (path : List String) (queue : List QEntry) (visited : List String)
    (nd ep : ℕ) : List Neighbor → ExpandOut
  | [] => ⟨queue, visited, nd, ep⟩
  | nb :: rest =>
    if visited.contains nb.id then
      bfsExpand path queue visited nd (ep + 1) rest
    else
      bfsExpand path (queue ++ [⟨nb.id, path ++ [nb.id]⟩])
        (visited ++ [nb.id]) (nd + 1) (ep + 1) rest

/-- The BFS `while` loop (fuel recursion).  Iteration order mirrors the
source: emptiness test, cancellation check, dequeue, explored++, goal test,
neighbour expansion. -/
def bfsLoop (g : GraphData) (goal : GoalSpec) (running : ℕ → Bool) :
    ℕ → BfsState → Option SearchOutcome
  | 0, _ => none
  | fuel + 1, st =>
    match st.queue with
    | [] => some (noPathOutcome st.nodesExplored st.nodesDiscovered st.edgesProcessed)
    | e :: rest =>
      if running st.k = false then
        some (noPathOutcome st.nodesExplored st.nodesDiscovered st.edgesProcessed)
      else
        let ne := st.nodesExplored + 1
        if isGoalNode e.node goal then
          some (foundOutcome g e.path ne st.nodesDiscovered st.edgesProcessed)
        else
          let r := bfsExpand e.path rest st.visited st.nodesDiscovered
            st.edgesProcessed (getNeighbors g e.node)
          bfsLoop g goal running fuel
            { queue := r.queue, visited := r.visited, nodesExplored := ne,
              nodesDiscovered := r.nd, edgesProcessed := r.ep, k := st.k + 1 }

/-- `breadthFirstSearch(start, goal)`. -/
def breadthFirstSearch (g : GraphData) (start : String) (goal : GoalSpec)
    (running : ℕ → Bool) (fuel : ℕ) : Option SearchOutcome :=
  bfsLoop g goal running fuel
    { queue := [⟨start, [start]⟩], visited := [start], nodesExplored := 0,
      nodesDiscovered := 1, edgesProcessed := 0, k := 0 }

/-! ### Depth-first search -/

/-- DFS neighbour pass: the source iterates the neighbours in reverse
enumeration order (`for (let i = neighbors.length - 1; i >= 0; i--)`) and
pushes unvisited ones on the stack top.  The stack is modelled with its top
at the head, so a JS `push` becomes a `cons`; the caller passes the
neighbour list already reversed. -/
def dfsExpand (path : List String) (stack : List QEntry) (visited : List String)
    (nd ep : ℕ) : List Neighbor → ExpandOut
  | [] => ⟨stack, visited, nd, ep⟩
  | nb :: rest =>
    if visited.contains nb.id then
      dfsExpand path stack visited nd (ep + 1) rest
    else
      dfsExpand path (⟨nb.id, path ++ [nb.id]⟩ :: stack) (visited ++ [nb.id])
        (nd + 1) (ep + 1) rest

/-- The DFS `while` loop; identical to BFS except for the frontier
discipline. -/
def dfsLoop (g : GraphData) (goal : GoalSpec) (running : ℕ → Bool) :
    ℕ → BfsState → Option SearchOutcome
  | 0, _ => none
  | fuel + 1, st =>
    match st.queue with
    | [] => some (noPathOutcome st.nodesExplored st.nodesDiscovered st.edgesProcessed)
    | e :: rest =>
      if running st.k = false then
        some (noPathOutcome st.nodesExplored st.nodesDiscovered st.edgesProcessed)
      else
        let ne := st.nodesExplored + 1
        if isGoalNode e.node goal then
          some (foundOutcome g e.path ne st.nodesDiscovered st.edgesProcessed)
        else
          let r := dfsExpand e.path rest st.visited st.nodesDiscovered
            st.edgesProcessed (getNeighbors g e.node).reverse
          dfsLoop g goal running fuel
            { queue := r.queue, visited := r.visited, nodesExplored := ne,
              nodesDiscovered := r.nd, edgesProcessed := r.ep, k := st.k + 1 }

/-- `depthFirstSearch(start, goal)`. -/
def depthFirstSearch (g : GraphData) (start : String) (goal : GoalSpec)
    (running : ℕ → Bool) (fuel : ℕ) : Option SearchOutcome :=
  dfsLoop g goal running fuel
    { queue := [⟨start, [start]⟩], visited := [start], nodesExplored := 0,
      nodesDiscovered := 1, edgesProcessed := 0, k := 0 }

/-! ### Uniform-cost search -/

/-- A UCS frontier entry: node, path-so-far and accumulated cost. -/
structure CEntry where
  node : String
  path : List String
  cost : ℤ
deriving DecidableEq, Repr

/-- Loop state of UCS. -/
structure UcsState where
  frontier : List CEntry
  visited : List String
  nodesExplored : ℕ
  nodesDiscovered : ℕ
  edgesProcessed : ℕ
  k : ℕ
deriving DecidableEq, Repr

/-- Result of a UCS/Greedy/A* neighbour pass (the visited set is not
touched during expansion for these strategies). -/
structure UExpandOut where
  frontier : List CEntry
  nd : ℕ
  ep : ℕ
deriving DecidableEq, Repr

/-- UCS neighbour pass: count every edge; push a fresh entry (with the
extended path and accumulated cost) for every neighbour not yet visited,
counting it as discovered — the same node may be pushed repeatedly. -/
def ucsExpand (path : List String) (cost : ℤ) (frontier : List CEntry)
    (visited : List String) (nd ep : ℕ) : List Neighbor → UExpandOut
  | [] => ⟨frontier, nd, ep⟩
  | nb :: rest =>
    if visited.contains nb.id then
      ucsExpand path cost frontier visited nd (ep + 1) rest
    else
      ucsExpand path cost
        (frontier ++ [⟨nb.id, path ++ [nb.id], cost + nb.distance⟩]) visited
        (nd + 1) (ep + 1) rest

/-- The UCS `while` loop: emptiness test, cancellation check, stable sort
by accumulated cost, shift, stale-entry skip (`if (visited.has(...))
continue`), mark visited, explored++, goal test, expansion. -/
def ucsLoop (g : GraphData) (goal : GoalSpec) (running : ℕ → Bool) :
    ℕ → UcsState → Option SearchOutcome
  | 0, _ => none
  | fuel + 1, st =>
    match st.frontier with
    | [] => some (noPathOutcome st.nodesExplored st.nodesDiscovered st.edgesProcessed)
    | _ :: _ =>
      if running st.k = false then
        some (noPathOutcome st.nodesExplored st.nodesDiscovered st.edgesProcessed)
      else
        match sortByKey (fun e => e.cost) st.frontier with
        | [] => some (noPathOutcome st.nodesExplored st.nodesDiscovered st.edgesProcessed)
        | e :: rest =>
          if st.visited.contains e.node then
            ucsLoop g goal running fuel { st with frontier := rest, k := st.k + 1 }
          else
            let visited1 := st.visited ++ [e.node]
            let ne := st.nodesExplored + 1
            if isGoalNode e.node goal then
              some { success := true, path := some e.path, cost := some e.cost,
                     nodesExplored := ne, nodesDiscovered := st.nodesDiscovered,
                     edgesProcessed := st.edgesProcessed,
                     reachedGoal := reachedGoalFromPath e.path }
            else
              let r := ucsExpand e.path e.cost rest visited1 st.nodesDiscovered
                st.edgesProcessed (getNeighbors g e.node)
              ucsLoop g goal running fuel
                { frontier := r.frontier, visited := visited1,
                  nodesExplored := ne, nodesDiscovered := r.nd,
                  edgesProcessed := r.ep, k := st.k + 1 }

/-- `uniformCostSearch(start, goal)`. -/
def uniformCostSearch (g : GraphData) (start : String) (goal : GoalSpec)
    (running : ℕ → Bool) (fuel : ℕ) : Option SearchOutcome :=
  ucsLoop g goal running fuel
    { frontier := [⟨start, [start], 0⟩], visited := [], nodesExplored := 0,
      nodesDiscovered := 1, edgesProcessed := 0, k := 0 }

/-! ### Greedy best-first search -/

/-- A greedy frontier entry: node, path and its heuristic value. -/
structure HEntry where
  node : String
  path : List String
  heuristic : ℤ
deriving DecidableEq, Repr

/-- Loop state of greedy best-first search. -/
structure GreedyState where
  frontier : List HEntry
  visited : List String
  nodesExplored : ℕ
  nodesDiscovered : ℕ
  edgesProcessed : ℕ
  k : ℕ
deriving DecidableEq, Repr

/-- Greedy neighbour pass: push unvisited neighbours tagged with their
heuristic value `h` (the engine's `heuristicToGoalOrGoals(·, goal)`). -/
def greedyExpand (h : String → ℤ) (path : List String) (frontier : List HEntry)
    (visited : List String) (nd ep : ℕ) : List Neighbor → List HEntry × ℕ × ℕ
  | [] => (frontier, nd, ep)
  | nb :: rest =>
    if visited.contains nb.id then
      greedyExpand h path frontier visited nd (ep + 1) rest
    else
      greedyExpand h path (frontier ++ [⟨nb.id, path ++ [nb.id], h nb.id⟩])
        visited (nd + 1) (ep + 1) rest

/-- The greedy `while` loop: like UCS but sorted by heuristic only, and
the success outcome recomputes the cost from the path. -/
def greedyLoop (g : GraphData) (goal : GoalSpec) (h : String → ℤ)
    (running : ℕ → Bool) : ℕ → GreedyState → Option SearchOutcome
  | 0, _ => none
  | fuel + 1, st =>
    match st.frontier with
    | [] => some (noPathOutcome st.nodesExplored st.nodesDiscovered st.edgesProcessed)
    | _ :: _ =>
      if running st.k = false then
        some (noPathOutcome st.nodesExplored st.nodesDiscovered st.edgesProcessed)
      else
        match sortByKey (fun e => e.heuristic) st.frontier with
        | [] => some (noPathOutcome st.nodesExplored st.nodesDiscovered st.edgesProcessed)
        | e :: rest =>
          if st.visited.contains e.node then
            greedyLoop g goal h running fuel { st with frontier := rest, k := st.k + 1 }
          else
            let visited1 := st.visited ++ [e.node]
            let ne := st.nodesExplored + 1
            if isGoalNode e.node goal then
              some (foundOutcome g e.path ne st.nodesDiscovered st.edgesProcessed)
            else
              let r := greedyExpand h e.path rest visited1 st.nodesDiscovered
                st.edgesProcessed (getNeighbors g e.node)
              greedyLoop g goal h running fuel
                { frontier := r.1, visited := visited1, nodesExplored := ne,
                  nodesDiscovered := r.2.1, edgesProcessed := r.2.2, k := st.k + 1 }

/-- `greedyBestFirstSearch(start, goal)`; `h` is the composed heuristic
`heuristicToGoalOrGoals(·, goal)`. -/
def greedyBestFirstSearch (g : GraphData) (h : String → ℤ) (start : String)
    (goal : GoalSpec) (running : ℕ → Bool) (fuel : ℕ) : Option SearchOutcome :=
  greedyLoop g goal h running fuel
    { frontier := [⟨start, [start], h start⟩], visited := [], nodesExplored := 0,
      nodesDiscovered := 1, edgesProcessed := 0, k := 0 }

/-! ### A* search -/

/-- An A* frontier entry: node, path, accumulated cost, heuristic and
f-score. -/
structure AEntry where
  node : String
  path : List String
  cost : ℤ
  heuristic : ℤ
  f : ℤ
deriving DecidableEq, Repr

/-- Loop state of A*. -/
structure AStarState where
  frontier : List AEntry
  visited : List String
  nodesExplored : ℕ
  nodesDiscovered : ℕ
  edgesProcessed : ℕ
  k : ℕ
deriving DecidableEq, Repr

/-- A* neighbour pass: unvisited neighbours are pushed with
`newCost = cost + distance`, their heuristic value and `f = newCost + h`. -/
def astarExpand (h : String → ℤ) (path : List String) (cost : ℤ)
    (frontier : List AEntry) (visited : List String) (nd ep : ℕ) :
    List Neighbor → List AEntry × ℕ × ℕ
  | [] => (frontier, nd, ep)
  | nb :: rest =>
    if visited.contains nb.id then
      astarExpand h path cost frontier visited nd (ep + 1) rest
    else
      let newCost := cost + nb.distance
      astarExpand h path cost
        (frontier ++ [⟨nb.id, path ++ [nb.id], newCost, h nb.id, newCost + h nb.id⟩])
        visited (nd + 1) (ep + 1) rest

/-- The A* `while` loop: like UCS but sorted by f-score. -/
def astarLoop (g : GraphData) (goal : GoalSpec) (h : String → ℤ)
    (running : ℕ → Bool) : ℕ → AStarState → Option SearchOutcome
  | 0, _ => none
  | fuel + 1, st =>
    match st.frontier with
    | [] => some (noPathOutcome st.nodesExplored st.nodesDiscovered st.edgesProcessed)
    | _ :: _ =>
      if running st.k = false then
        some (noPathOutcome st.nodesExplored st.nodesDiscovered st.edgesProcessed)
      else
        match sortByKey (fun e => e.f) st.frontier with
        | [] => some (noPathOutcome st.nodesExplored st.nodesDiscovered st.edgesProcessed)
        | e :: rest =>
          if st.visited.contains e.node then
            astarLoop g goal h running fuel { st with frontier := rest, k := st.k + 1 }
          else
            let visited1 := st.visited ++ [e.node]
            let ne := st.nodesExplored + 1
            if isGoalNode e.node goal then
              some { success := true, path := some e.path, cost := some e.cost,
                     nodesExplored := ne, nodesDiscovered := st.nodesDiscovered,
                     edgesProcessed := st.edgesProcessed,
                     reachedGoal := reachedGoalFromPath e.path }
            else
              let r := astarExpand h e.path e.cost rest visited1 st.nodesDiscovered
                st.edgesProcessed (getNeighbors g e.node)
              astarLoop g goal h running fuel
                { frontier := r.1, visited := visited1, nodesExplored := ne,
                  nodesDiscovered := r.2.1, edgesProcessed := r.2.2, k := st.k + 1 }

/-- `aStarSearch(start, goal)`; `h` is the composed heuristic. -/
def aStarSearch (g : GraphData) (h : String → ℤ) (start : String)
    (goal : GoalSpec) (running : ℕ → Bool) (fuel : ℕ) : Option SearchOutcome :=
  astarLoop g goal h running fuel
    { frontier := [⟨start, [start], 0, h start, h start⟩], visited := [],
      nodesExplored := 0, nodesDiscovered := 1, edgesProcessed := 0, k := 0 }

/-! ### Depth-limited search -/

/-- Mutable state shared by the recursive `dls` closure: the three counters
and the cancellation-check index. -/
structure DlsSt where
  ne : ℕ
  nd : ℕ
  ep : ℕ
  k : ℕ
deriving DecidableEq, Repr

/-- Result of one recursive `dls` call: a fully formed success outcome
(propagated unchanged to the top), or the reason string of a failure (the
counters a failure object carries in the source are read again at the
root, so only the root's final state matters). -/
inductive DlsRes where
  | success (o : SearchOutcome)
  | failure (reason : String)
deriving DecidableEq, Repr

/-- The neighbour loop of a `dls` call: count each edge, skip neighbours
already on the current path, recurse (through `prev`, the one-level-deeper
search), propagate a success immediately, and afterwards re-test the (by
then unchanged) path-membership before counting a discovery — the re-test
is kept exactly as written even though it always passes here. -/
def dlsNbrs (prev : String → List String → DlsSt → DlsRes × DlsSt)
    (path : List String) : List Neighbor → DlsSt → DlsRes × DlsSt
  | [], st => (.failure "No path found within depth limit", st)
  | nb :: rest, st =>
    let st1 : DlsSt := { st with ep := st.ep + 1 }
    if path.contains nb.id then dlsNbrs prev path rest st1
    else
      match prev nb.id (path ++ [nb.id]) st1 with
      | (.success o, st2) => (.success o, st2)
      | (.failure _, st2) =>
        dlsNbrs prev path rest
          (if path.contains nb.id then st2 else { st2 with nd := st2.nd + 1 })

/-- One recursive `dls(currentNode, path, depth)` call.  The fuel is
`depthLimit - depth`, so `depth >= depthLimit` becomes `fuel = 0`; a call
first checks the cancellation flag, then counts the node as explored,
tests the goal, tests the depth bound and finally iterates the
neighbours. -/
def dlsGo (g : GraphData) (goal : GoalSpec) (running : ℕ → Bool) :
    ℕ → String → List String → DlsSt → DlsRes × DlsSt
  | fuel, node, path, st =>
    if running st.k = false then (.failure "Search stopped", { st with k := st.k + 1 })
    else
      let st1 : DlsSt := { st with ne := st.ne + 1, k := st.k + 1 }
      if isGoalNode node goal then
        (.success { success := true, path := some path,
                    cost := some (calculatePathCost g path),
                    nodesExplored := st1.ne, nodesDiscovered := st1.nd,
                    edgesProcessed := st1.ep,
                    reachedGoal := reachedGoalFromPath path }, st1)
      else
        match fuel with
        | 0 => (.failure "Depth limit reached", st1)
        | fuel' + 1 =>
          dlsNbrs (fun n p s => dlsGo g goal running fuel' n p s) path
            (getNeighbors g node) st1

/-- `depthLimitedSearch(start, goal, depthLimit)` started at check index
`k` (so that IDDFS can thread the global cancellation-flag stream through
its iterations); returns the outcome and the next check index.  Failure
outcomes are assembled at the root from the final counter state, which is
exactly what the source's post-hoc patching of missing counter fields
produces. -/
def depthLimitedSearchFrom (g : GraphData) (start : String) (goal : GoalSpec)
    (depthLimit : ℤ) (running : ℕ → Bool) (k : ℕ) : SearchOutcome × ℕ :=
  match dlsGo g goal running depthLimit.toNat start [start] ⟨0, 1, 0, k⟩ with
  | (.success o, st) => (o, st.k)
  | (.failure r, st) =>
    ({ success := false, reason := some r, nodesExplored := st.ne,
       nodesDiscovered := st.nd, edgesProcessed := st.ep }, st.k)

/-- `depthLimitedSearch(start, goal, depthLimit)`. -/
def depthLimitedSearch (g : GraphData) (start : String) (goal : GoalSpec)
    (depthLimit : ℤ) (running : ℕ → Bool) : SearchOutcome :=
  (depthLimitedSearchFrom g start goal depthLimit running 0).1

/-! ### Iterative deepening -/

/-- The bundled maximum iterative-deepening depth (`const maxDepth = 5`). -/
def maxIterativeDepth : ℕ := 5

/-- The IDDFS `for` loop over the remaining depth limits, accumulating the
counters of every iteration; a success at some depth is returned with the
accumulated totals spliced in. -/
def iddfsGo (g : GraphData) (start : String) (goal : GoalSpec)
    (running : ℕ → Bool) : List ℤ → ℕ → ℕ → ℕ → ℕ → SearchOutcome
  | [], tne, tnd, tep, _ =>
    { success := false, nodesExplored := tne, nodesDiscovered := tnd,
      edgesProcessed := tep,
      reason := some "No path found within maximum depth of 5" }
  | d :: rest, tne, tnd, tep, k =>
    if running k = false then
      { success := false, nodesExplored := tne, nodesDiscovered := tnd,
        edgesProcessed := tep,
        reason := some "No path found within maximum depth of 5" }
    else
      match depthLimitedSearchFrom g start goal d running (k + 1) with
      | (r, k') =>
        let tne' := tne + r.nodesExplored
        let tep' := tep + r.edgesProcessed
        let tnd' := tnd + r.nodesDiscovered
        if r.success then
          { r with nodesExplored := tne', nodesDiscovered := tnd',
                   edgesProcessed := tep' }
        else iddfsGo g start goal running rest tne' tnd' tep' k'

/-- `iterativeDeepeningSearch(start, goal)`: DLS at depths 0, 1, …, 5. -/
def iterativeDeepeningSearch (g : GraphData) (start : String) (goal : GoalSpec)
    (running : ℕ → Bool) : SearchOutcome :=
  iddfsGo g start goal running [0, 1, 2, 3, 4, 5] 0 0 0 0

/-! ### Bidirectional search -/

/-- Lookup in an insertion-ordered `Map` from node id to the path stored
for it. -/
def lookupA (m : List (String × List String)) (s : String) :
    Option (List String) :=
  (m.find? (fun p => p.1 == s)).map (fun p => p.2)

/-- Loop state of bidirectional search: the two FIFO queues, the two
independent visited maps, counters and check index. -/
structure BidiState where
  frontQueue : List QEntry
  backQueue : List QEntry
  frontVisited : List (String × List String)
  backVisited : List (String × List String)
  ne : ℕ
  nd : ℕ
  ep : ℕ
  k : ℕ
deriving DecidableEq, Repr

/-- Result of a bidirectional neighbour pass. -/
structure BExpandOut where
  queue : List QEntry
  visited : List (String × List String)
  nd : ℕ
  ep : ℕ
deriving DecidableEq, Repr

/-- Bidirectional neighbour pass: count each edge; a neighbour not in this
direction's visited map has its extended path recorded in the map and is
enqueued, counting one discovery. -/
def bidiExpand (path : List String) (queue : List QEntry)
    (visited : List (String × List String)) (nd ep : ℕ) :
    List Neighbor → BExpandOut
  | [] => ⟨queue, visited, nd, ep⟩
  | nb :: rest =>
    if (lookupA visited nb.id).isSome then
      bidiExpand path queue visited nd (ep + 1) rest
    else
      let newPath := path ++ [nb.id]
      bidiExpand path (queue ++ [⟨nb.id, newPath⟩])
        (visited ++ [(nb.id, newPath)]) (nd + 1) (ep + 1) rest

/-- Result of one directional half-step: either the search terminates with
an outcome, or it continues with the updated state. -/
inductive BStepRes where
  | done (o : SearchOutcome)
  | cont (st : BidiState)
deriving Repr

/-- The forward half of one loop iteration: dequeue from the front queue,
count the node explored; if the node already appears in the backward
visited map, assemble the full path by concatenating the forward path with
the reversed backward path minus the meeting node; otherwise expand. -/
def bidiFrontStep (g : GraphData) (st : BidiState) : BStepRes :=
  match st.frontQueue with
  | [] => .cont st
  | e :: rest =>
    let ne := st.ne + 1
    match lookupA st.backVisited e.node with
    | some backPath =>
      let fullPath := e.path ++ backPath.dropLast.reverse
      .done { success := true, path := some fullPath,
              cost := some (calculatePathCost g fullPath),
              nodesExplored := ne, nodesDiscovered := st.nd,
              edgesProcessed := st.ep }
    | none =>
      let r := bidiExpand e.path rest st.frontVisited st.nd st.ep
        (getNeighbors g e.node)
      .cont { st with frontQueue := r.queue, frontVisited := r.visited,
                      ne := ne, nd := r.nd, ep := r.ep }

/-- The backward half of one loop iteration (mirror image: the meeting
test consults the forward visited map and the full path is the stored
forward path followed by the reversed backward path minus the meeting
node). -/
def bidiBackStep (g : GraphData) (st : BidiState) : BStepRes :=
  match st.backQueue with
  | [] => .cont st
  | e :: rest =>
    let ne := st.ne + 1
    match lookupA st.frontVisited e.node with
    | some frontPath =>
      let fullPath := frontPath ++ e.path.dropLast.reverse
      .done { success := true, path := some fullPath,
              cost := some (calculatePathCost g fullPath),
              nodesExplored := ne, nodesDiscovered := st.nd,
              edgesProcessed := st.ep }
    | none =>
      let r := bidiExpand e.path rest st.backVisited st.nd st.ep
        (getNeighbors g e.node)
      .cont { st with backQueue := r.queue, backVisited := r.visited,
                      ne := ne, nd := r.nd, ep := r.ep }

/-- The bidirectional `while` loop: runs while both queues are nonempty,
checks the cancellation flag once per iteration, then performs the forward
and the backward half-step. -/
def bidiLoop (g : GraphData) (running : ℕ → Bool) :
    ℕ → BidiState → Option SearchOutcome
  | 0, _ => none
  | fuel + 1, st =>
    if st.frontQueue.isEmpty || st.backQueue.isEmpty then
      some (noPathOutcome st.ne st.nd st.ep)
    else if running st.k = false then
      some (noPathOutcome st.ne st.nd st.ep)
    else
      match bidiFrontStep g { st with k := st.k + 1 } with
      | .done o => some o
      | .cont st2 =>
        match bidiBackStep g st2 with
        | .done o => some o
        | .cont st3 => bidiLoop g running fuel st3

/-- `bidirectionalSearch(start, goal)`: seeded with `start` forward and
`goal` backward; `nodesDiscovered` starts at 2. -/
def bidirectionalSearch (g : GraphData) (start goal : String)
    (running : ℕ → Bool) (fuel : ℕ) : Option SearchOutcome :=
  bidiLoop g running fuel
    { frontQueue := [⟨start, [start]⟩], backQueue := [⟨goal, [goal]⟩],
      frontVisited := [(start, [start])], backVisited := [(goal, [goal])],
      ne := 0, nd := 2, ep := 0, k := 0 }

/-! ### Heuristic provider -/

/-- A JavaScript number that may be `Infinity` (the value space of the
heuristic helpers). -/
inductive EValue where
  | val (q : ℤ)
  | infinity
deriving DecidableEq, Repr

/-- JavaScript `<` restricted to the values the heuristic helpers
produce. -/
def eLt : EValue → EValue → Bool
  | .val a, .val b => a < b
  | .val _, .infinity => true
  | .infinity, _ => false

/-- `calculateStraightLineDistance(city1Id, city2Id)`: look both cities up
and return `Infinity` when either is absent; otherwise the haversine
great-circle distance of their coordinates.  The haversine formula uses
transcendental functions with no computable counterpart, so it is the
abstract parameter `hav`. -/
def calculateStraightLineDistance (hav : City → City → ℤ) (g : GraphData)
    (city1Id city2Id : String) : EValue :=
  match getNodeById g city1Id, getNodeById g city2Id with
  | some c1, some c2 => .val (hav c1 c2)
  | _, _ => .infinity

/-- `heuristicToGoalOrGoals(nodeId, goalOrSet)`: for a goal set, `Infinity`
when the set is empty, else the running minimum (under `<`) of the
straight-line distances to each goal; for a single goal the straight-line
distance itself. -/
def heuristicToGoalOrGoals (hav : City → City → ℤ) (g : GraphData)
    (nodeId : String) : GoalSpec → EValue
  | .multi gs =>
    gs.foldl (fun minH gg =>
      let hv := calculateStraightLineDistance hav g nodeId gg
      if eLt hv minH then hv else minH) .infinity
  | .single gg => calculateStraightLineDistance hav g nodeId gg

/-! ### Dispatch (`runAlgo`) -/

/-- JS `Set` union of the goals: insertion-ordered, duplicates dropped. -/
def jsSetOf (l : List String) : List String :=
  l.foldl (fun s x => if s.contains x then s else s ++ [x]) []

/-- `runAlgo(algorithm, startCity, goal, depthLimit, secondaryGoal)` of the
current revision: builds the goal set from the primary and the optional
secondary goal, dispatches on the algorithm name, and throws (models as
`Except.error`) on an unknown name.  The `bidirectional` arm passes only
the primary goal. -/
def runAlgo (g : GraphData) (h : String → ℤ) (algorithm startCity goal : String)
    (depthLimit : ℤ) (secondaryGoal : String) (running : ℕ → Bool) (fuel : ℕ) :
    Except String (Option SearchOutcome) :=
  let goalsSet := jsSetOf ([goal, secondaryGoal].filter (fun s => s ≠ ""))
  let gs : GoalSpec := if goalsSet.length ≠ 0 then .multi goalsSet else .single goal
  match algorithm with
  | "bfs" => .ok (breadthFirstSearch g startCity gs running fuel)
  | "dfs" => .ok (depthFirstSearch g startCity gs running fuel)
  | "ucs" => .ok (uniformCostSearch g startCity gs running fuel)
  | "dls" => .ok (some (depthLimitedSearch g startCity gs depthLimit running))
  | "iddfs" => .ok (some (iterativeDeepeningSearch g startCity gs running))
  | "bidirectional" => .ok (bidirectionalSearch g startCity goal running fuel)
  | "greedy" => .ok (greedyBestFirstSearch g h startCity gs running fuel)
  | "astar" => .ok (aStarSearch g h startCity gs running fuel)
  | _ => .error "Unknown algorithm selected"

/-! ### Semantic notions used by the statements

These are specification-side definitions (adjacency, walks, walk cost);
they are defined over the same `GraphData` the engine consumes. -/

/-- Two ids are adjacent when some link joins them in either
orientation (the graph is undirected). -/
def adjacent (g : GraphData) (a b : String) : Prop :=
  ∃ l ∈ g.links, (l.source = a ∧ l.target = b) ∨ (l.source = b ∧ l.target = a)

/-- All links joining `a` and `b` (in either orientation). -/
def linksBetween (g : GraphData) (a b : String) : List Link :=
  g.links.filter (fun l =>
    (l.source == a && l.target == b) || (l.source == b && l.target == a))

/-- The cheapest distance of a link joining `a` and `b` (`0` when no link
joins them; on adjacent pairs this is the genuine minimum). -/
def pairMin (g : GraphData) (a b : String) : ℤ :=
  match (linksBetween g a b).map Link.distance with
  | [] => 0
  | c :: cs => cs.foldl min c

/-- Cost of a node sequence: sum over consecutive pairs of the cheapest
link distance joining them. -/
def walkCost (g : GraphData) : List String → ℤ
  | a :: b :: rest => pairMin g a b + walkCost g (b :: rest)
  | _ => 0

/-- A walk from `s` to `t`: nonempty, starts at `s`, ends at `t`, and
every consecutive pair is adjacent. -/
def ValidWalk (g : GraphData) (s t : String) (p : List String) : Prop :=
  p.head? = some s ∧ p.getLast? = some t ∧ List.Chain' (adjacent g) p

/-! ### Concrete inputs used by the claims -/

/-- The always-running schedule (no cancellation). -/
def runTrue : ℕ → Bool := fun _ => true

/-- The schedule of a run cancelled after `n` expansion-step checks. -/
def cancelAfter (n : ℕ) : ℕ → Bool := fun k => decide (k < n)

/-- A trivial heuristic (used where the heuristic value is irrelevant). -/
def hZero : String → ℤ := fun _ => 0

/-- A trivial haversine stand-in (used where its value is irrelevant). -/
def havZero : City → City → ℤ := fun _ _ => 0

/-- The spec's fixture graph: A–B 10 km, B–C 5 km, A–C 20 km. -/
def fixtureG : GraphData :=
  { nodes := [⟨"A", 0, 0⟩, ⟨"B", 1, 1⟩, ⟨"C", 2, 2⟩],
    links := [⟨"A", "B", 10⟩, ⟨"B", "C", 5⟩, ⟨"A", "C", 20⟩] }

/-- A three-node line: A–B–C with no direct A–C link. -/
def lineG : GraphData :=
  { nodes := [⟨"A", 0, 0⟩, ⟨"B", 1, 1⟩, ⟨"C", 2, 2⟩],
    links := [⟨"A", "B", 10⟩, ⟨"B", "C", 5⟩] }

/-- The spec's unreachable-goal fixture: D is isolated. -/
def isoG : GraphData :=
  { nodes := [⟨"A", 0, 0⟩, ⟨"B", 1, 1⟩, ⟨"C", 2, 2⟩, ⟨"D", 3, 3⟩],
    links := [⟨"A", "B", 10⟩, ⟨"B", "C", 5⟩, ⟨"A", "C", 20⟩] }

/-- A diamond with a tail: two routes A→D (via B and via C) followed by
D–E; exposes UCS's duplicate-discovery counting and its stale-entry
skip. -/
def diamondG : GraphData :=
  { nodes := [⟨"A", 0, 0⟩, ⟨"B", 0, 0⟩, ⟨"C", 0, 0⟩, ⟨"D", 0, 0⟩, ⟨"E", 0, 0⟩],
    links := [⟨"A", "B", 1⟩, ⟨"A", "C", 2⟩, ⟨"B", "D", 10⟩, ⟨"C", "D", 10⟩,
              ⟨"D", "E", 1⟩] }

/-- Graph for the A* suboptimality counterexample: the cheap route A–B–C
costs 2, the direct link A–C costs 3.  B is placed antipodal to C
(latitude 0, longitude 180 versus 0), where the haversine formula yields
`6371·π ≈ 20015` km — far more than the 1 km road, so the straight-line
heuristic overestimates wildly. -/
def cexAstarG : GraphData :=
  { nodes := [⟨"A", 0, 0⟩, ⟨"B", 0, 180⟩, ⟨"C", 0, 0⟩],
    links := [⟨"A", "B", 1⟩, ⟨"B", "C", 1⟩, ⟨"A", "C", 3⟩] }

/-- The value `heuristicToGoalOrGoals(·, 'C')` takes on `cexAstarG`:
`haversine(B, C) = 6371·π` rounds to 20015 km, `haversine(A, C) = 0`,
`haversine(C, C) = 0`. -/
def badH : String → ℤ := fun n => if n = "B" then 20015 else 0

/-- The fixture outcome of BFS and DFS on `fixtureG` from A to C. -/
def outAC : SearchOutcome :=
  { success := true, path := some ["A", "C"], cost := some 20,
    nodesExplored := 3, nodesDiscovered := 3, edgesProcessed := 4,
    reachedGoal := some "C" }

/-- The fixture outcome of UCS and A* (zero heuristic) on `fixtureG`. -/
def outABC : SearchOutcome :=
  { success := true, path := some ["A", "B", "C"], cost := some 15,
    nodesExplored := 3, nodesDiscovered := 4, edgesProcessed := 4,
    reachedGoal := some "C" }

/-- The fixture outcome of greedy best-first (zero heuristic) on
`fixtureG`. -/
def outACg : SearchOutcome :=
  { success := true, path := some ["A", "C"], cost := some 20,
    nodesExplored := 3, nodesDiscovered := 4, edgesProcessed := 4,
    reachedGoal := some "C" }

/-- The fixture outcome of bidirectional search on `fixtureG`. -/
def outACbidi : SearchOutcome :=
  { success := true, path := some ["A", "C"], cost := some 20,
    nodesExplored := 2, nodesDiscovered := 4, edgesProcessed := 2,
    reachedGoal := none }

/-- A well-formed frontier path: nonempty, rooted at `root`, ending at
`node`, consecutive entries adjacent, no repetitions. -/
def PathOk (g : GraphData) (root node : String) (p : List String) : Prop :=
  p.head? = some root ∧ p.getLast? = some node ∧
  List.Chain' (adjacent g) p ∧ p.Nodup

/-- A node the forward half of the bidirectional search has finished
expanding: it is in the forward visited map but no longer in the forward
queue. -/
def FExp (st : BidiState) (y : String) : Prop :=
  (lookupA st.frontVisited y).isSome = true ∧
  y ∉ st.frontQueue.map QEntry.node

/-- A node the backward half has finished expanding. -/
def BExp (st : BidiState) (y : String) : Prop :=
  (lookupA st.backVisited y).isSome = true ∧
  y ∉ st.backQueue.map QEntry.node

/-- The bidirectional loop invariant: queues mirror their visited maps,
stored paths are well-formed (rooted at `start` forward, at `goal`
backward) with all non-final nodes already expanded in their own
direction, queue nodes are distinct, and no node is ever expanded by both
directions (the meeting test fires before a second expansion could
happen). -/
structure BInv (g : GraphData) (start goal : String) (st : BidiState) : Prop where
  fq_mirror : ∀ e ∈ st.frontQueue, lookupA st.frontVisited e.node = some e.path
  bq_mirror : ∀ e ∈ st.backQueue, lookupA st.backVisited e.node = some e.path
  f_store : ∀ x p, lookupA st.frontVisited x = some p →
    PathOk g start x p ∧ ∀ y ∈ p.dropLast, FExp st y
  b_store : ∀ x p, lookupA st.backVisited x = some p →
    PathOk g goal x p ∧ ∀ y ∈ p.dropLast, BExp st y
  disj : ∀ y, FExp st y → BExp st y → False
  fq_nodup : (st.frontQueue.map QEntry.node).Nodup
  bq_nodup : (st.backQueue.map QEntry.node).Nodup

/-- Every node the UCS frontier can ever mention: the start plus every
link endpoint. -/
def nodeUniverse (g : GraphData) (start : String) : List String :=
  start :: (g.links.map Link.source ++ g.links.map Link.target)

/-- A fuel measure for the UCS loop: unvisited universe nodes weighted by
the maximal number of pushes per expansion, plus the frontier length. -/
def ucsMeasure (g : GraphData) (start : String) (st : UcsState) : ℕ :=
  ((nodeUniverse g start).filter
      (fun y => ! st.visited.contains y)).length * (g.links.length + 1) +
    st.frontier.length

/-- Fuel sufficient for UCS to run to completion from its initial state. -/
def ucsFuelBound (g : GraphData) (start : String) : ℕ :=
  (nodeUniverse g start).length * (g.links.length + 1) + 2

/-- The Dijkstra invariant of the UCS loop, with a ghost association list
`D` recording the cost at which each visited node was settled: settled
costs are lower bounds on every walk to the node, every settled node's
unvisited neighbours are covered by a frontier entry through its cheapest
link, frontier entries carry well-formed paths costed at least at their
walk cost, the start is visited or covered at cost `≤ 0`, and no goal node
is ever visited (the loop returns instead). -/
structure UcsInv (g : GraphData) (start : String) (goal : GoalSpec)
    (st : UcsState) (D : List (String × ℤ)) : Prop where
  visited_eq : st.visited = D.map Prod.fst
  settled : ∀ vc ∈ D, ∀ q, ValidWalk g start vc.1 q → vc.2 ≤ walkCost g q
  covered : ∀ vc ∈ D, ∀ y, adjacent g vc.1 y → y ∉ st.visited →
    ∃ e ∈ st.frontier, e.node = y ∧ e.cost ≤ vc.2 + pairMin g vc.1 y
  wf : ∀ e ∈ st.frontier, e.path.head? = some start ∧
    e.path.getLast? = some e.node ∧ List.Chain' (adjacent g) e.path ∧
    walkCost g e.path ≤ e.cost
  start_cov : start ∈ st.visited ∨
    ∃ e ∈ st.frontier, e.node = start ∧ e.cost ≤ 0
  no_goal_visited : ∀ v ∈ st.visited, isGoalNode v goal = false

/-- Counter-free skeleton of the `dls` neighbour loop: scan the
neighbours in order, skip the ones already on the current path, recurse
one level deeper and return the first success. -/
def dlsNbrsPure (prev : String → List String → Option (List String))
    (path : List String) : List Neighbor → Option (List String)
  | [] => none
  | nb :: rest =>
    if path.contains nb.id then dlsNbrsPure prev path rest
    else
      match prev nb.id (path ++ [nb.id]) with
      | some r => some r
      | none => dlsNbrsPure prev path rest

/-- Counter-free skeleton of a `dls` call (no cancellation): goal test,
depth cut, neighbour scan. -/
def dlsPure (g : GraphData) (goal : GoalSpec) :
    ℕ → String → List String → Option (List String)
  | fuel, node, path =>
    if isGoalNode node goal then some path
    else
      match fuel with
      | 0 => none
      | fuel' + 1 =>
        dlsNbrsPure (fun n p => dlsPure g goal fuel' n p) path
          (getNeighbors g node)

/-- First success of depth-limited searches over a list of frontier
entries, in order. -/
def fdls (g : GraphData) (goal : GoalSpec) (fuel : ℕ) :
    List QEntry → Option (List String)
  | [] => none
  | e :: rest =>
    match dlsPure g goal fuel e.node e.path with
    | some r => some r
    | none => fdls g goal fuel rest

/-- The child entries a `dls` call at `path` scans: one per neighbour not
already on the path, in neighbour order. -/
def pushList (path : List String) (nbrs : List Neighbor) : List QEntry :=
  nbrs.filterMap (fun nb =>
    if path.contains nb.id then none else some ⟨nb.id, path ++ [nb.id]⟩)

/-- All child entries of a frontier, in frontier order. -/
def qfull (g : GraphData) : List QEntry → List QEntry
  | [] => []
  | e :: rest => pushList e.path (getNeighbors g e.node) ++ qfull g rest

/-- One whole-level pass of the breadth-first expansion: expand every
entry in order against the shared visited set, accumulating the next
level. -/
def lvlStep (g : GraphData) : List QEntry → List QEntry → List String →
    List QEntry × List String
  | [], acc, vis => (acc, vis)
  | e :: rest, acc, vis =>
    lvlStep g rest
      (bfsExpand e.path acc vis 0 0 (getNeighbors g e.node)).queue
      (bfsExpand e.path acc vis 0 0 (getNeighbors g e.node)).visited

/-- `x` lies within `n` hops of `start`. -/
def Reach (g : GraphData) (start : String) (n : ℕ) (x : String) : Prop :=
  ∃ q, ValidWalk g start x q ∧ q.length ≤ n + 1

/-- The outcome of a counterful `dls` call matches the counter-free one:
successes carry exactly the pure path (and are marked successful),
failures correspond to `none`. -/
def RelRes : DlsRes × DlsSt → Option (List String) → Prop
  | (.success o, _), some p => o.path = some p ∧ o.success = true
  | (.failure _, _), none => True
  | _, _ => False

/-- The path found by the first successful depth iteration. -/
def iddfsFirst (g : GraphData) (goal : GoalSpec) (start : String) :
    List ℤ → Option (List String)
  | [] => none
  | d :: rest =>
    match dlsPure g goal d.toNat start [start] with
    | some p => some p
    | none => iddfsFirst g goal start rest

/-- Invariant of a fully built breadth-first level: entries carry simple
start-rooted paths of uniform length, the visited set is exactly the
`k`-hop ball, and every node at distance exactly `k` appears as an entry
node. -/
structure LvlInv (g : GraphData) (start : String) (k : ℕ) (Q : List QEntry)
    (V : List String) : Prop where
  wf : ∀ e ∈ Q, PathOk g start e.node e.path ∧ e.path.length = k + 1
  v_reach : ∀ v ∈ V, Reach g start k v
  reach_v : ∀ x, Reach g start k x → x ∈ V
  cover : ∀ x, Reach g start k x → (∀ m, m < k → ¬ Reach g start m x) →
    ∃ e ∈ Q, e.node = x

/-- Invariant of a partially built next level during a level pass: every
visited node is either in the `k`-hop ball or an accumulated entry node,
and accumulated entries are simple start-rooted paths of length `k + 2`. -/
structure PassInv (g : GraphData) (start : String) (k : ℕ)
    (A : List QEntry) (Vs : List String) : Prop where
  hv : ∀ y ∈ Vs, Reach g start k y ∨ ∃ e ∈ A, e.node = y
  ha : ∀ e ∈ A, PathOk g start e.node e.path ∧ e.path.length = k + 2

/-! ## Theorems -/

/-! ### General helper lemmas -/

theorem adjacent_symm {g : GraphData} {a b : String} (h : adjacent g a b) :
    adjacent g b a := by
  obtain ⟨l, hl, hor⟩ := h
  exact ⟨l, hl, hor.symm⟩

/-- Membership in `getNeighbors` unpacked to the underlying link. -/
theorem mem_getNeighbors {g : GraphData} {u : String} {nb : Neighbor}
    (h : nb ∈ getNeighbors g u) :
    ∃ l ∈ g.links, nb.distance = l.distance ∧
      ((l.source = u ∧ l.target = nb.id) ∨ (l.target = u ∧ l.source = nb.id)) := by
  unfold getNeighbors at h
  rw [List.mem_filterMap] at h
  obtain ⟨l, hl, hf⟩ := h
  refine ⟨l, hl, ?_⟩
  by_cases hs : l.source = u
  · rw [if_pos hs] at hf
    injection hf with hf
    subst hf
    exact ⟨rfl, Or.inl ⟨hs, rfl⟩⟩
  · rw [if_neg hs] at hf
    by_cases ht : l.target = u
    · rw [if_pos ht] at hf
      injection hf with hf
      subst hf
      exact ⟨rfl, Or.inr ⟨ht, rfl⟩⟩
    · rw [if_neg ht] at hf
      cases hf

theorem adjacent_of_mem_getNeighbors {g : GraphData} {u : String}
    {nb : Neighbor} (h : nb ∈ getNeighbors g u) : adjacent g u nb.id := by
  obtain ⟨l, hl, _, hor⟩ := mem_getNeighbors h
  exact ⟨l, hl, by tauto⟩

/-- Every link joining `u` and a distinct `z` contributes a `getNeighbors`
entry for `z` carrying its own distance. -/
theorem getNeighbors_complete {g : GraphData} {u z : String} {l : Link}
    (hl : l ∈ g.links)
    (hor : (l.source = u ∧ l.target = z) ∨ (l.source = z ∧ l.target = u))
    (hne : z ≠ u) :
    (⟨z, l.distance⟩ : Neighbor) ∈ getNeighbors g u := by
  unfold getNeighbors
  rw [List.mem_filterMap]
  refine ⟨l, hl, ?_⟩
  rcases hor with ⟨h1, h2⟩ | ⟨h1, h2⟩
  · rw [if_pos h1, h2]
  · rw [if_neg (by rw [h1]; exact hne), if_pos h2, h1]

/-- Appending a node adjacent to the last element preserves `PathOk`
provided the new node is fresh. -/
theorem PathOk.extend {g : GraphData} {root u z : String} {p : List String}
    (hp : PathOk g root u p) (hadj : adjacent g u z) (hz : z ∉ p) :
    PathOk g root z (p ++ [z]) := by
  obtain ⟨h1, h2, h3, h4⟩ := hp
  have hne : p ≠ [] := by
    intro h; rw [h] at h1; cases h1
  refine ⟨?_, ?_, ?_, ?_⟩
  · rw [List.head?_append_of_ne_nil _ hne]
    exact h1
  · exact List.getLast?_concat p
  · rw [List.chain'_append]
    refine ⟨h3, List.chain'_singleton z, ?_⟩
    intro x hx y hy
    simp only [List.head?_cons, Option.mem_def, Option.some.injEq] at hy
    rw [h2] at hx
    cases hx
    rw [← hy]
    exact hadj
  · rw [List.nodup_append]
    exact ⟨h4, List.nodup_singleton z, by simpa using hz⟩

/-- A `PathOk` path is nonempty. -/
theorem PathOk.ne_nil {g : GraphData} {root u : String} {p : List String}
    (hp : PathOk g root u p) : p ≠ [] := by
  intro h
  rw [h] at hp
  cases hp.1

/-! ### Stable-sort lemmas -/

theorem mem_insertByKey {α : Type} (key : α → ℤ) (a : α) :
    ∀ (l : List α) (x : α), x ∈ insertByKey key a l ↔ x = a ∨ x ∈ l := by
  intro l
  induction l with
  | nil => intro x; simp [insertByKey]
  | cons b t ih =>
    intro x
    simp only [insertByKey]
    split
    · exact List.mem_cons
    · rw [List.mem_cons, ih x, List.mem_cons]
      tauto

theorem mem_sortByKey {α : Type} (key : α → ℤ) :
    ∀ (l : List α) (x : α), x ∈ sortByKey key l ↔ x ∈ l := by
  intro l
  induction l with
  | nil => intro x; simp [sortByKey]
  | cons a t ih =>
    intro x
    simp only [sortByKey, mem_insertByKey, ih x, List.mem_cons]

theorem length_insertByKey {α : Type} (key : α → ℤ) (a : α) :
    ∀ (l : List α), (insertByKey key a l).length = l.length + 1 := by
  intro l
  induction l with
  | nil => rfl
  | cons b t ih =>
    simp only [insertByKey]
    split
    · rfl
    · simp [ih]

theorem length_sortByKey {α : Type} (key : α → ℤ) :
    ∀ (l : List α), (sortByKey key l).length = l.length := by
  intro l
  induction l with
  | nil => rfl
  | cons a t ih => simp [sortByKey, length_insertByKey, ih]

/-- **C10.**  If either id fails to resolve to a city, the heuristic
returns `Infinity` rather than throwing (the function is total by
construction), and the multi-goal helper returns `Infinity` on an empty
goal set.  (The haversine arithmetic itself is the abstract parameter
`hav`; the guard does not consult it.) -/
theorem claim_C10 (hav : City → City → ℤ) (g : GraphData) (id1 id2 : String)
    (h : getNodeById g id1 = none ∨ getNodeById g id2 = none) :
    calculateStraightLineDistance hav g id1 id2 = EValue.infinity ∧
    heuristicToGoalOrGoals hav g id1 (GoalSpec.multi []) = EValue.infinity := by
  constructor
  · rcases h with h | h
    · cases h2 : getNodeById g id2 <;>
        simp [calculateStraightLineDistance, h, h2]
    · cases h1 : getNodeById g id1 <;>
        simp [calculateStraightLineDistance, h, h1]
  · rfl

/-- Witness for C10: `Z` names no city of the fixture graph. -/
theorem claim_C10_witness :
    (getNodeById fixtureG "Z" = none ∨ getNodeById fixtureG "C" = none) ∧
    calculateStraightLineDistance havZero fixtureG "Z" "C" = EValue.infinity ∧
    heuristicToGoalOrGoals havZero fixtureG "Z" (GoalSpec.multi []) =
      EValue.infinity :=
  ⟨Or.inl (by decide),
   claim_C10 havZero fixtureG "Z" "C" (Or.inl (by decide))⟩

/-- **C8 (counterexample).**  The claim says `calculatePathCost` signals an
invariant violation when a consecutive pair lacks a connecting edge.  It
does not: the pair A–C of `lineG` has no link, yet
`calculatePathCost(["A","C","B"])` silently skips the missing pair and
returns the ordinary number 5 (the C–B distance). -/
theorem claim_C8_counterexample :
    getLinkByNodes lineG "A" "C" = none ∧
    calculatePathCost lineG ["A", "C", "B"] = 5 := by
  decide

/-- **C8 (amended).**  A consecutive pair with no connecting edge
contributes nothing (it is silently skipped, no violation is signalled);
when every consecutive pair is connected the result is the sum of the
distances of the connecting edges. -/
theorem claim_C8 :
    (∀ (g : GraphData) (a b : String) (rest : List String),
        getLinkByNodes g a b = none →
        calculatePathCost g (a :: b :: rest) = calculatePathCost g (b :: rest)) ∧
    (∀ (g : GraphData) (p : List String),
        List.Chain' (fun x y => (getLinkByNodes g x y).isSome) p →
        calculatePathCost g p =
          ((p.zip p.tail).filterMap
            (fun q => (getLinkByNodes g q.1 q.2).map Link.distance)).sum) := by
  constructor
  · intro g a b rest h
    simp [calculatePathCost, h]
  · intro g p
    induction p with
    | nil => intro _; rfl
    | cons a t ih =>
      cases t with
      | nil => intro _; rfl
      | cons b rest =>
        intro hch
        rw [List.chain'_cons] at hch
        obtain ⟨hab, hch⟩ := hch
        obtain ⟨l, hl⟩ := Option.isSome_iff_exists.mp hab
        have hrec := ih hch
        simp only [calculatePathCost, hl, List.zip_cons_cons, List.tail_cons,
          List.filterMap_cons, Option.map_some', List.sum_cons] at hrec ⊢
        omega

/-- Witness for C8: the skip at the missing A–C pair of `lineG`, and the
fully-connected path A–B–C. -/
theorem claim_C8_witness :
    (getLinkByNodes lineG "A" "C" = none ∧
     calculatePathCost lineG ["A", "C"] = calculatePathCost lineG ["C"]) ∧
    (List.Chain' (fun x y => (getLinkByNodes lineG x y).isSome) ["A", "B", "C"] ∧
     calculatePathCost lineG ["A", "B", "C"] =
       (((["A", "B", "C"] : List String).zip ["B", "C"]).filterMap
         (fun q => (getLinkByNodes lineG q.1 q.2).map Link.distance)).sum) :=
  ⟨⟨by decide, claim_C8.1 lineG "A" "C" [] (by decide)⟩,
   ⟨by rw [List.chain'_cons, List.chain'_pair]; exact ⟨by decide, by decide⟩,
    claim_C8.2 lineG ["A", "B", "C"]
      (by rw [List.chain'_cons, List.chain'_pair]; exact ⟨by decide, by decide⟩)⟩⟩

/-- **C9 (counterexample).**  The claim says a multi-goal request for the
bidirectional strategy is rejected at the invocation boundary as a
descriptive error.  It is not: `runAlgo('bidirectional', 'A', 'C', 5,
'B')` runs to completion and returns an ordinary successful outcome — the
secondary goal `B` is silently dropped rather than rejected. -/
theorem claim_C9_counterexample :
    runAlgo fixtureG hZero "bidirectional" "A" "C" 5 "B" runTrue 10 =
      Except.ok (some { success := true, path := some ["A", "C"],
                        cost := some 20, nodesExplored := 2,
                        nodesDiscovered := 4, edgesProcessed := 2 }) := by
  rfl

/-- **C9 (amended).**  The dispatcher never rejects a multi-goal request
for the bidirectional strategy; it invokes the single-goal
`bidirectionalSearch` with the primary goal only, so the result is
independent of the secondary goal (bidirectional search indeed never runs
with multiple goals, but no configuration error is reported). -/
theorem claim_C9 (g : GraphData) (h : String → ℤ) (start goal : String)
    (depthLimit : ℤ) (sec1 sec2 : String) (running : ℕ → Bool) (fuel : ℕ) :
    runAlgo g h "bidirectional" start goal depthLimit sec1 running fuel =
      Except.ok (bidirectionalSearch g start goal running fuel) ∧
    runAlgo g h "bidirectional" start goal depthLimit sec1 running fuel =
      runAlgo g h "bidirectional" start goal depthLimit sec2 running fuel := by
  exact ⟨rfl, rfl⟩

/-- **C5 (counterexample).**  On `diamondG` (five distinct nodes, all of
which enter the frontier), UCS reports `nodesDiscovered = 6`: node D is
counted twice because it is pushed once via B and again via C before it is
ever visited.  `nodesDiscovered` therefore counts frontier insertions, not
distinct nodes as claimed. -/
theorem claim_C5_counterexample :
    uniformCostSearch diamondG "A" (GoalSpec.single "E") runTrue 20 =
      some { success := true, path := some ["A", "B", "D", "E"],
             cost := some 12, nodesExplored := 5, nodesDiscovered := 6,
             edgesProcessed := 9, reachedGoal := some "E" } ∧
    diamondG.nodes.length = 5 ∧ (diamondG.nodes.map City.id).Nodup := by
  decide

/-- **C1 (counterexample).**  On `cexAstarG` the heuristic value at B (the
haversine distance to the antipodal goal C, ≈ 20015 km) grossly
overestimates the 1 km road onward, so A* expands the direct link first
and returns A–C at cost 3, while the cheapest A→C route costs 2 (UCS
finds it on the same graph).  A* therefore does not return a minimum-cost
path for every graph with non-negative edge distances. -/
theorem claim_C1_counterexample :
    aStarSearch cexAstarG badH "A" (GoalSpec.single "C") runTrue 10 =
      some { success := true, path := some ["A", "C"], cost := some 3,
             nodesExplored := 2, nodesDiscovered := 3, edgesProcessed := 2,
             reachedGoal := some "C" } ∧
    uniformCostSearch cexAstarG "A" (GoalSpec.single "C") runTrue 10 =
      some { success := true, path := some ["A", "B", "C"], cost := some 2,
             nodesExplored := 3, nodesDiscovered := 4, edgesProcessed := 4,
             reachedGoal := some "C" } ∧
    walkCost cexAstarG ["A", "B", "C"] = 2 := by
  decide

/-- **C4 (counterexample).**  The claim says cancellation produces a
CANCELLED outcome distinct from the EXHAUSTED no-path outcome.  It does
not: BFS cancelled after one expansion step returns `success: false` with
reason "No path exists between the cities" — exactly the reason an
exhausted search (here: unreachable isolated goal D) reports.  The
counters up to the cancellation are carried (one step: `nodesExplored =
1`). -/
theorem claim_C4_counterexample :
    breadthFirstSearch lineG "A" (GoalSpec.single "C") (cancelAfter 1) 10 =
      some { success := false, nodesExplored := 1, nodesDiscovered := 2,
             edgesProcessed := 1,
             reason := some "No path exists between the cities" } ∧
    breadthFirstSearch isoG "A" (GoalSpec.single "D") runTrue 10 =
      some { success := false, nodesExplored := 3, nodesDiscovered := 3,
             edgesProcessed := 6,
             reason := some "No path exists between the cities" } := by
  decide

/-- **C6 (counterexample).**  On the line A–B–C with depth limit 1 the
search is cut off by the depth bound (limit 2 finds the path), yet the
reported failure reason is "No path found within depth limit", not the
claimed "depth limit reached": the recursive `dls` discards the reasons of
failed child calls, so the bound-hit reason never propagates out of a
branch. -/
theorem claim_C6_counterexample :
    (depthLimitedSearch lineG "A" (GoalSpec.single "C") 1 runTrue).success
        = false ∧
    (depthLimitedSearch lineG "A" (GoalSpec.single "C") 1 runTrue).reason
        = some "No path found within depth limit" ∧
    (depthLimitedSearch lineG "A" (GoalSpec.single "C") 2 runTrue).success
        = true := by
  decide

/-- Helper: the neighbour loop of `dls` only ever fails with the generic
"No path found within depth limit" reason — the reasons of failed child
calls (in particular "Depth limit reached") are discarded. -/
theorem dlsNbrs_failure_reason
    (prev : String → List String → DlsSt → DlsRes × DlsSt)
    (path : List String) :
    ∀ (nbrs : List Neighbor) (st : DlsSt) (r : String) (st' : DlsSt),
      dlsNbrs prev path nbrs st = (.failure r, st') →
      r = "No path found within depth limit" := by
  intro nbrs
  induction nbrs with
  | nil =>
    intro st r st' h
    simp only [dlsNbrs, Prod.mk.injEq, DlsRes.failure.injEq] at h
    exact h.1.symm
  | cons nb rest ih =>
    intro st r st' h
    simp only [dlsNbrs] at h
    by_cases hc : path.contains nb.id
    · rw [if_pos hc] at h
      exact ih _ _ _ h
    · rw [if_neg hc] at h
      rcases hp : prev nb.id (path ++ [nb.id]) { st with ep := st.ep + 1 } with
        ⟨res, st2⟩
      rw [hp] at h
      cases res with
      | success o => simp at h
      | failure r' => exact ih _ _ _ h

/-- Helper: any success outcome produced by `dlsNbrs` satisfies `P`,
provided the one-level-deeper search `prev` only produces success
outcomes satisfying `P`. -/
theorem dlsNbrs_success_prop (P : SearchOutcome → Prop)
    (prev : String → List String → DlsSt → DlsRes × DlsSt)
    (hprev : ∀ n p s o s', prev n p s = (.success o, s') → P o)
    (path : List String) :
    ∀ (nbrs : List Neighbor) (st : DlsSt) (o : SearchOutcome) (st' : DlsSt),
      dlsNbrs prev path nbrs st = (.success o, st') → P o := by
  intro nbrs
  induction nbrs with
  | nil => intro st o st' h; simp [dlsNbrs] at h
  | cons nb rest ih =>
    intro st o st' h
    simp only [dlsNbrs] at h
    by_cases hc : path.contains nb.id
    · rw [if_pos hc] at h
      exact ih _ _ _ h
    · rw [if_neg hc] at h
      rcases hp : prev nb.id (path ++ [nb.id]) { st with ep := st.ep + 1 } with
        ⟨res, st2⟩
      rw [hp] at h
      cases res with
      | success o' =>
        simp only [Prod.mk.injEq, DlsRes.success.injEq] at h
        exact h.1 ▸ hprev _ _ _ _ _ hp
      | failure r' => exact ih _ _ _ h

/-- Helper: every success outcome of a `dls` call has `success = true`. -/
theorem dlsGo_success_true (g : GraphData) (goal : GoalSpec)
    (running : ℕ → Bool) :
    ∀ (fuel : ℕ) (node : String) (path : List String) (st : DlsSt)
      (o : SearchOutcome) (st' : DlsSt),
      dlsGo g goal running fuel node path st = (.success o, st') →
      o.success = true := by
  intro fuel
  induction fuel with
  | zero =>
    intro node path st o st' h
    simp only [dlsGo] at h
    split at h
    · simp at h
    · split at h
      · simp only [Prod.mk.injEq, DlsRes.success.injEq] at h
        rw [← h.1]
      · simp at h
  | succ f ih =>
    intro node path st o st' h
    rw [dlsGo] at h
    split at h
    · simp at h
    · split at h
      · simp only [Prod.mk.injEq, DlsRes.success.injEq] at h
        rw [← h.1]
      · exact dlsNbrs_success_prop _ _ (fun n p s o' s' hp => ih n p s o' s' hp)
          _ _ _ _ _ h

/-- Step lemma: a `dls` call that sees the cleared flag returns "Search
stopped" immediately. -/
theorem dlsGo_stopped (g : GraphData) (goal : GoalSpec) (running : ℕ → Bool)
    (fuel : ℕ) (node : String) (path : List String) (st : DlsSt)
    (hr : running st.k = false) :
    dlsGo g goal running fuel node path st =
      (.failure "Search stopped", { st with k := st.k + 1 }) := by
  unfold dlsGo
  rw [hr]
  simp

/-- Step lemma: a running `dls` call at the goal returns the success
outcome built from the current path and counters. -/
theorem dlsGo_goal (g : GraphData) (goal : GoalSpec) (running : ℕ → Bool)
    (fuel : ℕ) (node : String) (path : List String) (st : DlsSt)
    (hr : running st.k = true) (hg : isGoalNode node goal = true) :
    dlsGo g goal running fuel node path st =
      (.success { success := true, path := some path,
                  cost := some (calculatePathCost g path),
                  nodesExplored := st.ne + 1, nodesDiscovered := st.nd,
                  edgesProcessed := st.ep,
                  reachedGoal := reachedGoalFromPath path },
       { st with ne := st.ne + 1, k := st.k + 1 }) := by
  conv_lhs => rw [dlsGo]
  rw [hr, hg]
  simp

/-- Step lemma: a running `dls` call at a non-goal node with exhausted
depth budget is cut off with "Depth limit reached". -/
theorem dlsGo_zero_cut (g : GraphData) (goal : GoalSpec) (running : ℕ → Bool)
    (node : String) (path : List String) (st : DlsSt)
    (hr : running st.k = true) (hg : isGoalNode node goal = false) :
    dlsGo g goal running 0 node path st =
      (.failure "Depth limit reached",
       { st with ne := st.ne + 1, k := st.k + 1 }) := by
  conv_lhs => rw [dlsGo]
  rw [hr, hg]
  simp

/-- Step lemma: a running `dls` call at a non-goal node with depth budget
left iterates its neighbours one level deeper. -/
theorem dlsGo_succ_expand (g : GraphData) (goal : GoalSpec)
    (running : ℕ → Bool) (f : ℕ) (node : String) (path : List String)
    (st : DlsSt) (hr : running st.k = true)
    (hg : isGoalNode node goal = false) :
    dlsGo g goal running (f + 1) node path st =
      dlsNbrs (fun n p s => dlsGo g goal running f n p s) path
        (getNeighbors g node) { st with ne := st.ne + 1, k := st.k + 1 } := by
  conv_lhs => rw [dlsGo]
  rw [hr, hg]
  simp

/-- **C6 (amended).**  The two failure reasons are distinguished only at
the root call: "Depth limit reached" is reported exactly when the root
itself sits at the bound (`depthLimit ≤ 0` with a non-goal start); as soon
as the root expands children, every failure — including one caused by the
bound cutting off a branch — is reported as "No path found within depth
limit", because child failure reasons are discarded; a run cancelled
before the root expansion reports "Search stopped". -/
theorem claim_C6 :
    (∀ (g : GraphData) (start : String) (goal : GoalSpec)
        (running : ℕ → Bool) (dl : ℤ), running 0 = true →
        isGoalNode start goal = false → dl ≤ 0 →
        (depthLimitedSearch g start goal dl running).reason =
          some "Depth limit reached") ∧
    (∀ (g : GraphData) (start : String) (goal : GoalSpec)
        (running : ℕ → Bool) (dl : ℤ), running 0 = true →
        isGoalNode start goal = false → 1 ≤ dl →
        (depthLimitedSearch g start goal dl running).success = true ∨
        (depthLimitedSearch g start goal dl running).reason =
          some "No path found within depth limit") ∧
    (∀ (g : GraphData) (start : String) (goal : GoalSpec)
        (running : ℕ → Bool) (dl : ℤ), running 0 = false →
        (depthLimitedSearch g start goal dl running).reason =
          some "Search stopped") := by
  refine ⟨?_, ?_, ?_⟩
  · intro g start goal running dl hr hg hdl
    have h0 : dl.toNat = 0 := by omega
    unfold depthLimitedSearch depthLimitedSearchFrom
    rw [h0, dlsGo_zero_cut g goal running start [start] _ hr hg]
  · intro g start goal running dl hr hg hdl
    obtain ⟨n, hn⟩ := Nat.exists_eq_succ_of_ne_zero
      (show dl.toNat ≠ 0 by omega)
    unfold depthLimitedSearch depthLimitedSearchFrom
    rw [hn, dlsGo_succ_expand g goal running n start [start] _ hr hg]
    split
    · rename_i o st' heq
      left
      have : o.success = true :=
        dlsNbrs_success_prop (fun o' => o'.success = true) _
          (fun n' p s o' s' hp => dlsGo_success_true g goal running n n' p s o' s' hp)
          _ _ _ _ _ heq
      simpa using this
    · rename_i r st' heq
      right
      have : r = "No path found within depth limit" :=
        dlsNbrs_failure_reason _ _ _ _ _ _ heq
      simp [this]
  · intro g start goal running dl hr
    unfold depthLimitedSearch depthLimitedSearchFrom
    rw [dlsGo_stopped g goal running dl.toNat start [start] _ hr]

/-- Witness for C6: the three regimes exercised on `lineG`. -/
theorem claim_C6_witness :
    (runTrue 0 = true ∧ isGoalNode "A" (GoalSpec.single "C") = false ∧
     (0 : ℤ) ≤ 0 ∧
     (depthLimitedSearch lineG "A" (GoalSpec.single "C") 0 runTrue).reason =
       some "Depth limit reached") ∧
    ((depthLimitedSearch lineG "A" (GoalSpec.single "C") 1 runTrue).success
        = true ∨
     (depthLimitedSearch lineG "A" (GoalSpec.single "C") 1 runTrue).reason =
       some "No path found within depth limit") ∧
    (cancelAfter 0 0 = false ∧
     (depthLimitedSearch lineG "A" (GoalSpec.single "C") 3
        (cancelAfter 0)).reason = some "Search stopped") :=
  ⟨⟨by decide, by decide, by decide,
    claim_C6.1 lineG "A" (GoalSpec.single "C") runTrue 0 (by decide) (by decide)
      (by decide)⟩,
   claim_C6.2.1 lineG "A" (GoalSpec.single "C") runTrue 1 (by decide)
     (by decide) (by decide),
   ⟨by decide,
    claim_C6.2.2 lineG "A" (GoalSpec.single "C") (cancelAfter 0) 3 (by decide)⟩⟩

/-- **C4 (amended).**  Cancellation is indeed checked at the top of every
expansion step, stops the loop at once and carries the accumulated
counters into the returned outcome, and no error is thrown — but the
returned outcome is not a distinct CANCELLED variant: the six
frontier-loop strategies return exactly the EXHAUSTED no-path outcome
(reason "No path exists between the cities"); `depthLimitedSearch` returns
a distinct "Search stopped" reason only when cancelled before its root
expansion, and IDDFS cancelled at an iteration boundary reports its
generic maximum-depth failure. -/
theorem claim_C4 :
    (∀ (g : GraphData) (goal : GoalSpec) (running : ℕ → Bool) (fuel : ℕ)
        (st : BfsState), st.queue ≠ [] → running st.k = false →
        bfsLoop g goal running (fuel + 1) st =
          some (noPathOutcome st.nodesExplored st.nodesDiscovered
            st.edgesProcessed)) ∧
    (∀ (g : GraphData) (goal : GoalSpec) (running : ℕ → Bool) (fuel : ℕ)
        (st : BfsState), st.queue ≠ [] → running st.k = false →
        dfsLoop g goal running (fuel + 1) st =
          some (noPathOutcome st.nodesExplored st.nodesDiscovered
            st.edgesProcessed)) ∧
    (∀ (g : GraphData) (goal : GoalSpec) (running : ℕ → Bool) (fuel : ℕ)
        (st : UcsState), st.frontier ≠ [] → running st.k = false →
        ucsLoop g goal running (fuel + 1) st =
          some (noPathOutcome st.nodesExplored st.nodesDiscovered
            st.edgesProcessed)) ∧
    (∀ (g : GraphData) (goal : GoalSpec) (h : String → ℤ)
        (running : ℕ → Bool) (fuel : ℕ) (st : GreedyState),
        st.frontier ≠ [] → running st.k = false →
        greedyLoop g goal h running (fuel + 1) st =
          some (noPathOutcome st.nodesExplored st.nodesDiscovered
            st.edgesProcessed)) ∧
    (∀ (g : GraphData) (goal : GoalSpec) (h : String → ℤ)
        (running : ℕ → Bool) (fuel : ℕ) (st : AStarState),
        st.frontier ≠ [] → running st.k = false →
        astarLoop g goal h running (fuel + 1) st =
          some (noPathOutcome st.nodesExplored st.nodesDiscovered
            st.edgesProcessed)) ∧
    (∀ (g : GraphData) (running : ℕ → Bool) (fuel : ℕ) (st : BidiState),
        st.frontQueue ≠ [] → st.backQueue ≠ [] → running st.k = false →
        bidiLoop g running (fuel + 1) st =
          some (noPathOutcome st.ne st.nd st.ep)) ∧
    (∀ (g : GraphData) (start : String) (goal : GoalSpec)
        (running : ℕ → Bool) (dl : ℤ), running 0 = false →
        depthLimitedSearch g start goal dl running =
          { success := false, nodesExplored := 0, nodesDiscovered := 1,
            edgesProcessed := 0, reason := some "Search stopped" }) ∧
    (∀ (g : GraphData) (start : String) (goal : GoalSpec)
        (running : ℕ → Bool), running 0 = false →
        iterativeDeepeningSearch g start goal running =
          { success := false, nodesExplored := 0, nodesDiscovered := 0,
            edgesProcessed := 0,
            reason := some "No path found within maximum depth of 5" }) := by
  refine ⟨?_, ?_, ?_, ?_, ?_, ?_, ?_, ?_⟩
  · intro g goal running fuel st hq hr
    rcases hq' : st.queue with _ | ⟨e, rest⟩
    · exact absurd hq' hq
    · simp [bfsLoop, hq', hr]
  · intro g goal running fuel st hq hr
    rcases hq' : st.queue with _ | ⟨e, rest⟩
    · exact absurd hq' hq
    · simp [dfsLoop, hq', hr]
  · intro g goal running fuel st hq hr
    rcases hq' : st.frontier with _ | ⟨e, rest⟩
    · exact absurd hq' hq
    · simp [ucsLoop, hq', hr]
  · intro g goal h running fuel st hq hr
    rcases hq' : st.frontier with _ | ⟨e, rest⟩
    · exact absurd hq' hq
    · simp [greedyLoop, hq', hr]
  · intro g goal h running fuel st hq hr
    rcases hq' : st.frontier with _ | ⟨e, rest⟩
    · exact absurd hq' hq
    · simp [astarLoop, hq', hr]
  · intro g running fuel st hf hb hr
    have hf' : st.frontQueue.isEmpty = false := by
      simpa [List.isEmpty_iff] using hf
    have hb' : st.backQueue.isEmpty = false := by
      simpa [List.isEmpty_iff] using hb
    simp [bidiLoop, hf', hb', hr]
  · intro g start goal running dl hr
    unfold depthLimitedSearch depthLimitedSearchFrom
    rw [dlsGo_stopped g goal running dl.toNat start [start] _ hr]
  · intro g start goal running hr
    simp only [iterativeDeepeningSearch, iddfsGo, hr]
    rfl

/-- Witness for C4: BFS cancelled at its first expansion step on `lineG`,
and DLS cancelled before its root expansion. -/
theorem claim_C4_witness :
    (([(⟨"A", ["A"]⟩ : QEntry)] : List QEntry) ≠ [] ∧
     cancelAfter 0 0 = false ∧
     bfsLoop lineG (GoalSpec.single "C") (cancelAfter 0) 10
        { queue := [⟨"A", ["A"]⟩], visited := ["A"], nodesExplored := 0,
          nodesDiscovered := 1, edgesProcessed := 0, k := 0 } =
       some (noPathOutcome 0 1 0)) ∧
    (cancelAfter 0 0 = false ∧
     depthLimitedSearch lineG "A" (GoalSpec.single "C") 4 (cancelAfter 0) =
       { success := false, nodesExplored := 0, nodesDiscovered := 1,
         edgesProcessed := 0, reason := some "Search stopped" }) :=
  ⟨⟨by decide, by decide,
    claim_C4.1 lineG (GoalSpec.single "C") (cancelAfter 0) 9
      { queue := [⟨"A", ["A"]⟩], visited := ["A"], nodesExplored := 0,
        nodesDiscovered := 1, edgesProcessed := 0, k := 0 }
      (by decide) (by decide)⟩,
   ⟨by decide,
    claim_C4.2.2.2.2.2.2.1 lineG "A" (GoalSpec.single "C") (cancelAfter 0) 4
      (by decide)⟩⟩

/-! ### Path well-formedness of the frontier loops (towards C2 and C3) -/

/-- BFS neighbour pass: well-formedness of all queue entries (paths rooted
at `root`, ending at their node, adjacent steps, no repetition, all nodes
visited) is preserved, and the visited set only grows. -/
theorem bfsExpand_inv (g : GraphData) (root pnode : String)
    (ppath : List String) (hp : PathOk g root pnode ppath) :
    ∀ (nbrs : List Neighbor) (queue : List QEntry) (visited : List String)
      (nd ep : ℕ),
      (∀ nb ∈ nbrs, adjacent g pnode nb.id) →
      (∀ x ∈ ppath, x ∈ visited) →
      (∀ e ∈ queue, PathOk g root e.node e.path ∧ ∀ x ∈ e.path, x ∈ visited) →
      (∀ e ∈ (bfsExpand ppath queue visited nd ep nbrs).queue,
          PathOk g root e.node e.path ∧
          ∀ x ∈ e.path, x ∈ (bfsExpand ppath queue visited nd ep nbrs).visited) ∧
      (∀ x ∈ visited, x ∈ (bfsExpand ppath queue visited nd ep nbrs).visited) := by
  intro nbrs
  induction nbrs with
  | nil =>
    intro queue visited nd ep _ _ hq
    exact ⟨hq, fun x hx => hx⟩
  | cons nb rest ih =>
    intro queue visited nd ep hadj hpv hq
    simp only [bfsExpand]
    split
    · exact ih queue visited nd (ep + 1)
        (fun nb' h => hadj nb' (List.mem_cons_of_mem _ h)) hpv hq
    · rename_i hnb
      have hnbm : nb.id ∉ visited := fun hmem =>
        hnb (List.elem_eq_true_of_mem hmem)
      have hentries : ∀ e ∈ queue ++ [(⟨nb.id, ppath ++ [nb.id]⟩ : QEntry)],
          PathOk g root e.node e.path ∧
          ∀ x ∈ e.path, x ∈ visited ++ [nb.id] := by
        intro e he
        rcases List.mem_append.mp he with he | he
        · obtain ⟨h1, h2⟩ := hq e he
          exact ⟨h1, fun x hx => List.mem_append_left _ (h2 x hx)⟩
        · rcases List.mem_singleton.mp he with rfl
          refine ⟨hp.extend (hadj nb (List.mem_cons_self _ _))
            (fun hmem => hnbm (hpv _ hmem)), ?_⟩
          intro x hx
          rcases List.mem_append.mp hx with hx | hx
          · exact List.mem_append_left _ (hpv x hx)
          · exact List.mem_append_right _ hx
      obtain ⟨ha, hb⟩ := ih (queue ++ [⟨nb.id, ppath ++ [nb.id]⟩])
        (visited ++ [nb.id]) (nd + 1) (ep + 1)
        (fun nb' h => hadj nb' (List.mem_cons_of_mem _ h))
        (fun x hx => List.mem_append_left _ (hpv x hx)) hentries
      exact ⟨ha, fun x hx => hb x (List.mem_append_left _ hx)⟩

/-- The BFS loop only returns successful outcomes whose path is rooted at
`root`, cycle-free, follows links, and ends at a goal node. -/
theorem bfsLoop_success (g : GraphData) (root : String) (goal : GoalSpec)
    (running : ℕ → Bool) :
    ∀ (fuel : ℕ) (st : BfsState) (o : SearchOutcome),
      (∀ e ∈ st.queue, PathOk g root e.node e.path ∧
        ∀ x ∈ e.path, x ∈ st.visited) →
      bfsLoop g goal running fuel st = some o → o.success = true →
      ∃ p z, o.path = some p ∧ PathOk g root z p ∧ isGoalNode z goal = true := by
  intro fuel
  induction fuel with
  | zero => intro st o _ h; cases h
  | succ fuel ih =>
    intro st o hq hrun hsucc
    rw [bfsLoop] at hrun
    split at hrun
    · rename_i hqe
      cases Option.some.inj hrun
      cases hsucc
    · rename_i e rest hqe
      split at hrun
      · cases Option.some.inj hrun
        cases hsucc
      · split at hrun
        · rename_i hgoal
          cases Option.some.inj hrun
          obtain ⟨h1, _⟩ := hq e (hqe ▸ List.mem_cons_self _ _)
          exact ⟨e.path, e.node, rfl, h1, hgoal⟩
        · have hpar := hq e (hqe ▸ List.mem_cons_self _ _)
          have hrest : ∀ e' ∈ rest, PathOk g root e'.node e'.path ∧
              ∀ x ∈ e'.path, x ∈ st.visited :=
            fun e' he' => hq e' (hqe ▸ List.mem_cons_of_mem _ he')
          have hexp := bfsExpand_inv g root e.node e.path hpar.1
            (getNeighbors g e.node) rest st.visited st.nodesDiscovered
            st.edgesProcessed
            (fun nb h => adjacent_of_mem_getNeighbors h)
            hpar.2 hrest
          exact ih _ o hexp.1 hrun hsucc

/-- DFS neighbour pass: same preservation as BFS (entries are pushed on
the stack top instead). -/
theorem dfsExpand_inv (g : GraphData) (root pnode : String)
    (ppath : List String) (hp : PathOk g root pnode ppath) :
    ∀ (nbrs : List Neighbor) (stack : List QEntry) (visited : List String)
      (nd ep : ℕ),
      (∀ nb ∈ nbrs, adjacent g pnode nb.id) →
      (∀ x ∈ ppath, x ∈ visited) →
      (∀ e ∈ stack, PathOk g root e.node e.path ∧ ∀ x ∈ e.path, x ∈ visited) →
      (∀ e ∈ (dfsExpand ppath stack visited nd ep nbrs).queue,
          PathOk g root e.node e.path ∧
          ∀ x ∈ e.path, x ∈ (dfsExpand ppath stack visited nd ep nbrs).visited) ∧
      (∀ x ∈ visited, x ∈ (dfsExpand ppath stack visited nd ep nbrs).visited) := by
  intro nbrs
  induction nbrs with
  | nil =>
    intro stack visited nd ep _ _ hq
    exact ⟨hq, fun x hx => hx⟩
  | cons nb rest ih =>
    intro stack visited nd ep hadj hpv hq
    simp only [dfsExpand]
    split
    · exact ih stack visited nd (ep + 1)
        (fun nb' h => hadj nb' (List.mem_cons_of_mem _ h)) hpv hq
    · rename_i hnb
      have hnbm : nb.id ∉ visited := fun hmem =>
        hnb (List.elem_eq_true_of_mem hmem)
      have hentries : ∀ e ∈ (⟨nb.id, ppath ++ [nb.id]⟩ : QEntry) :: stack,
          PathOk g root e.node e.path ∧
          ∀ x ∈ e.path, x ∈ visited ++ [nb.id] := by
        intro e he
        rcases List.mem_cons.mp he with rfl | he
        · refine ⟨hp.extend (hadj nb (List.mem_cons_self _ _))
            (fun hmem => hnbm (hpv _ hmem)), ?_⟩
          intro x hx
          rcases List.mem_append.mp hx with hx | hx
          · exact List.mem_append_left _ (hpv x hx)
          · exact List.mem_append_right _ hx
        · obtain ⟨h1, h2⟩ := hq e he
          exact ⟨h1, fun x hx => List.mem_append_left _ (h2 x hx)⟩
      obtain ⟨ha, hb⟩ := ih (⟨nb.id, ppath ++ [nb.id]⟩ :: stack)
        (visited ++ [nb.id]) (nd + 1) (ep + 1)
        (fun nb' h => hadj nb' (List.mem_cons_of_mem _ h))
        (fun x hx => List.mem_append_left _ (hpv x hx)) hentries
      exact ⟨ha, fun x hx => hb x (List.mem_append_left _ hx)⟩

/-- The DFS loop: same conclusion as BFS. -/
theorem dfsLoop_success (g : GraphData) (root : String) (goal : GoalSpec)
    (running : ℕ → Bool) :
    ∀ (fuel : ℕ) (st : BfsState) (o : SearchOutcome),
      (∀ e ∈ st.queue, PathOk g root e.node e.path ∧
        ∀ x ∈ e.path, x ∈ st.visited) →
      dfsLoop g goal running fuel st = some o → o.success = true →
      ∃ p z, o.path = some p ∧ PathOk g root z p ∧ isGoalNode z goal = true := by
  intro fuel
  induction fuel with
  | zero => intro st o _ h; cases h
  | succ fuel ih =>
    intro st o hq hrun hsucc
    rw [dfsLoop] at hrun
    split at hrun
    · cases Option.some.inj hrun
      cases hsucc
    · rename_i e rest hqe
      split at hrun
      · cases Option.some.inj hrun
        cases hsucc
      · split at hrun
        · rename_i hgoal
          cases Option.some.inj hrun
          obtain ⟨h1, _⟩ := hq e (hqe ▸ List.mem_cons_self _ _)
          exact ⟨e.path, e.node, rfl, h1, hgoal⟩
        · have hpar := hq e (hqe ▸ List.mem_cons_self _ _)
          have hrest : ∀ e' ∈ rest, PathOk g root e'.node e'.path ∧
              ∀ x ∈ e'.path, x ∈ st.visited :=
            fun e' he' => hq e' (hqe ▸ List.mem_cons_of_mem _ he')
          have hexp := dfsExpand_inv g root e.node e.path hpar.1
            (getNeighbors g e.node).reverse rest st.visited st.nodesDiscovered
            st.edgesProcessed
            (fun nb h =>
              adjacent_of_mem_getNeighbors (List.mem_reverse.mp h))
            hpar.2 hrest
          exact ih _ o hexp.1 hrun hsucc

/-- UCS neighbour pass: every output entry is well-formed with all nodes
but its own already visited (the visited set is not modified here). -/
theorem ucsExpand_inv (g : GraphData) (root pnode : String)
    (ppath : List String) (cost : ℤ) (hp : PathOk g root pnode ppath) :
    ∀ (nbrs : List Neighbor) (frontier : List CEntry) (visited : List String)
      (nd ep : ℕ),
      (∀ nb ∈ nbrs, adjacent g pnode nb.id) →
      (∀ x ∈ ppath, x ∈ visited) →
      (∀ e ∈ frontier, PathOk g root e.node e.path ∧
        ∀ x ∈ e.path.dropLast, x ∈ visited) →
      ∀ e ∈ (ucsExpand ppath cost frontier visited nd ep nbrs).frontier,
        PathOk g root e.node e.path ∧ ∀ x ∈ e.path.dropLast, x ∈ visited := by
  intro nbrs
  induction nbrs with
  | nil => intro frontier visited nd ep _ _ hf; exact hf
  | cons nb rest ih =>
    intro frontier visited nd ep hadj hpv hf
    simp only [ucsExpand]
    split
    · exact ih frontier visited nd (ep + 1)
        (fun nb' h => hadj nb' (List.mem_cons_of_mem _ h)) hpv hf
    · rename_i hnb
      have hnbm : nb.id ∉ visited := fun hmem =>
        hnb (List.elem_eq_true_of_mem hmem)
      refine ih _ visited (nd + 1) (ep + 1)
        (fun nb' h => hadj nb' (List.mem_cons_of_mem _ h)) hpv ?_
      intro e he
      rcases List.mem_append.mp he with he | he
      · exact hf e he
      · rcases List.mem_singleton.mp he with rfl
        refine ⟨hp.extend (hadj nb (List.mem_cons_self _ _))
          (fun hmem => hnbm (hpv _ hmem)), ?_⟩
        simp only [List.dropLast_concat]
        exact hpv

/-- The UCS loop: successful outcomes carry a rooted, cycle-free,
link-following path ending at a goal node. -/
theorem ucsLoop_success (g : GraphData) (root : String) (goal : GoalSpec)
    (running : ℕ → Bool) :
    ∀ (fuel : ℕ) (st : UcsState) (o : SearchOutcome),
      (∀ e ∈ st.frontier, PathOk g root e.node e.path ∧
        ∀ x ∈ e.path.dropLast, x ∈ st.visited) →
      ucsLoop g goal running fuel st = some o → o.success = true →
      ∃ p z, o.path = some p ∧ PathOk g root z p ∧ isGoalNode z goal = true := by
  intro fuel
  induction fuel with
  | zero => intro st o _ h; cases h
  | succ fuel ih =>
    intro st o hq hrun hsucc
    rw [ucsLoop] at hrun
    split at hrun
    · cases Option.some.inj hrun
      cases hsucc
    · rename_i e0 rest0 hne
      split at hrun
      · cases Option.some.inj hrun
        cases hsucc
      · split at hrun
        · cases Option.some.inj hrun
          cases hsucc
        · rename_i e rest hsort
          have hmem : e ∈ st.frontier := by
            have : e ∈ sortByKey (fun e => e.cost) st.frontier := by
              rw [hsort]; exact List.mem_cons_self _ _
            exact (mem_sortByKey _ _ _).mp this
          have hrest : ∀ e' ∈ rest, e' ∈ st.frontier := by
            intro e' he'
            have : e' ∈ sortByKey (fun e => e.cost) st.frontier := by
              rw [hsort]; exact List.mem_cons_of_mem _ he'
            exact (mem_sortByKey _ _ _).mp this
          split at hrun
          · refine ih _ o ?_ hrun hsucc
            intro e' he'
            exact hq e' (hrest e' he')
          · rename_i hstale
            split at hrun
            · rename_i hgoal
              cases Option.some.inj hrun
              obtain ⟨h1, _⟩ := hq e hmem
              exact ⟨e.path, e.node, rfl, h1, hgoal⟩
            · obtain ⟨hpar, hpre⟩ := hq e hmem
              have hparfull : ∀ x ∈ e.path, x ∈ st.visited ++ [e.node] := by
                intro x hx
                have hdecomp := List.dropLast_append_getLast (hpar.ne_nil)
                rw [← hdecomp] at hx
                rcases List.mem_append.mp hx with hx | hx
                · exact List.mem_append_left _ (hpre x hx)
                · rcases List.mem_singleton.mp hx with rfl
                  have : e.path.getLast hpar.ne_nil = e.node := by
                    have := hpar.2.1
                    rw [List.getLast?_eq_getLast _ hpar.ne_nil] at this
                    exact Option.some.inj this
                  rw [this]
                  exact List.mem_append_right _ (List.mem_singleton.mpr rfl)
              have hexp := ucsExpand_inv g root e.node e.path e.cost hpar
                (getNeighbors g e.node) rest (st.visited ++ [e.node])
                st.nodesDiscovered st.edgesProcessed
                (fun nb h => adjacent_of_mem_getNeighbors h)
                hparfull
                (fun e' he' => by
                  obtain ⟨h1, h2⟩ := hq e' (hrest e' he')
                  exact ⟨h1, fun x hx => List.mem_append_left _ (h2 x hx)⟩)
              exact ih _ o hexp hrun hsucc

/-- Greedy neighbour pass: same preservation as UCS. -/
theorem greedyExpand_inv (g : GraphData) (root pnode : String)
    (h : String → ℤ) (ppath : List String) (hp : PathOk g root pnode ppath) :
    ∀ (nbrs : List Neighbor) (frontier : List HEntry) (visited : List String)
      (nd ep : ℕ),
      (∀ nb ∈ nbrs, adjacent g pnode nb.id) →
      (∀ x ∈ ppath, x ∈ visited) →
      (∀ e ∈ frontier, PathOk g root e.node e.path ∧
        ∀ x ∈ e.path.dropLast, x ∈ visited) →
      ∀ e ∈ (greedyExpand h ppath frontier visited nd ep nbrs).1,
        PathOk g root e.node e.path ∧ ∀ x ∈ e.path.dropLast, x ∈ visited := by
  intro nbrs
  induction nbrs with
  | nil => intro frontier visited nd ep _ _ hf; exact hf
  | cons nb rest ih =>
    intro frontier visited nd ep hadj hpv hf
    simp only [greedyExpand]
    split
    · exact ih frontier visited nd (ep + 1)
        (fun nb' hx => hadj nb' (List.mem_cons_of_mem _ hx)) hpv hf
    · rename_i hnb
      have hnbm : nb.id ∉ visited := fun hmem =>
        hnb (List.elem_eq_true_of_mem hmem)
      refine ih _ visited (nd + 1) (ep + 1)
        (fun nb' hx => hadj nb' (List.mem_cons_of_mem _ hx)) hpv ?_
      intro e he
      rcases List.mem_append.mp he with he | he
      · exact hf e he
      · rcases List.mem_singleton.mp he with rfl
        refine ⟨hp.extend (hadj nb (List.mem_cons_self _ _))
          (fun hmem => hnbm (hpv _ hmem)), ?_⟩
        simp only [List.dropLast_concat]
        exact hpv

/-- The greedy loop: same conclusion as UCS. -/
theorem greedyLoop_success (g : GraphData) (root : String) (goal : GoalSpec)
    (h : String → ℤ) (running : ℕ → Bool) :
    ∀ (fuel : ℕ) (st : GreedyState) (o : SearchOutcome),
      (∀ e ∈ st.frontier, PathOk g root e.node e.path ∧
        ∀ x ∈ e.path.dropLast, x ∈ st.visited) →
      greedyLoop g goal h running fuel st = some o → o.success = true →
      ∃ p z, o.path = some p ∧ PathOk g root z p ∧ isGoalNode z goal = true := by
  intro fuel
  induction fuel with
  | zero => intro st o _ hr; cases hr
  | succ fuel ih =>
    intro st o hq hrun hsucc
    rw [greedyLoop] at hrun
    split at hrun
    · cases Option.some.inj hrun
      cases hsucc
    · rename_i e0 rest0 hne
      split at hrun
      · cases Option.some.inj hrun
        cases hsucc
      · split at hrun
        · cases Option.some.inj hrun
          cases hsucc
        · rename_i e rest hsort
          have hmem : e ∈ st.frontier := by
            have hx : e ∈ sortByKey (fun e => e.heuristic) st.frontier := by
              rw [hsort]; exact List.mem_cons_self _ _
            exact (mem_sortByKey _ _ _).mp hx
          have hrest : ∀ e' ∈ rest, e' ∈ st.frontier := by
            intro e' he'
            have hx : e' ∈ sortByKey (fun e => e.heuristic) st.frontier := by
              rw [hsort]; exact List.mem_cons_of_mem _ he'
            exact (mem_sortByKey _ _ _).mp hx
          split at hrun
          · refine ih _ o ?_ hrun hsucc
            intro e' he'
            exact hq e' (hrest e' he')
          · rename_i hstale
            split at hrun
            · rename_i hgoal
              cases Option.some.inj hrun
              obtain ⟨h1, _⟩ := hq e hmem
              exact ⟨e.path, e.node, rfl, h1, hgoal⟩
            · obtain ⟨hpar, hpre⟩ := hq e hmem
              have hparfull : ∀ x ∈ e.path, x ∈ st.visited ++ [e.node] := by
                intro x hx
                have hdecomp := List.dropLast_append_getLast (hpar.ne_nil)
                rw [← hdecomp] at hx
                rcases List.mem_append.mp hx with hx | hx
                · exact List.mem_append_left _ (hpre x hx)
                · rcases List.mem_singleton.mp hx with rfl
                  have hlast : e.path.getLast hpar.ne_nil = e.node := by
                    have h2 := hpar.2.1
                    rw [List.getLast?_eq_getLast _ hpar.ne_nil] at h2
                    exact Option.some.inj h2
                  rw [hlast]
                  exact List.mem_append_right _ (List.mem_singleton.mpr rfl)
              have hexp := greedyExpand_inv g root e.node h e.path hpar
                (getNeighbors g e.node) rest (st.visited ++ [e.node])
                st.nodesDiscovered st.edgesProcessed
                (fun nb hx => adjacent_of_mem_getNeighbors hx)
                hparfull
                (fun e' he' => by
                  obtain ⟨h1, h2⟩ := hq e' (hrest e' he')
                  exact ⟨h1, fun x hx => List.mem_append_left _ (h2 x hx)⟩)
              exact ih _ o hexp hrun hsucc

/-- A* neighbour pass: same preservation as UCS. -/
theorem astarExpand_inv (g : GraphData) (root pnode : String)
    (h : String → ℤ) (ppath : List String) (cost : ℤ)
    (hp : PathOk g root pnode ppath) :
    ∀ (nbrs : List Neighbor) (frontier : List AEntry) (visited : List String)
      (nd ep : ℕ),
      (∀ nb ∈ nbrs, adjacent g pnode nb.id) →
      (∀ x ∈ ppath, x ∈ visited) →
      (∀ e ∈ frontier, PathOk g root e.node e.path ∧
        ∀ x ∈ e.path.dropLast, x ∈ visited) →
      ∀ e ∈ (astarExpand h ppath cost frontier visited nd ep nbrs).1,
        PathOk g root e.node e.path ∧ ∀ x ∈ e.path.dropLast, x ∈ visited := by
  intro nbrs
  induction nbrs with
  | nil => intro frontier visited nd ep _ _ hf; exact hf
  | cons nb rest ih =>
    intro frontier visited nd ep hadj hpv hf
    simp only [astarExpand]
    split
    · exact ih frontier visited nd (ep + 1)
        (fun nb' hx => hadj nb' (List.mem_cons_of_mem _ hx)) hpv hf
    · rename_i hnb
      have hnbm : nb.id ∉ visited := fun hmem =>
        hnb (List.elem_eq_true_of_mem hmem)
      refine ih _ visited (nd + 1) (ep + 1)
        (fun nb' hx => hadj nb' (List.mem_cons_of_mem _ hx)) hpv ?_
      intro e he
      rcases List.mem_append.mp he with he | he
      · exact hf e he
      · rcases List.mem_singleton.mp he with rfl
        refine ⟨hp.extend (hadj nb (List.mem_cons_self _ _))
          (fun hmem => hnbm (hpv _ hmem)), ?_⟩
        simp only [List.dropLast_concat]
        exact hpv

/-- The A* loop: same conclusion as UCS. -/
theorem astarLoop_success (g : GraphData) (root : String) (goal : GoalSpec)
    (h : String → ℤ) (running : ℕ → Bool) :
    ∀ (fuel : ℕ) (st : AStarState) (o : SearchOutcome),
      (∀ e ∈ st.frontier, PathOk g root e.node e.path ∧
        ∀ x ∈ e.path.dropLast, x ∈ st.visited) →
      astarLoop g goal h running fuel st = some o → o.success = true →
      ∃ p z, o.path = some p ∧ PathOk g root z p ∧ isGoalNode z goal = true := by
  intro fuel
  induction fuel with
  | zero => intro st o _ hr; cases hr
  | succ fuel ih =>
    intro st o hq hrun hsucc
    rw [astarLoop] at hrun
    split at hrun
    · cases Option.some.inj hrun
      cases hsucc
    · rename_i e0 rest0 hne
      split at hrun
      · cases Option.some.inj hrun
        cases hsucc
      · split at hrun
        · cases Option.some.inj hrun
          cases hsucc
        · rename_i e rest hsort
          have hmem : e ∈ st.frontier := by
            have hx : e ∈ sortByKey (fun e => e.f) st.frontier := by
              rw [hsort]; exact List.mem_cons_self _ _
            exact (mem_sortByKey _ _ _).mp hx
          have hrest : ∀ e' ∈ rest, e' ∈ st.frontier := by
            intro e' he'
            have hx : e' ∈ sortByKey (fun e => e.f) st.frontier := by
              rw [hsort]; exact List.mem_cons_of_mem _ he'
            exact (mem_sortByKey _ _ _).mp hx
          split at hrun
          · refine ih _ o ?_ hrun hsucc
            intro e' he'
            exact hq e' (hrest e' he')
          · rename_i hstale
            split at hrun
            · rename_i hgoal
              cases Option.some.inj hrun
              obtain ⟨h1, _⟩ := hq e hmem
              exact ⟨e.path, e.node, rfl, h1, hgoal⟩
            · obtain ⟨hpar, hpre⟩ := hq e hmem
              have hparfull : ∀ x ∈ e.path, x ∈ st.visited ++ [e.node] := by
                intro x hx
                have hdecomp := List.dropLast_append_getLast (hpar.ne_nil)
                rw [← hdecomp] at hx
                rcases List.mem_append.mp hx with hx | hx
                · exact List.mem_append_left _ (hpre x hx)
                · rcases List.mem_singleton.mp hx with rfl
                  have hlast : e.path.getLast hpar.ne_nil = e.node := by
                    have h2 := hpar.2.1
                    rw [List.getLast?_eq_getLast _ hpar.ne_nil] at h2
                    exact Option.some.inj h2
                  rw [hlast]
                  exact List.mem_append_right _ (List.mem_singleton.mpr rfl)
              have hexp := astarExpand_inv g root e.node h e.path e.cost hpar
                (getNeighbors g e.node) rest (st.visited ++ [e.node])
                st.nodesDiscovered st.edgesProcessed
                (fun nb hx => adjacent_of_mem_getNeighbors hx)
                hparfull
                (fun e' he' => by
                  obtain ⟨h1, h2⟩ := hq e' (hrest e' he')
                  exact ⟨h1, fun x hx => List.mem_append_left _ (h2 x hx)⟩)
              exact ih _ o hexp hrun hsucc

/-- A path of one node is well-formed. -/
theorem PathOk_singleton (g : GraphData) (root : String) :
    PathOk g root root [root] :=
  ⟨rfl, rfl, List.chain'_singleton root, List.nodup_singleton root⟩

/-- `dls` neighbour loop: success outcomes satisfy `P` when the parent
path is well-formed and the one-level-deeper search turns well-formed
calls into `P`-outcomes. -/
theorem dlsNbrs_success_path (g : GraphData) (root : String)
    (P : SearchOutcome → Prop)
    (prev : String → List String → DlsSt → DlsRes × DlsSt)
    (hprev : ∀ n p s o s', PathOk g root n p →
      prev n p s = (.success o, s') → P o)
    (pnode : String) (path : List String) (hpath : PathOk g root pnode path) :
    ∀ (nbrs : List Neighbor) (st : DlsSt) (o : SearchOutcome) (st' : DlsSt),
      (∀ nb ∈ nbrs, adjacent g pnode nb.id) →
      dlsNbrs prev path nbrs st = (.success o, st') → P o := by
  intro nbrs
  induction nbrs with
  | nil => intro st o st' _ hr; simp [dlsNbrs] at hr
  | cons nb rest ih =>
    intro st o st' hadj hr
    simp only [dlsNbrs] at hr
    by_cases hc : path.contains nb.id
    · rw [if_pos hc] at hr
      exact ih _ _ _ (fun nb' hx => hadj nb' (List.mem_cons_of_mem _ hx)) hr
    · rw [if_neg hc] at hr
      have hcm : nb.id ∉ path := fun hmem =>
        hc (List.elem_eq_true_of_mem hmem)
      rcases hp : prev nb.id (path ++ [nb.id]) { st with ep := st.ep + 1 } with
        ⟨res, st2⟩
      rw [hp] at hr
      cases res with
      | success o' =>
        simp only [Prod.mk.injEq, DlsRes.success.injEq] at hr
        exact hr.1 ▸ hprev _ _ _ _ _
          (hpath.extend (hadj nb (List.mem_cons_self _ _)) hcm) hp
      | failure r' =>
        exact ih _ _ _ (fun nb' hx => hadj nb' (List.mem_cons_of_mem _ hx)) hr

/-- `dls`: every success outcome carries the rooted, cycle-free,
link-following call path, which ends at a goal node. -/
theorem dlsGo_success_path (g : GraphData) (root : String) (goal : GoalSpec)
    (running : ℕ → Bool) :
    ∀ (fuel : ℕ) (node : String) (path : List String) (st : DlsSt)
      (o : SearchOutcome) (st' : DlsSt),
      PathOk g root node path →
      dlsGo g goal running fuel node path st = (.success o, st') →
      ∃ p z, o.path = some p ∧ PathOk g root z p ∧ isGoalNode z goal = true := by
  intro fuel
  induction fuel with
  | zero =>
    intro node path st o st' hpath h
    rw [dlsGo] at h
    split at h
    · simp at h
    · split at h
      · rename_i hgoal
        simp only [Prod.mk.injEq, DlsRes.success.injEq] at h
        exact ⟨path, node, by rw [← h.1], hpath, hgoal⟩
      · simp at h
  | succ f ih =>
    intro node path st o st' hpath h
    rw [dlsGo] at h
    split at h
    · simp at h
    · split at h
      · rename_i hgoal
        simp only [Prod.mk.injEq, DlsRes.success.injEq] at h
        exact ⟨path, node, by rw [← h.1], hpath, hgoal⟩
      · exact dlsNbrs_success_path g root _ _
          (fun n p s o' s' hp hr => ih n p s o' s' hp hr) node path hpath
          _ _ _ _ (fun nb hx => adjacent_of_mem_getNeighbors hx) h

/-- `depthLimitedSearch` (with threaded check index): master property of
successful outcomes. -/
theorem depthLimitedSearchFrom_success (g : GraphData) (start : String)
    (goal : GoalSpec) (dl : ℤ) (running : ℕ → Bool) (k : ℕ)
    (r : SearchOutcome) (k' : ℕ)
    (h : depthLimitedSearchFrom g start goal dl running k = (r, k'))
    (hs : r.success = true) :
    ∃ p z, r.path = some p ∧ PathOk g start z p ∧ isGoalNode z goal = true := by
  unfold depthLimitedSearchFrom at h
  rcases hgo : dlsGo g goal running dl.toNat start [start] ⟨0, 1, 0, k⟩ with
    ⟨res, st⟩
  rw [hgo] at h
  cases res with
  | success o =>
    simp only [Prod.mk.injEq] at h
    exact h.1 ▸ dlsGo_success_path g start goal running dl.toNat start [start]
      _ o st (PathOk_singleton g start) hgo
  | failure r' =>
    simp only [Prod.mk.injEq] at h
    rw [← h.1] at hs
    cases hs

/-- IDDFS: master property of successful outcomes (the spliced-in counter
totals do not touch the path). -/
theorem iddfsGo_success (g : GraphData) (start : String) (goal : GoalSpec)
    (running : ℕ → Bool) :
    ∀ (depths : List ℤ) (tne tnd tep k : ℕ) (o : SearchOutcome),
      iddfsGo g start goal running depths tne tnd tep k = o →
      o.success = true →
      ∃ p z, o.path = some p ∧ PathOk g start z p ∧ isGoalNode z goal = true := by
  intro depths
  induction depths with
  | nil =>
    intro tne tnd tep k o h hs
    rw [← h] at hs
    cases hs
  | cons d rest ih =>
    intro tne tnd tep k o h hs
    rw [iddfsGo] at h
    split at h
    · rw [← h] at hs
      cases hs
    · rcases hdls : depthLimitedSearchFrom g start goal d running (k + 1) with
        ⟨r, k'⟩
      rw [hdls] at h
      replace h :
          (if r.success = true then
            { r with nodesExplored := tne + r.nodesExplored,
                     nodesDiscovered := tnd + r.nodesDiscovered,
                     edgesProcessed := tep + r.edgesProcessed }
          else iddfsGo g start goal running rest (tne + r.nodesExplored)
            (tnd + r.nodesDiscovered) (tep + r.edgesProcessed) k') = o := h
      by_cases hrs : r.success = true
      · rw [if_pos hrs] at h
        obtain ⟨p, z, h1, h2, h3⟩ :=
          depthLimitedSearchFrom_success g start goal d running (k + 1) r k'
            hdls hrs
        exact ⟨p, z, by rw [← h]; exact h1, h2, h3⟩
      · rw [if_neg hrs] at h
        exact ih _ _ _ _ o h hs

/-! ### Bidirectional search machinery -/

theorem lookupA_append (m₁ m₂ : List (String × List String)) (x : String) :
    lookupA (m₁ ++ m₂) x = (lookupA m₁ x).or (lookupA m₂ x) := by
  unfold lookupA
  rw [List.find?_append]
  cases m₁.find? (fun p => p.1 == x) <;> simp

theorem lookupA_append_isSome (m₁ m₂ : List (String × List String))
    (x : String) (h : (lookupA m₁ x).isSome = true) :
    lookupA (m₁ ++ m₂) x = lookupA m₁ x := by
  rw [lookupA_append]
  obtain ⟨p, hp⟩ := Option.isSome_iff_exists.mp h
  rw [hp]
  rfl

theorem lookupA_append_none (m₁ m₂ : List (String × List String)) (x : String)
    (h : lookupA m₁ x = none) :
    lookupA (m₁ ++ m₂) x = lookupA m₂ x := by
  rw [lookupA_append, h]
  rfl

theorem lookupA_singleton (a : String) (p : List String) (x : String) :
    lookupA [(a, p)] x = if a = x then some p else none := by
  unfold lookupA
  by_cases h : a = x
  · rw [List.find?_cons_of_pos _ (by simpa using h)]
    simp [h]
  · rw [List.find?_cons_of_neg _ (by simpa using h)]
    simp [h]

/-- The full behavioural description of the bidirectional neighbour pass
needed for the loop invariant: lookups are preserved, new stores and queue
entries are exactly the fresh neighbours with the extended parent path,
the queue only grows, the queue keeps mirroring the map, node-distinctness
is preserved, and nodes that were expanded stay out of the queue. -/
theorem bidiExpand_spec (path : List String) :
    ∀ (nbrs : List Neighbor) (q : List QEntry)
      (m : List (String × List String)) (nd ep : ℕ),
      (∀ x p, lookupA m x = some p →
        lookupA (bidiExpand path q m nd ep nbrs).visited x = some p) ∧
      (∀ x p, lookupA (bidiExpand path q m nd ep nbrs).visited x = some p →
        lookupA m x = some p ∨
        (∃ nb ∈ nbrs, x = nb.id ∧ p = path ++ [nb.id] ∧ lookupA m x = none ∧
          x ∈ (bidiExpand path q m nd ep nbrs).queue.map QEntry.node)) ∧
      (∀ e ∈ (bidiExpand path q m nd ep nbrs).queue,
        e ∈ q ∨ ∃ nb ∈ nbrs, e = ⟨nb.id, path ++ [nb.id]⟩ ∧
          lookupA m nb.id = none) ∧
      (∀ y, y ∈ (bidiExpand path q m nd ep nbrs).queue.map QEntry.node →
        y ∈ q.map QEntry.node ∨
        (lookupA m y = none ∧
          (lookupA (bidiExpand path q m nd ep nbrs).visited y).isSome = true)) ∧
      (∀ e ∈ q, e ∈ (bidiExpand path q m nd ep nbrs).queue) ∧
      ((∀ e ∈ q, lookupA m e.node = some e.path) →
        ∀ e ∈ (bidiExpand path q m nd ep nbrs).queue,
          lookupA (bidiExpand path q m nd ep nbrs).visited e.node =
            some e.path) ∧
      ((q.map QEntry.node).Nodup →
        (∀ y ∈ q.map QEntry.node, (lookupA m y).isSome = true) →
        ((bidiExpand path q m nd ep nbrs).queue.map QEntry.node).Nodup) ∧
      (∀ y, (lookupA m y).isSome = true → y ∉ q.map QEntry.node →
        y ∉ (bidiExpand path q m nd ep nbrs).queue.map QEntry.node) := by
  intro nbrs
  induction nbrs with
  | nil =>
    intro q m nd ep
    refine ⟨fun x p hx => hx, fun x p hx => Or.inl hx,
      fun e he => Or.inl he, fun y hy => Or.inl hy, fun e he => he,
      fun hmir e he => hmir e he, fun h1 _ => h1, fun y _ hy => hy⟩
  | cons nb rest ih =>
    intro q m nd ep
    simp only [bidiExpand]
    split
    · rename_i hsome
      obtain ⟨hA, hB, hC, hD, hH, hE, hF, hG⟩ := ih q m nd (ep + 1)
      refine ⟨hA, ?_, ?_, hD, hH, hE, hF, hG⟩
      · intro x p hx
        rcases hB x p hx with h | ⟨nb', hnb', h⟩
        · exact Or.inl h
        · exact Or.inr ⟨nb', List.mem_cons_of_mem _ hnb', h⟩
      · intro e he
        rcases hC e he with h | ⟨nb', hnb', h⟩
        · exact Or.inl h
        · exact Or.inr ⟨nb', List.mem_cons_of_mem _ hnb', h⟩
    · rename_i hnone
      have hmn : lookupA m nb.id = none := by
        cases hl : lookupA m nb.id with
        | none => rfl
        | some p => rw [hl] at hnone; simp at hnone
      obtain ⟨hA, hB, hC, hD, hH, hE, hF, hG⟩ :=
        ih (q ++ [⟨nb.id, path ++ [nb.id]⟩])
          (m ++ [(nb.id, path ++ [nb.id])]) (nd + 1) (ep + 1)
      have hmono : ∀ x p, lookupA m x = some p →
          lookupA (m ++ [(nb.id, path ++ [nb.id])]) x = some p := by
        intro x p hx
        rw [lookupA_append_isSome _ _ _ (by rw [hx]; rfl)]
        exact hx
      have hnew : lookupA (m ++ [(nb.id, path ++ [nb.id])]) nb.id =
          some (path ++ [nb.id]) := by
        rw [lookupA_append_none _ _ _ hmn, lookupA_singleton, if_pos rfl]
      have hchar : ∀ x p,
          lookupA (m ++ [(nb.id, path ++ [nb.id])]) x = some p →
          lookupA m x = some p ∨
          (x = nb.id ∧ p = path ++ [nb.id] ∧ lookupA m x = none) := by
        intro x p hx
        cases hl : lookupA m x with
        | some p' =>
          rw [lookupA_append_isSome _ _ _ (by rw [hl]; rfl), hl] at hx
          exact Or.inl hx
        | none =>
          rw [lookupA_append_none _ _ _ hl, lookupA_singleton] at hx
          by_cases hxe : nb.id = x
          · rw [if_pos hxe] at hx
            exact Or.inr ⟨hxe.symm, (Option.some.inj hx).symm, rfl⟩
          · rw [if_neg hxe] at hx
            cases hx
      refine ⟨?_, ?_, ?_, ?_, ?_, ?_, ?_, ?_⟩
      · intro x p hx
        exact hA x p (hmono x p hx)
      · intro x p hx
        rcases hB x p hx with h | ⟨nb', hnb', h1, h2, h3, h4⟩
        · rcases hchar x p h with h' | ⟨h1, h2, h3⟩
          · exact Or.inl h'
          · refine Or.inr ⟨nb, List.mem_cons_self _ _, h1, h2, h3, ?_⟩
            subst h1
            have : (⟨nb.id, path ++ [nb.id]⟩ : QEntry) ∈
                (bidiExpand path (q ++ [⟨nb.id, path ++ [nb.id]⟩])
                  (m ++ [(nb.id, path ++ [nb.id])]) (nd + 1) (ep + 1)
                  rest).queue :=
              hH _ (List.mem_append_right _ (List.mem_singleton.mpr rfl))
            exact List.mem_map.mpr ⟨_, this, rfl⟩
        · refine Or.inr ⟨nb', List.mem_cons_of_mem _ hnb', h1, h2, ?_, h4⟩
          cases hl : lookupA m x with
          | none => rfl
          | some p' => rw [hmono x p' hl] at h3; cases h3
      · intro e he
        rcases hC e he with h | ⟨nb', hnb', h1, h2⟩
        · rcases List.mem_append.mp h with h | h
          · exact Or.inl h
          · rcases List.mem_singleton.mp h with rfl
            exact Or.inr ⟨nb, List.mem_cons_self _ _, rfl, hmn⟩
        · refine Or.inr ⟨nb', List.mem_cons_of_mem _ hnb', h1, ?_⟩
          cases hl : lookupA m nb'.id with
          | none => rfl
          | some p' => rw [hmono nb'.id p' hl] at h2; cases h2
      · intro y hy
        rcases hD y hy with h | ⟨h1, h2⟩
        · rw [List.map_append] at h
          rcases List.mem_append.mp h with h | h
          · exact Or.inl h
          · simp only [List.map_cons, List.map_nil, List.mem_singleton] at h
            subst h
            refine Or.inr ⟨hmn, ?_⟩
            rw [hA nb.id (path ++ [nb.id]) hnew]
            rfl
        · refine Or.inr ⟨?_, h2⟩
          cases hl : lookupA m y with
          | none => rfl
          | some p' => rw [hmono y p' hl] at h1; cases h1
      · intro e he
        exact hH e (List.mem_append_left _ he)
      · intro hmir e he
        refine hE ?_ e he
        intro e' he'
        rcases List.mem_append.mp he' with h | h
        · rw [lookupA_append_isSome _ _ _ (by rw [hmir e' h]; rfl)]
          exact hmir e' h
        · rcases List.mem_singleton.mp h with rfl
          exact hnew
      · intro h1 h2
        refine hF ?_ ?_
        · rw [List.map_append, List.nodup_append]
          refine ⟨h1, List.nodup_singleton _, ?_⟩
          intro z hz hz2
          simp only [List.map_cons, List.map_nil, List.mem_singleton] at hz2
          subst hz2
          have h3 := h2 _ hz
          rw [hmn] at h3
          cases h3
        · intro y hy
          rw [List.map_append] at hy
          rcases List.mem_append.mp hy with h | h
          · rw [lookupA_append_isSome _ _ _ (h2 y h)]
            exact h2 y h
          · simp only [List.map_cons, List.map_nil, List.mem_singleton] at h
            subst h
            rw [hnew]
            rfl
      · intro y hy hnq
        have hyne : y ≠ nb.id := by
          intro h
          rw [h, hmn] at hy
          cases hy
        refine hG y ?_ ?_
        · rw [lookupA_append_isSome _ _ _ hy]
          exact hy
        · rw [List.map_append]
          intro h
          rcases List.mem_append.mp h with h | h
          · exact hnq h
          · simp only [List.map_cons, List.map_nil, List.mem_singleton] at h
            exact hyne h

/-- A member of a nonempty list is in its `dropLast` or is its last
element. -/
theorem mem_dropLast_or_getLast {p : List String} {x : String}
    (hne : p ≠ []) (hx : x ∈ p) :
    x ∈ p.dropLast ∨ p.getLast? = some x := by
  rw [← List.dropLast_concat_getLast hne] at hx
  rcases List.mem_append.mp hx with h | h
  · exact Or.inl h
  · rcases List.mem_singleton.mp h with rfl
    exact Or.inr (List.getLast?_eq_getLast p hne)

/-- In a duplicate-free list the last element does not recur earlier. -/
theorem getLast_not_mem_dropLast {p : List String} {u : String}
    (hnd : p.Nodup) (hl : p.getLast? = some u) : u ∉ p.dropLast := by
  have hne : p ≠ [] := by
    intro h
    rw [h] at hl
    cases hl
  have hdec := List.dropLast_concat_getLast hne
  rw [← hdec] at hnd
  rw [List.nodup_append] at hnd
  intro hmem
  have hu : p.getLast hne = u := by
    have := List.getLast?_eq_getLast p hne
    rw [hl] at this
    exact (Option.some.inj this).symm
  exact hnd.2.2 hmem (by rw [hu]; exact List.mem_singleton.mpr rfl)

/-- `dropLast` keeps the head of a list when it is nonempty. -/
theorem head?_dropLast_eq {p : List String} (h : p.dropLast ≠ []) :
    p.dropLast.head? = p.head? := by
  match p with
  | [] => cases h rfl
  | [a] => cases h rfl
  | a :: b :: t => rfl

/-- A nonempty list with empty `dropLast` is the singleton of its head. -/
theorem eq_singleton_of_dropLast_nil {p : List String} (hne : p ≠ [])
    (h : p.dropLast = []) : ∃ a, p = [a] := by
  match p with
  | [] => cases hne rfl
  | [a] => exact ⟨a, rfl⟩
  | a :: b :: t => cases h

/-- The forward half-step, termination case: the assembled path runs from
`start` to `goal`, follows links, and repeats no node. -/
theorem bidiFrontStep_done (g : GraphData) (start goal : String)
    (st : BidiState) (hinv : BInv g start goal st) (o : SearchOutcome)
    (hdone : bidiFrontStep g st = .done o) :
    o.success = true ∧ ∃ p, o.path = some p ∧ p.head? = some start ∧
      p.getLast? = some goal ∧ List.Chain' (adjacent g) p ∧ p.Nodup := by
  unfold bidiFrontStep at hdone
  split at hdone
  · cases hdone
  · rename_i e rest hq
    split at hdone
    · rename_i bp hbp
      cases hdone
      have hmir := hinv.fq_mirror e (hq ▸ List.mem_cons_self _ _)
      obtain ⟨hfp, hfexp⟩ := hinv.f_store e.node e.path hmir
      obtain ⟨hbpok, hbexp⟩ := hinv.b_store e.node bp hbp
      refine ⟨rfl, e.path ++ bp.dropLast.reverse, rfl, ?_, ?_, ?_, ?_⟩
      · rw [List.head?_append_of_ne_nil _ hfp.ne_nil]
        exact hfp.1
      · by_cases hdl : bp.dropLast = []
        · obtain ⟨a, ha⟩ := eq_singleton_of_dropLast_nil hbpok.ne_nil hdl
          have hgoal : a = goal := by
            have := hbpok.1
            rw [ha] at this
            exact Option.some.inj this
          have hnode : a = e.node := by
            have := hbpok.2.1
            rw [ha] at this
            exact Option.some.inj this
          rw [hdl]
          simp only [List.reverse_nil, List.append_nil]
          rw [hfp.2.1, ← hnode, hgoal]
        · rw [List.getLast?_append_of_ne_nil _
            (by simpa using hdl)]
          rw [List.getLast?_reverse, head?_dropLast_eq hdl]
          exact hbpok.1
      · rw [List.chain'_append]
        refine ⟨hfp.2.2.1, ?_, ?_⟩
        · rw [List.chain'_reverse]
          have hdp := List.dropLast_prefix bp
          have hpre := List.Chain'.prefix hbpok.2.2.1 hdp
          exact hpre.imp (fun a b hab => adjacent_symm hab)
        · intro x hx y hy
          rw [hfp.2.1] at hx
          cases hx
          rw [List.head?_reverse] at hy
          have hdec := List.dropLast_concat_getLast hbpok.ne_nil
          have hlastbp : bp.getLast hbpok.ne_nil = e.node := by
            have := List.getLast?_eq_getLast bp hbpok.ne_nil
            rw [hbpok.2.1] at this
            exact (Option.some.inj this).symm
          have hch := hbpok.2.2.1
          rw [← hdec, List.chain'_append] at hch
          have := hch.2.2 y hy e.node (by rw [hlastbp]; rfl)
          exact adjacent_symm this
      · rw [List.nodup_append]
        refine ⟨hfp.2.2.2, List.nodup_reverse.mpr
          (hbpok.2.2.2.sublist (List.dropLast_sublist bp)), ?_⟩
        intro y hy hy2
        rw [List.mem_reverse] at hy2
        rcases mem_dropLast_or_getLast hfp.ne_nil hy with h | h
        · exact hinv.disj y (hfexp y h) (hbexp y hy2)
        · have hyeq : y = e.node := by
            rw [hfp.2.1] at h
            exact (Option.some.inj h).symm
          subst hyeq
          exact getLast_not_mem_dropLast hbpok.2.2.2 hbpok.2.1 hy2
    · cases hdone

/-- The backward half-step, termination case: mirror image of
`bidiFrontStep_done`. -/
theorem bidiBackStep_done (g : GraphData) (start goal : String)
    (st : BidiState) (hinv : BInv g start goal st) (o : SearchOutcome)
    (hdone : bidiBackStep g st = .done o) :
    o.success = true ∧ ∃ p, o.path = some p ∧ p.head? = some start ∧
      p.getLast? = some goal ∧ List.Chain' (adjacent g) p ∧ p.Nodup := by
  unfold bidiBackStep at hdone
  split at hdone
  · cases hdone
  · rename_i e rest hq
    split at hdone
    · rename_i fp hfpl
      cases hdone
      have hmir := hinv.bq_mirror e (hq ▸ List.mem_cons_self _ _)
      obtain ⟨hbpok, hbexp⟩ := hinv.b_store e.node e.path hmir
      obtain ⟨hfp, hfexp⟩ := hinv.f_store e.node fp hfpl
      refine ⟨rfl, fp ++ e.path.dropLast.reverse, rfl, ?_, ?_, ?_, ?_⟩
      · rw [List.head?_append_of_ne_nil _ hfp.ne_nil]
        exact hfp.1
      · by_cases hdl : e.path.dropLast = []
        · obtain ⟨a, ha⟩ := eq_singleton_of_dropLast_nil hbpok.ne_nil hdl
          have hgoal : a = goal := by
            have h1 := hbpok.1
            rw [ha] at h1
            exact Option.some.inj h1
          have hnode : a = e.node := by
            have h1 := hbpok.2.1
            rw [ha] at h1
            exact Option.some.inj h1
          rw [hdl]
          simp only [List.reverse_nil, List.append_nil]
          rw [hfp.2.1, ← hnode, hgoal]
        · rw [List.getLast?_append_of_ne_nil _ (by simpa using hdl)]
          rw [List.getLast?_reverse, head?_dropLast_eq hdl]
          exact hbpok.1
      · rw [List.chain'_append]
        refine ⟨hfp.2.2.1, ?_, ?_⟩
        · rw [List.chain'_reverse]
          have hdp := List.dropLast_prefix e.path
          have hpre := List.Chain'.prefix hbpok.2.2.1 hdp
          exact hpre.imp (fun a b hab => adjacent_symm hab)
        · intro x hx y hy
          rw [hfp.2.1] at hx
          cases hx
          rw [List.head?_reverse] at hy
          have hlastbp : e.path.getLast hbpok.ne_nil = e.node := by
            have h1 := List.getLast?_eq_getLast e.path hbpok.ne_nil
            rw [hbpok.2.1] at h1
            exact (Option.some.inj h1).symm
          have hch := hbpok.2.2.1
          rw [← List.dropLast_concat_getLast hbpok.ne_nil,
            List.chain'_append] at hch
          have h2 := hch.2.2 y hy e.node (by rw [hlastbp]; rfl)
          exact adjacent_symm h2
      · rw [List.nodup_append]
        refine ⟨hfp.2.2.2, List.nodup_reverse.mpr
          (hbpok.2.2.2.sublist (List.dropLast_sublist e.path)), ?_⟩
        intro y hy hy2
        rw [List.mem_reverse] at hy2
        rcases mem_dropLast_or_getLast hfp.ne_nil hy with h | h
        · exact hinv.disj y (hfexp y h) (hbexp y hy2)
        · have hyeq : y = e.node := by
            rw [hfp.2.1] at h
            exact (Option.some.inj h).symm
          subst hyeq
          exact getLast_not_mem_dropLast hbpok.2.2.2 hbpok.2.1 hy2
    · cases hdone

/-- The forward half-step, continuation case: the loop invariant is
maintained and the backward state is untouched. -/
theorem bidiFrontStep_cont (g : GraphData) (start goal : String)
    (st : BidiState) (hinv : BInv g start goal st) (st2 : BidiState)
    (hcont : bidiFrontStep g st = .cont st2) :
    BInv g start goal st2 ∧ st2.backQueue = st.backQueue ∧
      st2.backVisited = st.backVisited := by
  unfold bidiFrontStep at hcont
  split at hcont
  · cases hcont
    exact ⟨hinv, rfl, rfl⟩
  · rename_i e rest hq
    split at hcont
    · cases hcont
    · rename_i hnomeet
      cases hcont
      obtain ⟨hA, hB, hC, hD, hH, hE, hF, hG⟩ :=
        bidiExpand_spec e.path (getNeighbors g e.node) rest st.frontVisited
          st.nd st.ep
      have hmir_u : lookupA st.frontVisited e.node = some e.path :=
        hinv.fq_mirror e (hq ▸ List.mem_cons_self _ _)
      obtain ⟨hupath, hudrop⟩ := hinv.f_store e.node e.path hmir_u
      have hnd0 := hinv.fq_nodup
      rw [hq, List.map_cons, List.nodup_cons] at hnd0
      obtain ⟨hu_notin, hrest_nd⟩ := hnd0
      have hrest_mirror : ∀ e' ∈ rest,
          lookupA st.frontVisited e'.node = some e'.path :=
        fun e' h => hinv.fq_mirror e' (hq ▸ List.mem_cons_of_mem _ h)
      have hrest_keys : ∀ y ∈ rest.map QEntry.node,
          (lookupA st.frontVisited y).isSome = true := by
        intro y hy
        obtain ⟨e', he', rfl⟩ := List.mem_map.mp hy
        rw [hrest_mirror e' he']
        rfl
      have hu_keys : ∀ y ∈ e.path,
          (lookupA st.frontVisited y).isSome = true := by
        intro y hy
        rcases mem_dropLast_or_getLast hupath.ne_nil hy with h | h
        · exact (hudrop y h).1
        · have hy' : y = e.node := by
            rw [hupath.2.1] at h
            exact (Option.some.inj h).symm
          rw [hy', hmir_u]
          rfl
      have hFmono : ∀ y, FExp st y →
          (lookupA (bidiExpand e.path rest st.frontVisited st.nd st.ep
            (getNeighbors g e.node)).visited y).isSome = true ∧
          y ∉ (bidiExpand e.path rest st.frontVisited st.nd st.ep
            (getNeighbors g e.node)).queue.map QEntry.node := by
        intro y hYs
        obtain ⟨hk, hnq⟩ := hYs
        obtain ⟨p, hp⟩ := Option.isSome_iff_exists.mp hk
        refine ⟨by rw [hA y p hp]; rfl, ?_⟩
        intro hmem
        rcases hD y hmem with h | ⟨h1, _⟩
        · exact hnq (by rw [hq, List.map_cons]; exact List.mem_cons_of_mem _ h)
        · rw [hp] at h1
          cases h1
      have hFu :
          (lookupA (bidiExpand e.path rest st.frontVisited st.nd st.ep
            (getNeighbors g e.node)).visited e.node).isSome = true ∧
          e.node ∉ (bidiExpand e.path rest st.frontVisited st.nd st.ep
            (getNeighbors g e.node)).queue.map QEntry.node := by
        refine ⟨by rw [hA e.node e.path hmir_u]; rfl, ?_⟩
        intro hmem
        rcases hD e.node hmem with h | ⟨h1, _⟩
        · exact hu_notin h
        · rw [hmir_u] at h1
          cases h1
      have hFchar : ∀ y,
          (lookupA (bidiExpand e.path rest st.frontVisited st.nd st.ep
            (getNeighbors g e.node)).visited y).isSome = true →
          y ∉ (bidiExpand e.path rest st.frontVisited st.nd st.ep
            (getNeighbors g e.node)).queue.map QEntry.node →
          FExp st y ∨ y = e.node := by
        intro y hk hnq
        obtain ⟨p, hp⟩ := Option.isSome_iff_exists.mp hk
        rcases hB y p hp with h | ⟨nb, hnb, h1, h2, h3, h4⟩
        · by_cases hyu : y = e.node
          · exact Or.inr hyu
          · left
            refine ⟨by rw [h]; rfl, ?_⟩
            rw [hq, List.map_cons]
            intro hmem
            rcases List.mem_cons.mp hmem with h' | h'
            · exact hyu h'
            · refine hnq ?_
              obtain ⟨e', he', rfl⟩ := List.mem_map.mp h'
              exact List.mem_map.mpr ⟨e', hH e' he', rfl⟩
        · exact absurd h4 hnq
      refine ⟨⟨?_, ?_, ?_, ?_, ?_, ?_, ?_⟩, rfl, rfl⟩
      · dsimp only
        exact hE hrest_mirror
      · dsimp only
        exact hinv.bq_mirror
      · dsimp only
        intro x p hx
        rcases hB x p hx with h | ⟨nb, hnb, hx1, hx2, hxnone, hxq⟩
        · obtain ⟨hpok, hdl⟩ := hinv.f_store x p h
          refine ⟨hpok, ?_⟩
          intro y hy
          exact hFmono y (hdl y hy)
        · subst hx1
          subst hx2
          have hnbp : nb.id ∉ e.path := by
            intro hmem
            have h5 := hu_keys nb.id hmem
            rw [hxnone] at h5
            cases h5
          refine ⟨hupath.extend (adjacent_of_mem_getNeighbors hnb) hnbp, ?_⟩
          rw [List.dropLast_concat]
          intro y hy
          rcases mem_dropLast_or_getLast hupath.ne_nil hy with h | h
          · exact hFmono y (hudrop y h)
          · have hy' : y = e.node := by
              rw [hupath.2.1] at h
              exact (Option.some.inj h).symm
            rw [hy']
            exact hFu
      · dsimp only
        intro x p hx
        obtain ⟨hpok, hdl⟩ := hinv.b_store x p hx
        exact ⟨hpok, fun y hy => hdl y hy⟩
      · dsimp only
        intro y hf hb
        obtain ⟨hk, hnq⟩ := hf
        rcases hFchar y hk hnq with h | h
        · exact hinv.disj y h hb
        · subst h
          obtain ⟨hbk, _⟩ := hb
          rw [hnomeet] at hbk
          cases hbk
      · dsimp only
        exact hF hrest_nd hrest_keys
      · dsimp only
        exact hinv.bq_nodup

/-- The backward half-step, continuation case: mirror image of
`bidiFrontStep_cont`. -/
theorem bidiBackStep_cont (g : GraphData) (start goal : String)
    (st : BidiState) (hinv : BInv g start goal st) (st2 : BidiState)
    (hcont : bidiBackStep g st = .cont st2) :
    BInv g start goal st2 := by
  unfold bidiBackStep at hcont
  split at hcont
  · cases hcont
    exact hinv
  · rename_i e rest hq
    split at hcont
    · cases hcont
    · rename_i hnomeet
      cases hcont
      obtain ⟨hA, hB, hC, hD, hH, hE, hF, hG⟩ :=
        bidiExpand_spec e.path (getNeighbors g e.node) rest st.backVisited
          st.nd st.ep
      have hmir_u : lookupA st.backVisited e.node = some e.path :=
        hinv.bq_mirror e (hq ▸ List.mem_cons_self _ _)
      obtain ⟨hupath, hudrop⟩ := hinv.b_store e.node e.path hmir_u
      have hnd0 := hinv.bq_nodup
      rw [hq, List.map_cons, List.nodup_cons] at hnd0
      obtain ⟨hu_notin, hrest_nd⟩ := hnd0
      have hrest_mirror : ∀ e' ∈ rest,
          lookupA st.backVisited e'.node = some e'.path :=
        fun e' h => hinv.bq_mirror e' (hq ▸ List.mem_cons_of_mem _ h)
      have hrest_keys : ∀ y ∈ rest.map QEntry.node,
          (lookupA st.backVisited y).isSome = true := by
        intro y hy
        obtain ⟨e', he', rfl⟩ := List.mem_map.mp hy
        rw [hrest_mirror e' he']
        rfl
      have hu_keys : ∀ y ∈ e.path,
          (lookupA st.backVisited y).isSome = true := by
        intro y hy
        rcases mem_dropLast_or_getLast hupath.ne_nil hy with h | h
        · exact (hudrop y h).1
        · have hy' : y = e.node := by
            rw [hupath.2.1] at h
            exact (Option.some.inj h).symm
          rw [hy', hmir_u]
          rfl
      have hBmono : ∀ y, BExp st y →
          (lookupA (bidiExpand e.path rest st.backVisited st.nd st.ep
            (getNeighbors g e.node)).visited y).isSome = true ∧
          y ∉ (bidiExpand e.path rest st.backVisited st.nd st.ep
            (getNeighbors g e.node)).queue.map QEntry.node := by
        intro y hYs
        obtain ⟨hk, hnq⟩ := hYs
        obtain ⟨p, hp⟩ := Option.isSome_iff_exists.mp hk
        refine ⟨by rw [hA y p hp]; rfl, ?_⟩
        intro hmem
        rcases hD y hmem with h | ⟨h1, _⟩
        · exact hnq (by rw [hq, List.map_cons]; exact List.mem_cons_of_mem _ h)
        · rw [hp] at h1
          cases h1
      have hBu :
          (lookupA (bidiExpand e.path rest st.backVisited st.nd st.ep
            (getNeighbors g e.node)).visited e.node).isSome = true ∧
          e.node ∉ (bidiExpand e.path rest st.backVisited st.nd st.ep
            (getNeighbors g e.node)).queue.map QEntry.node := by
        refine ⟨by rw [hA e.node e.path hmir_u]; rfl, ?_⟩
        intro hmem
        rcases hD e.node hmem with h | ⟨h1, _⟩
        · exact hu_notin h
        · rw [hmir_u] at h1
          cases h1
      have hBchar : ∀ y,
          (lookupA (bidiExpand e.path rest st.backVisited st.nd st.ep
            (getNeighbors g e.node)).visited y).isSome = true →
          y ∉ (bidiExpand e.path rest st.backVisited st.nd st.ep
            (getNeighbors g e.node)).queue.map QEntry.node →
          BExp st y ∨ y = e.node := by
        intro y hk hnq
        obtain ⟨p, hp⟩ := Option.isSome_iff_exists.mp hk
        rcases hB y p hp with h | ⟨nb, hnb, h1, h2, h3, h4⟩
        · by_cases hyu : y = e.node
          · exact Or.inr hyu
          · left
            refine ⟨by rw [h]; rfl, ?_⟩
            rw [hq, List.map_cons]
            intro hmem
            rcases List.mem_cons.mp hmem with h' | h'
            · exact hyu h'
            · refine hnq ?_
              obtain ⟨e', he', rfl⟩ := List.mem_map.mp h'
              exact List.mem_map.mpr ⟨e', hH e' he', rfl⟩
        · exact absurd h4 hnq
      refine ⟨?_, ?_, ?_, ?_, ?_, ?_, ?_⟩
      · dsimp only
        exact hinv.fq_mirror
      · dsimp only
        exact hE hrest_mirror
      · dsimp only
        intro x p hx
        obtain ⟨hpok, hdl⟩ := hinv.f_store x p hx
        exact ⟨hpok, fun y hy => hdl y hy⟩
      · dsimp only
        intro x p hx
        rcases hB x p hx with h | ⟨nb, hnb, hx1, hx2, hxnone, hxq⟩
        · obtain ⟨hpok, hdl⟩ := hinv.b_store x p h
          refine ⟨hpok, ?_⟩
          intro y hy
          exact hBmono y (hdl y hy)
        · subst hx1
          subst hx2
          have hnbp : nb.id ∉ e.path := by
            intro hmem
            have h5 := hu_keys nb.id hmem
            rw [hxnone] at h5
            cases h5
          refine ⟨hupath.extend (adjacent_of_mem_getNeighbors hnb) hnbp, ?_⟩
          rw [List.dropLast_concat]
          intro y hy
          rcases mem_dropLast_or_getLast hupath.ne_nil hy with h | h
          · exact hBmono y (hudrop y h)
          · have hy' : y = e.node := by
              rw [hupath.2.1] at h
              exact (Option.some.inj h).symm
            rw [hy']
            exact hBu
      · dsimp only
        intro y hf hb
        obtain ⟨hk, hnq⟩ := hb
        rcases hBchar y hk hnq with h | h
        · exact hinv.disj y hf h
        · subst h
          obtain ⟨hfk, _⟩ := hf
          rw [hnomeet] at hfk
          cases hfk
      · dsimp only
        exact hinv.fq_nodup
      · dsimp only
        exact hF hrest_nd hrest_keys

/-- The bidirectional loop: every successful outcome carries a rooted,
cycle-free, link-following start→goal path. -/
theorem bidiLoop_success (g : GraphData) (start goal : String)
    (running : ℕ → Bool) :
    ∀ (fuel : ℕ) (st : BidiState) (o : SearchOutcome),
      BInv g start goal st →
      bidiLoop g running fuel st = some o → o.success = true →
      ∃ p, o.path = some p ∧ p.head? = some start ∧ p.getLast? = some goal ∧
        List.Chain' (adjacent g) p ∧ p.Nodup := by
  intro fuel
  induction fuel with
  | zero => intro st o _ h; cases h
  | succ fuel ih =>
    intro st o hinv hrun hsucc
    rw [bidiLoop] at hrun
    split at hrun
    · cases Option.some.inj hrun
      cases hsucc
    · split at hrun
      · cases Option.some.inj hrun
        cases hsucc
      · have hinv1 : BInv g start goal { st with k := st.k + 1 } :=
          ⟨hinv.fq_mirror, hinv.bq_mirror, hinv.f_store, hinv.b_store,
           hinv.disj, hinv.fq_nodup, hinv.bq_nodup⟩
        split at hrun
        · rename_i o1 hstep
          cases Option.some.inj hrun
          obtain ⟨_, p, hp⟩ := bidiFrontStep_done g start goal _ hinv1 _ hstep
          exact ⟨p, hp⟩
        · rename_i st2 hstep
          obtain ⟨hinv2, _, _⟩ :=
            bidiFrontStep_cont g start goal _ hinv1 st2 hstep
          split at hrun
          · rename_i o1 hstep2
            cases Option.some.inj hrun
            obtain ⟨_, p, hp⟩ :=
              bidiBackStep_done g start goal st2 hinv2 _ hstep2
            exact ⟨p, hp⟩
          · rename_i st3 hstep2
            exact ih st3 o
              (bidiBackStep_cont g start goal st2 hinv2 st3 hstep2) hrun hsucc

/-- The invariant holds in the seeded initial state. -/
theorem bidi_initial_inv (g : GraphData) (start goal : String) :
    BInv g start goal
      { frontQueue := [⟨start, [start]⟩], backQueue := [⟨goal, [goal]⟩],
        frontVisited := [(start, [start])], backVisited := [(goal, [goal])],
        ne := 0, nd := 2, ep := 0, k := 0 } := by
  have hsing : ∀ (a : String) (x : String) (p : List String),
      lookupA [(a, [a])] x = some p → x = a ∧ p = [a] := by
    intro a x p h
    rw [lookupA_singleton] at h
    by_cases hax : a = x
    · rw [if_pos hax] at h
      exact ⟨hax.symm, (Option.some.inj h).symm⟩
    · rw [if_neg hax] at h
      cases h
  refine ⟨?_, ?_, ?_, ?_, ?_, ?_, ?_⟩
  · intro e he
    rcases List.mem_singleton.mp he with rfl
    dsimp only
    rw [lookupA_singleton, if_pos rfl]
  · intro e he
    rcases List.mem_singleton.mp he with rfl
    dsimp only
    rw [lookupA_singleton, if_pos rfl]
  · intro x p hx
    obtain ⟨rfl, rfl⟩ := hsing start x p hx
    refine ⟨PathOk_singleton g x, ?_⟩
    intro y hy
    cases hy
  · intro x p hx
    obtain ⟨rfl, rfl⟩ := hsing goal x p hx
    refine ⟨PathOk_singleton g x, ?_⟩
    intro y hy
    cases hy
  · intro y hf _
    obtain ⟨hk, hnq⟩ := hf
    obtain ⟨p, hp⟩ := Option.isSome_iff_exists.mp hk
    obtain ⟨rfl, _⟩ := hsing start y p hp
    exact hnq (List.mem_singleton.mpr rfl)
  · exact List.nodup_singleton _
  · exact List.nodup_singleton _

/-- `bidirectionalSearch`: master property of successful outcomes. -/
theorem bidirectionalSearch_success (g : GraphData) (start goal : String)
    (running : ℕ → Bool) (fuel : ℕ) (o : SearchOutcome)
    (h : bidirectionalSearch g start goal running fuel = some o)
    (hs : o.success = true) :
    ∃ p, o.path = some p ∧ p.head? = some start ∧ p.getLast? = some goal ∧
      List.Chain' (adjacent g) p ∧ p.Nodup :=
  bidiLoop_success g start goal running fuel _ o
    (bidi_initial_inv g start goal) h hs

/-- **C2.**  For every strategy, a successful outcome's path starts at the
start city, ends at a member of the goal set, and every consecutive pair
is joined by a road; the bidirectional strategy's assembled
forward-plus-reversed-backward path runs from the start to its (single)
goal. -/
theorem claim_C2 :
    (∀ (g : GraphData) (start : String) (goal : GoalSpec)
        (running : ℕ → Bool) (fuel : ℕ) (o : SearchOutcome),
        breadthFirstSearch g start goal running fuel = some o →
        o.success = true →
        ∃ p z, o.path = some p ∧ p.head? = some start ∧
          p.getLast? = some z ∧ isGoalNode z goal = true ∧
          List.Chain' (adjacent g) p) ∧
    (∀ (g : GraphData) (start : String) (goal : GoalSpec)
        (running : ℕ → Bool) (fuel : ℕ) (o : SearchOutcome),
        depthFirstSearch g start goal running fuel = some o →
        o.success = true →
        ∃ p z, o.path = some p ∧ p.head? = some start ∧
          p.getLast? = some z ∧ isGoalNode z goal = true ∧
          List.Chain' (adjacent g) p) ∧
    (∀ (g : GraphData) (start : String) (goal : GoalSpec)
        (running : ℕ → Bool) (fuel : ℕ) (o : SearchOutcome),
        uniformCostSearch g start goal running fuel = some o →
        o.success = true →
        ∃ p z, o.path = some p ∧ p.head? = some start ∧
          p.getLast? = some z ∧ isGoalNode z goal = true ∧
          List.Chain' (adjacent g) p) ∧
    (∀ (g : GraphData) (start : String) (goal : GoalSpec) (dl : ℤ)
        (running : ℕ → Bool) (o : SearchOutcome),
        depthLimitedSearch g start goal dl running = o →
        o.success = true →
        ∃ p z, o.path = some p ∧ p.head? = some start ∧
          p.getLast? = some z ∧ isGoalNode z goal = true ∧
          List.Chain' (adjacent g) p) ∧
    (∀ (g : GraphData) (start : String) (goal : GoalSpec)
        (running : ℕ → Bool) (o : SearchOutcome),
        iterativeDeepeningSearch g start goal running = o →
        o.success = true →
        ∃ p z, o.path = some p ∧ p.head? = some start ∧
          p.getLast? = some z ∧ isGoalNode z goal = true ∧
          List.Chain' (adjacent g) p) ∧
    (∀ (g : GraphData) (start goal : String) (running : ℕ → Bool) (fuel : ℕ)
        (o : SearchOutcome),
        bidirectionalSearch g start goal running fuel = some o →
        o.success = true →
        ∃ p, o.path = some p ∧ p.head? = some start ∧
          p.getLast? = some goal ∧ List.Chain' (adjacent g) p) ∧
    (∀ (g : GraphData) (h : String → ℤ) (start : String) (goal : GoalSpec)
        (running : ℕ → Bool) (fuel : ℕ) (o : SearchOutcome),
        greedyBestFirstSearch g h start goal running fuel = some o →
        o.success = true →
        ∃ p z, o.path = some p ∧ p.head? = some start ∧
          p.getLast? = some z ∧ isGoalNode z goal = true ∧
          List.Chain' (adjacent g) p) ∧
    (∀ (g : GraphData) (h : String → ℤ) (start : String) (goal : GoalSpec)
        (running : ℕ → Bool) (fuel : ℕ) (o : SearchOutcome),
        aStarSearch g h start goal running fuel = some o →
        o.success = true →
        ∃ p z, o.path = some p ∧ p.head? = some start ∧
          p.getLast? = some z ∧ isGoalNode z goal = true ∧
          List.Chain' (adjacent g) p) := by
  refine ⟨?_, ?_, ?_, ?_, ?_, ?_, ?_, ?_⟩
  · intro g start goal running fuel o hrun hs
    obtain ⟨p, z, h1, h2, h3⟩ := bfsLoop_success g start goal running fuel _ o
      (by
        intro e he
        rcases List.mem_singleton.mp he with rfl
        exact ⟨PathOk_singleton g start, fun x hx => hx⟩) hrun hs
    exact ⟨p, z, h1, h2.1, h2.2.1, h3, h2.2.2.1⟩
  · intro g start goal running fuel o hrun hs
    obtain ⟨p, z, h1, h2, h3⟩ := dfsLoop_success g start goal running fuel _ o
      (by
        intro e he
        rcases List.mem_singleton.mp he with rfl
        exact ⟨PathOk_singleton g start, fun x hx => hx⟩) hrun hs
    exact ⟨p, z, h1, h2.1, h2.2.1, h3, h2.2.2.1⟩
  · intro g start goal running fuel o hrun hs
    obtain ⟨p, z, h1, h2, h3⟩ := ucsLoop_success g start goal running fuel _ o
      (by
        intro e he
        rcases List.mem_singleton.mp he with rfl
        exact ⟨PathOk_singleton g start, fun x hx => by cases hx⟩) hrun hs
    exact ⟨p, z, h1, h2.1, h2.2.1, h3, h2.2.2.1⟩
  · intro g start goal dl running o hrun hs
    rcases hf : depthLimitedSearchFrom g start goal dl running 0 with ⟨r, k'⟩
    have ho : o = r := by
      rw [← hrun]
      unfold depthLimitedSearch
      rw [hf]
    subst ho
    obtain ⟨p, z, h1, h2, h3⟩ := depthLimitedSearchFrom_success g start goal
      dl running 0 o k' hf hs
    exact ⟨p, z, h1, h2.1, h2.2.1, h3, h2.2.2.1⟩
  · intro g start goal running o hrun hs
    obtain ⟨p, z, h1, h2, h3⟩ := iddfsGo_success g start goal running
      [0, 1, 2, 3, 4, 5] 0 0 0 0 o hrun hs
    exact ⟨p, z, h1, h2.1, h2.2.1, h3, h2.2.2.1⟩
  · intro g start goal running fuel o hrun hs
    obtain ⟨p, h1, h2, h3, h4, h5⟩ :=
      bidirectionalSearch_success g start goal running fuel o hrun hs
    exact ⟨p, h1, h2, h3, h4⟩
  · intro g h start goal running fuel o hrun hs
    obtain ⟨p, z, h1, h2, h3⟩ := greedyLoop_success g start goal h running
      fuel _ o
      (by
        intro e he
        rcases List.mem_singleton.mp he with rfl
        exact ⟨PathOk_singleton g start, fun x hx => by cases hx⟩) hrun hs
    exact ⟨p, z, h1, h2.1, h2.2.1, h3, h2.2.2.1⟩
  · intro g h start goal running fuel o hrun hs
    obtain ⟨p, z, h1, h2, h3⟩ := astarLoop_success g start goal h running
      fuel _ o
      (by
        intro e he
        rcases List.mem_singleton.mp he with rfl
        exact ⟨PathOk_singleton g start, fun x hx => by cases hx⟩) hrun hs
    exact ⟨p, z, h1, h2.1, h2.2.1, h3, h2.2.2.1⟩

/-- Witness for C2: all eight strategies run on the fixture graph. -/
theorem claim_C2_witness :
    (∃ p z, outAC.path = some p ∧ p.head? = some "A" ∧
      p.getLast? = some z ∧ isGoalNode z (GoalSpec.single "C") = true ∧
      List.Chain' (adjacent fixtureG) p) ∧
    (∃ p z, outAC.path = some p ∧ p.head? = some "A" ∧
      p.getLast? = some z ∧ isGoalNode z (GoalSpec.single "C") = true ∧
      List.Chain' (adjacent fixtureG) p) ∧
    (∃ p z, outABC.path = some p ∧ p.head? = some "A" ∧
      p.getLast? = some z ∧ isGoalNode z (GoalSpec.single "C") = true ∧
      List.Chain' (adjacent fixtureG) p) ∧
    (∃ p z, (depthLimitedSearch fixtureG "A" (GoalSpec.single "C") 2
        runTrue).path = some p ∧
      p.head? = some "A" ∧ p.getLast? = some z ∧
      isGoalNode z (GoalSpec.single "C") = true ∧
      List.Chain' (adjacent fixtureG) p) ∧
    (∃ p z, (iterativeDeepeningSearch fixtureG "A" (GoalSpec.single "C")
        runTrue).path = some p ∧
      p.head? = some "A" ∧ p.getLast? = some z ∧
      isGoalNode z (GoalSpec.single "C") = true ∧
      List.Chain' (adjacent fixtureG) p) ∧
    (∃ p, outACbidi.path = some p ∧ p.head? = some "A" ∧
      p.getLast? = some "C" ∧ List.Chain' (adjacent fixtureG) p) ∧
    (∃ p z, outACg.path = some p ∧ p.head? = some "A" ∧
      p.getLast? = some z ∧ isGoalNode z (GoalSpec.single "C") = true ∧
      List.Chain' (adjacent fixtureG) p) ∧
    (∃ p z, outABC.path = some p ∧ p.head? = some "A" ∧
      p.getLast? = some z ∧ isGoalNode z (GoalSpec.single "C") = true ∧
      List.Chain' (adjacent fixtureG) p) :=
  ⟨claim_C2.1 fixtureG "A" (GoalSpec.single "C") runTrue 10 outAC (by decide)
      (by decide),
   claim_C2.2.1 fixtureG "A" (GoalSpec.single "C") runTrue 10 outAC
      (by decide) (by decide),
   claim_C2.2.2.1 fixtureG "A" (GoalSpec.single "C") runTrue 10 outABC
      (by decide) (by decide),
   claim_C2.2.2.2.1 fixtureG "A" (GoalSpec.single "C") 2 runTrue _ rfl
      (by decide),
   claim_C2.2.2.2.2.1 fixtureG "A" (GoalSpec.single "C") runTrue _ rfl
      (by decide),
   claim_C2.2.2.2.2.2.1 fixtureG "A" "C" runTrue 10 outACbidi (by decide)
      (by decide),
   claim_C2.2.2.2.2.2.2.1 fixtureG hZero "A" (GoalSpec.single "C") runTrue 10
      outACg (by decide) (by decide),
   claim_C2.2.2.2.2.2.2.2 fixtureG hZero "A" (GoalSpec.single "C") runTrue 10
      outABC (by decide) (by decide)⟩

/-- **C3.**  For every strategy, no city identifier occurs twice in a
successful outcome's path; for bidirectional search this covers the path
assembled from the two independent visited maps. -/
theorem claim_C3 :
    (∀ (g : GraphData) (start : String) (goal : GoalSpec)
        (running : ℕ → Bool) (fuel : ℕ) (o : SearchOutcome),
        breadthFirstSearch g start goal running fuel = some o →
        o.success = true → ∃ p, o.path = some p ∧ p.Nodup) ∧
    (∀ (g : GraphData) (start : String) (goal : GoalSpec)
        (running : ℕ → Bool) (fuel : ℕ) (o : SearchOutcome),
        depthFirstSearch g start goal running fuel = some o →
        o.success = true → ∃ p, o.path = some p ∧ p.Nodup) ∧
    (∀ (g : GraphData) (start : String) (goal : GoalSpec)
        (running : ℕ → Bool) (fuel : ℕ) (o : SearchOutcome),
        uniformCostSearch g start goal running fuel = some o →
        o.success = true → ∃ p, o.path = some p ∧ p.Nodup) ∧
    (∀ (g : GraphData) (start : String) (goal : GoalSpec) (dl : ℤ)
        (running : ℕ → Bool) (o : SearchOutcome),
        depthLimitedSearch g start goal dl running = o →
        o.success = true → ∃ p, o.path = some p ∧ p.Nodup) ∧
    (∀ (g : GraphData) (start : String) (goal : GoalSpec)
        (running : ℕ → Bool) (o : SearchOutcome),
        iterativeDeepeningSearch g start goal running = o →
        o.success = true → ∃ p, o.path = some p ∧ p.Nodup) ∧
    (∀ (g : GraphData) (start goal : String) (running : ℕ → Bool) (fuel : ℕ)
        (o : SearchOutcome),
        bidirectionalSearch g start goal running fuel = some o →
        o.success = true → ∃ p, o.path = some p ∧ p.Nodup) ∧
    (∀ (g : GraphData) (h : String → ℤ) (start : String) (goal : GoalSpec)
        (running : ℕ → Bool) (fuel : ℕ) (o : SearchOutcome),
        greedyBestFirstSearch g h start goal running fuel = some o →
        o.success = true → ∃ p, o.path = some p ∧ p.Nodup) ∧
    (∀ (g : GraphData) (h : String → ℤ) (start : String) (goal : GoalSpec)
        (running : ℕ → Bool) (fuel : ℕ) (o : SearchOutcome),
        aStarSearch g h start goal running fuel = some o →
        o.success = true → ∃ p, o.path = some p ∧ p.Nodup) := by
  refine ⟨?_, ?_, ?_, ?_, ?_, ?_, ?_, ?_⟩
  · intro g start goal running fuel o hrun hs
    obtain ⟨p, z, h1, h2, h3⟩ := bfsLoop_success g start goal running fuel _ o
      (by
        intro e he
        rcases List.mem_singleton.mp he with rfl
        exact ⟨PathOk_singleton g start, fun x hx => hx⟩) hrun hs
    exact ⟨p, h1, h2.2.2.2⟩
  · intro g start goal running fuel o hrun hs
    obtain ⟨p, z, h1, h2, h3⟩ := dfsLoop_success g start goal running fuel _ o
      (by
        intro e he
        rcases List.mem_singleton.mp he with rfl
        exact ⟨PathOk_singleton g start, fun x hx => hx⟩) hrun hs
    exact ⟨p, h1, h2.2.2.2⟩
  · intro g start goal running fuel o hrun hs
    obtain ⟨p, z, h1, h2, h3⟩ := ucsLoop_success g start goal running fuel _ o
      (by
        intro e he
        rcases List.mem_singleton.mp he with rfl
        exact ⟨PathOk_singleton g start, fun x hx => by cases hx⟩) hrun hs
    exact ⟨p, h1, h2.2.2.2⟩
  · intro g start goal dl running o hrun hs
    rcases hf : depthLimitedSearchFrom g start goal dl running 0 with ⟨r, k'⟩
    have ho : o = r := by
      rw [← hrun]
      unfold depthLimitedSearch
      rw [hf]
    subst ho
    obtain ⟨p, z, h1, h2, h3⟩ := depthLimitedSearchFrom_success g start goal
      dl running 0 o k' hf hs
    exact ⟨p, h1, h2.2.2.2⟩
  · intro g start goal running o hrun hs
    obtain ⟨p, z, h1, h2, h3⟩ := iddfsGo_success g start goal running
      [0, 1, 2, 3, 4, 5] 0 0 0 0 o hrun hs
    exact ⟨p, h1, h2.2.2.2⟩
  · intro g start goal running fuel o hrun hs
    obtain ⟨p, h1, h2, h3, h4, h5⟩ :=
      bidirectionalSearch_success g start goal running fuel o hrun hs
    exact ⟨p, h1, h5⟩
  · intro g h start goal running fuel o hrun hs
    obtain ⟨p, z, h1, h2, h3⟩ := greedyLoop_success g start goal h running
      fuel _ o
      (by
        intro e he
        rcases List.mem_singleton.mp he with rfl
        exact ⟨PathOk_singleton g start, fun x hx => by cases hx⟩) hrun hs
    exact ⟨p, h1, h2.2.2.2⟩
  · intro g h start goal running fuel o hrun hs
    obtain ⟨p, z, h1, h2, h3⟩ := astarLoop_success g start goal h running
      fuel _ o
      (by
        intro e he
        rcases List.mem_singleton.mp he with rfl
        exact ⟨PathOk_singleton g start, fun x hx => by cases hx⟩) hrun hs
    exact ⟨p, h1, h2.2.2.2⟩

/-- Witness for C3: all eight strategies run on the fixture graph; each
returned path is duplicate-free. -/
theorem claim_C3_witness :
    (∃ p, outAC.path = some p ∧ p.Nodup) ∧
    (∃ p, outAC.path = some p ∧ p.Nodup) ∧
    (∃ p, outABC.path = some p ∧ p.Nodup) ∧
    (∃ p, (depthLimitedSearch fixtureG "A" (GoalSpec.single "C") 2
        runTrue).path = some p ∧ p.Nodup) ∧
    (∃ p, (iterativeDeepeningSearch fixtureG "A" (GoalSpec.single "C")
        runTrue).path = some p ∧ p.Nodup) ∧
    (∃ p, outACbidi.path = some p ∧ p.Nodup) ∧
    (∃ p, outACg.path = some p ∧ p.Nodup) ∧
    (∃ p, outABC.path = some p ∧ p.Nodup) :=
  ⟨claim_C3.1 fixtureG "A" (GoalSpec.single "C") runTrue 10 outAC (by decide)
      (by decide),
   claim_C3.2.1 fixtureG "A" (GoalSpec.single "C") runTrue 10 outAC
      (by decide) (by decide),
   claim_C3.2.2.1 fixtureG "A" (GoalSpec.single "C") runTrue 10 outABC
      (by decide) (by decide),
   claim_C3.2.2.2.1 fixtureG "A" (GoalSpec.single "C") 2 runTrue _ rfl
      (by decide),
   claim_C3.2.2.2.2.1 fixtureG "A" (GoalSpec.single "C") runTrue _ rfl
      (by decide),
   claim_C3.2.2.2.2.2.1 fixtureG "A" "C" runTrue 10 outACbidi (by decide)
      (by decide),
   claim_C3.2.2.2.2.2.2.1 fixtureG hZero "A" (GoalSpec.single "C") runTrue 10
      outACg (by decide) (by decide),
   claim_C3.2.2.2.2.2.2.2 fixtureG hZero "A" (GoalSpec.single "C") runTrue 10
      outABC (by decide) (by decide)⟩

/-! ### Arithmetic and order helpers for the UCS optimality proof -/

theorem foldlMin_le_mem : ∀ (cs : List ℤ) (c : ℤ), ∀ x ∈ c :: cs,
    cs.foldl min c ≤ x := by
  intro cs
  induction cs with
  | nil =>
    intro c x hx
    rcases List.mem_cons.mp hx with rfl | hx
    · exact le_refl x
    · cases hx
  | cons d cs ih =>
    intro c x hx
    show List.foldl min (min c d) cs ≤ x
    rcases List.mem_cons.mp hx with rfl | hx
    · exact le_trans (ih _ _ (List.mem_cons_self _ _)) (min_le_left _ _)
    · rcases List.mem_cons.mp hx with rfl | hx
      · exact le_trans (ih _ _ (List.mem_cons_self _ _)) (min_le_right _ _)
      · exact ih (min c d) x (List.mem_cons_of_mem _ hx)

theorem foldlMin_mem : ∀ (cs : List ℤ) (c : ℤ), cs.foldl min c ∈ c :: cs := by
  intro cs
  induction cs with
  | nil => exact fun c => List.mem_singleton.mpr rfl
  | cons d cs ih =>
    intro c
    show List.foldl min (min c d) cs ∈ c :: d :: cs
    have h := ih (min c d)
    rcases List.mem_cons.mp h with h | h
    · rw [h]
      rcases min_choice c d with hm | hm <;> rw [hm]
      · exact List.mem_cons_self _ _
      · exact List.mem_cons_of_mem _ (List.mem_cons_self _ _)
    · exact List.mem_cons_of_mem _ (List.mem_cons_of_mem _ h)

theorem mem_linksBetween {g : GraphData} {l : Link} {a b : String} :
    l ∈ linksBetween g a b ↔ l ∈ g.links ∧
      ((l.source = a ∧ l.target = b) ∨ (l.source = b ∧ l.target = a)) := by
  simp [linksBetween, List.mem_filter, Bool.or_eq_true, Bool.and_eq_true,
    beq_iff_eq]

theorem linksBetween_ne_nil {g : GraphData} {a b : String}
    (h : adjacent g a b) : linksBetween g a b ≠ [] := by
  obtain ⟨l, hl, hor⟩ := h
  intro hnil
  have hmem : l ∈ linksBetween g a b := mem_linksBetween.mpr ⟨hl, hor⟩
  rw [hnil] at hmem
  cases hmem

theorem pairMin_nonneg {g : GraphData} (a b : String)
    (hn : ∀ l ∈ g.links, 0 ≤ l.distance) : 0 ≤ pairMin g a b := by
  unfold pairMin
  split
  · exact le_refl 0
  · rename_i c cs heq
    have hmem := foldlMin_mem cs c
    rw [← heq] at hmem
    obtain ⟨l, hl, hd⟩ := List.mem_map.mp hmem
    rw [← hd]
    exact hn l (mem_linksBetween.mp hl).1

theorem pairMin_le {g : GraphData} {a b : String} {l : Link}
    (h : l ∈ linksBetween g a b) : pairMin g a b ≤ l.distance := by
  unfold pairMin
  split
  · rename_i heq
    rw [List.map_eq_nil_iff] at heq
    rw [heq] at h
    cases h
  · rename_i c cs heq
    have hmem : l.distance ∈ (linksBetween g a b).map Link.distance :=
      List.mem_map_of_mem _ h
    rw [heq] at hmem
    exact foldlMin_le_mem cs c _ hmem

theorem pairMin_attained {g : GraphData} {a b : String}
    (h : adjacent g a b) :
    ∃ l ∈ linksBetween g a b, l.distance = pairMin g a b := by
  unfold pairMin
  split
  · rename_i heq
    rw [List.map_eq_nil_iff] at heq
    exact absurd heq (linksBetween_ne_nil h)
  · rename_i c cs heq
    have hmem := foldlMin_mem cs c
    rw [← heq] at hmem
    obtain ⟨l, hl, hd⟩ := List.mem_map.mp hmem
    exact ⟨l, hl, hd⟩

theorem walkCost_nonneg {g : GraphData}
    (hn : ∀ l ∈ g.links, 0 ≤ l.distance) : ∀ p, 0 ≤ walkCost g p := by
  intro p
  induction p with
  | nil => exact le_refl 0
  | cons a t ih =>
    cases t with
    | nil => exact le_refl 0
    | cons b r =>
      show 0 ≤ pairMin g a b + walkCost g (b :: r)
      exact add_nonneg (pairMin_nonneg a b hn) ih

theorem walkCost_append (g : GraphData) :
    ∀ (a : List String) (x : String) (b : List String),
      walkCost g (a ++ x :: b) = walkCost g (a ++ [x]) + walkCost g (x :: b) := by
  intro a
  induction a with
  | nil =>
    intro x b
    show walkCost g (x :: b) = walkCost g [x] + walkCost g (x :: b)
    show walkCost g (x :: b) = 0 + walkCost g (x :: b)
    ring
  | cons y a ih =>
    intro x b
    cases a with
    | nil =>
      show pairMin g y x + walkCost g (x :: b) =
        (pairMin g y x + walkCost g [x]) + walkCost g (x :: b)
      show pairMin g y x + walkCost g (x :: b) =
        (pairMin g y x + 0) + walkCost g (x :: b)
      ring
    | cons z a' =>
      show pairMin g y z + walkCost g ((z :: a') ++ x :: b) =
        (pairMin g y z + walkCost g ((z :: a') ++ [x])) + walkCost g (x :: b)
      rw [ih x b]
      ring

/-! ### Sortedness of the stable insertion sort -/

theorem pairwise_insertByKey {α : Type} (key : α → ℤ) (a : α) :
    ∀ l, List.Pairwise (fun x y => key x ≤ key y) l →
      List.Pairwise (fun x y => key x ≤ key y) (insertByKey key a l) := by
  intro l
  induction l with
  | nil =>
    intro _
    exact List.pairwise_singleton _ _
  | cons b t ih =>
    intro hp
    simp only [insertByKey]
    split
    · rename_i hab
      refine List.Pairwise.cons ?_ hp
      intro y hy
      rcases List.mem_cons.mp hy with rfl | hy
      · exact hab
      · exact le_trans hab ((List.pairwise_cons.mp hp).1 y hy)
    · rename_i hab
      have hba : key b ≤ key a := le_of_not_le hab
      obtain ⟨hbt, hpt⟩ := List.pairwise_cons.mp hp
      refine List.Pairwise.cons ?_ (ih hpt)
      intro y hy
      rcases (mem_insertByKey key a t y).mp hy with rfl | hy
      · exact hba
      · exact hbt y hy

theorem pairwise_sortByKey {α : Type} (key : α → ℤ) :
    ∀ l, List.Pairwise (fun x y => key x ≤ key y) (sortByKey key l) := by
  intro l
  induction l with
  | nil => exact List.Pairwise.nil
  | cons a t ih =>
    simp only [sortByKey]
    exact pairwise_insertByKey key a _ ih

theorem sortByKey_head_le {α : Type} (key : α → ℤ) {l t : List α} {a : α}
    (h : sortByKey key l = a :: t) : ∀ b ∈ l, key a ≤ key b := by
  intro b hb
  have hbs : b ∈ a :: t := by
    rw [← h]
    exact (mem_sortByKey key l b).mpr hb
  rcases List.mem_cons.mp hbs with rfl | hbs
  · exact le_refl _
  · have hp := pairwise_sortByKey key l
    rw [h] at hp
    exact (List.pairwise_cons.mp hp).1 b hbs

/-- Any list containing an element outside `v` splits at a first such
element, with everything before it inside `v`. -/
theorem exists_first_not_mem {q v : List String} {u : String}
    (hu : u ∈ q) (hnv : u ∉ v) :
    ∃ a y b, q = a ++ y :: b ∧ (∀ x ∈ a, x ∈ v) ∧ y ∉ v := by
  induction q with
  | nil => cases hu
  | cons h t ih =>
    by_cases hh : h ∈ v
    · have hut : u ∈ t := by
        rcases List.mem_cons.mp hu with rfl | hut
        · exact absurd hh hnv
        · exact hut
      obtain ⟨a, y, b, heq, hav, hyv⟩ := ih hut
      refine ⟨h :: a, y, b, by rw [heq]; rfl, ?_, hyv⟩
      intro x hx
      rcases List.mem_cons.mp hx with rfl | hx
      · exact hh
      · exact hav x hx
    · exact ⟨[], h, t, rfl, fun x hx => absurd hx (List.not_mem_nil x), hh⟩

/-! ### Membership structure of the UCS neighbour pass -/

theorem ucsExpand_mem_preserved (path : List String) (cost : ℤ) :
    ∀ (nbrs : List Neighbor) (fr : List CEntry) (vis : List String)
      (nd ep : ℕ) (x : CEntry), x ∈ fr →
      x ∈ (ucsExpand path cost fr vis nd ep nbrs).frontier := by
  intro nbrs
  induction nbrs with
  | nil => intro fr vis nd ep x hx; exact hx
  | cons nb rest ih =>
    intro fr vis nd ep x hx
    simp only [ucsExpand]
    split
    · exact ih fr vis nd (ep + 1) x hx
    · exact ih _ vis (nd + 1) (ep + 1) x (List.mem_append_left _ hx)

theorem ucsExpand_mem_push (path : List String) (cost : ℤ) :
    ∀ (nbrs : List Neighbor) (fr : List CEntry) (vis : List String)
      (nd ep : ℕ) (nb : Neighbor), nb ∈ nbrs → vis.contains nb.id = false →
      (⟨nb.id, path ++ [nb.id], cost + nb.distance⟩ : CEntry) ∈
        (ucsExpand path cost fr vis nd ep nbrs).frontier := by
  intro nbrs
  induction nbrs with
  | nil => intro fr vis nd ep nb h; cases h
  | cons nb0 rest ih =>
    intro fr vis nd ep nb hmem hnv
    rcases List.mem_cons.mp hmem with rfl | hmem
    · simp only [ucsExpand]
      split
      · rename_i hc
        rw [hnv] at hc
        cases hc
      · exact ucsExpand_mem_preserved path cost rest _ vis _ _ _
          (List.mem_append_right _ (List.mem_singleton.mpr rfl))
    · simp only [ucsExpand]
      split
      · exact ih fr vis nd (ep + 1) nb hmem hnv
      · exact ih _ vis (nd + 1) (ep + 1) nb hmem hnv

theorem ucsExpand_mem_inv (path : List String) (cost : ℤ) :
    ∀ (nbrs : List Neighbor) (fr : List CEntry) (vis : List String)
      (nd ep : ℕ) (x : CEntry),
      x ∈ (ucsExpand path cost fr vis nd ep nbrs).frontier →
      x ∈ fr ∨ ∃ nb ∈ nbrs,
        x = ⟨nb.id, path ++ [nb.id], cost + nb.distance⟩ := by
  intro nbrs
  induction nbrs with
  | nil => intro fr vis nd ep x hx; exact Or.inl hx
  | cons nb rest ih =>
    intro fr vis nd ep x hx
    simp only [ucsExpand] at hx
    split at hx
    · rcases ih fr vis nd (ep + 1) x hx with h | ⟨nb1, hnb1, hx1⟩
      · exact Or.inl h
      · exact Or.inr ⟨nb1, List.mem_cons_of_mem _ hnb1, hx1⟩
    · rcases ih _ vis (nd + 1) (ep + 1) x hx with h | ⟨nb1, hnb1, hx1⟩
      · rcases List.mem_append.mp h with h | h
        · exact Or.inl h
        · exact Or.inr ⟨nb, List.mem_cons_self _ _, List.mem_singleton.mp h⟩
      · exact Or.inr ⟨nb1, List.mem_cons_of_mem _ hnb1, hx1⟩

theorem ucsExpand_length (path : List String) (cost : ℤ) :
    ∀ (nbrs : List Neighbor) (fr : List CEntry) (vis : List String)
      (nd ep : ℕ),
      (ucsExpand path cost fr vis nd ep nbrs).frontier.length ≤
        fr.length + nbrs.length := by
  intro nbrs
  induction nbrs with
  | nil =>
    intro fr vis nd ep
    show fr.length ≤ fr.length + ([] : List Neighbor).length
    simp
  | cons nb rest ih =>
    intro fr vis nd ep
    simp only [ucsExpand]
    split
    · exact le_trans (ih fr vis nd (ep + 1)) (by simp)
    · have h2 := ih (fr ++ [⟨nb.id, path ++ [nb.id], cost + nb.distance⟩])
        vis (nd + 1) (ep + 1)
      simp only [List.length_append, List.length_cons, List.length_nil] at h2 ⊢
      omega

theorem contains_false_of_not_mem {l : List String} {a : String}
    (h : a ∉ l) : l.contains a = false := by
  cases hc : l.contains a
  · rfl
  · exact absurd (List.mem_of_elem_eq_true hc) h

/-- The master cover property of the `UcsInv` invariant: every walk from
the start to an unvisited node is matched by a frontier entry whose cost
is at most the walk's cost. -/
theorem ucsInv_covers {g : GraphData} {start : String} {goal : GoalSpec}
    {st : UcsState} {D : List (String × ℤ)}
    (hn : ∀ l ∈ g.links, 0 ≤ l.distance)
    (inv : UcsInv g start goal st D) :
    ∀ u q, ValidWalk g start u q → u ∉ st.visited →
      ∃ e ∈ st.frontier, e.cost ≤ walkCost g q := by
  intro u q hw hu
  obtain ⟨hhead, hlast, hchain⟩ := hw
  have hqne : q ≠ [] := by
    intro h
    rw [h] at hlast
    cases hlast
  have huq : u ∈ q := by
    rw [List.getLast?_eq_getLast _ hqne] at hlast
    rw [← Option.some.inj hlast]
    exact List.getLast_mem hqne
  obtain ⟨a, y, b, heq, hav, hyv⟩ := exists_first_not_mem huq hu
  cases a with
  | nil =>
    have hy : y = start := by
      rw [heq] at hhead
      exact Option.some.inj hhead
    rcases inv.start_cov with hsv | ⟨e, he, hes, hec⟩
    · rw [hy] at hyv
      exact absurd hsv hyv
    · exact ⟨e, he, le_trans hec (walkCost_nonneg hn q)⟩
  | cons a0 a1 =>
    rcases List.eq_nil_or_concat (a0 :: a1) with hnil | ⟨a2, v, hva⟩
    · cases hnil
    rw [List.concat_eq_append] at hva
    rw [hva] at heq hav
    have hvv : v ∈ st.visited :=
      hav v (List.mem_append_right _ (List.mem_singleton.mpr rfl))
    have hvD : v ∈ D.map Prod.fst := by
      rw [← inv.visited_eq]
      exact hvv
    obtain ⟨vc, hvcD, hvc1⟩ := List.mem_map.mp hvD
    have hq2 : q = a2 ++ v :: y :: b := by
      rw [heq, List.append_assoc]
      rfl
    have hchain2 : List.Chain' (adjacent g) (a2 ++ v :: y :: b) := by
      rw [← hq2]
      exact hchain
    have hadjvy : adjacent g v y :=
      (List.chain'_cons.mp (List.chain'_append.mp hchain2).2.1).1
    have hwalkv : ValidWalk g start v (a2 ++ [v]) := by
      refine ⟨?_, List.getLast?_concat a2, ?_⟩
      · rw [heq, List.head?_append_of_ne_nil _ (by simp)] at hhead
        exact hhead
      · have hch3 : List.Chain' (adjacent g) ((a2 ++ [v]) ++ y :: b) := by
          rw [← heq]
          exact hchain
        exact (List.chain'_append.mp hch3).1
    obtain ⟨e, he, hey, hec⟩ := inv.covered vc hvcD y
      (by rw [hvc1]; exact hadjvy)
      hyv
    refine ⟨e, he, ?_⟩
    have hsettle : vc.2 ≤ walkCost g (a2 ++ [v]) :=
      inv.settled vc hvcD (a2 ++ [v]) (by rw [hvc1]; exact hwalkv)
    have hwq : walkCost g q = walkCost g (a2 ++ [v]) +
        (pairMin g v y + walkCost g (y :: b)) := by
      rw [hq2, walkCost_append g a2 v (y :: b)]
      rfl
    have hnn : 0 ≤ walkCost g (y :: b) := walkCost_nonneg hn _
    rw [hvc1] at hec
    omega

/-- Stale-entry skip step: the invariant survives dropping the head of the
sorted frontier when its node is already visited. -/
theorem ucsInv_stale {g : GraphData} {start : String} {goal : GoalSpec}
    {st : UcsState} {D : List (String × ℤ)}
    (inv : UcsInv g start goal st D) {e : CEntry} {rest : List CEntry}
    (hsort : sortByKey (fun e => e.cost) st.frontier = e :: rest)
    (hv : st.visited.contains e.node = true)
    (st' : UcsState) (hf : st'.frontier = rest)
    (hv2 : st'.visited = st.visited) :
    UcsInv g start goal st' D := by
  have hrest : ∀ x ∈ rest, x ∈ st.frontier := by
    intro x hx
    have hxs : x ∈ sortByKey (fun e => e.cost) st.frontier := by
      rw [hsort]
      exact List.mem_cons_of_mem _ hx
    exact (mem_sortByKey _ _ _).mp hxs
  have hvnode : e.node ∈ st.visited := List.mem_of_elem_eq_true hv
  refine ⟨?_, ?_, ?_, ?_, ?_, ?_⟩
  · rw [hv2, inv.visited_eq]
  · intro vc hvc q hq
    exact inv.settled vc hvc q hq
  · intro vc hvc y hadj hyv
    rw [hv2] at hyv
    obtain ⟨e1, he1, he1n, he1c⟩ := inv.covered vc hvc y hadj hyv
    have he1s : e1 ∈ e :: rest := by
      rw [← hsort]
      exact (mem_sortByKey _ _ _).mpr he1
    rcases List.mem_cons.mp he1s with rfl | he1r
    · rw [he1n] at hvnode
      exact absurd hvnode hyv
    · exact ⟨e1, by rw [hf]; exact he1r, he1n, he1c⟩
  · intro e1 he1
    rw [hf] at he1
    exact inv.wf e1 (hrest e1 he1)
  · by_cases hs : start ∈ st.visited
    · left
      rw [hv2]
      exact hs
    · rcases inv.start_cov with hsv | ⟨es, hes, hesn, hesc⟩
      · exact absurd hsv hs
      · have hess : es ∈ e :: rest := by
          rw [← hsort]
          exact (mem_sortByKey _ _ _).mpr hes
        rcases List.mem_cons.mp hess with rfl | hesr
        · rw [hesn] at hvnode
          exact absurd hvnode hs
        · exact Or.inr ⟨es, by rw [hf]; exact hesr, hesn, hesc⟩
  · intro v hv3
    rw [hv2] at hv3
    exact inv.no_goal_visited v hv3

/-- Expansion step: the invariant survives visiting the head of the sorted
frontier and pushing its unvisited neighbours, with the ghost list
extended by the settled cost of the expanded node. -/
theorem ucsInv_expand {g : GraphData} {start : String} {goal : GoalSpec}
    {st : UcsState} {D : List (String × ℤ)}
    (hn : ∀ l ∈ g.links, 0 ≤ l.distance)
    (inv : UcsInv g start goal st D) {e : CEntry} {rest : List CEntry}
    (hsort : sortByKey (fun e => e.cost) st.frontier = e :: rest)
    (hnv : ¬ st.visited.contains e.node = true)
    (hng : ¬ isGoalNode e.node goal = true)
    (st' : UcsState) (nd0 ep0 : ℕ)
    (hf : st'.frontier = (ucsExpand e.path e.cost rest
      (st.visited ++ [e.node]) nd0 ep0 (getNeighbors g e.node)).frontier)
    (hv2 : st'.visited = st.visited ++ [e.node]) :
    UcsInv g start goal st' (D ++ [(e.node, e.cost)]) := by
  have hemem : e ∈ st.frontier := by
    have hes : e ∈ sortByKey (fun e => e.cost) st.frontier := by
      rw [hsort]
      exact List.mem_cons_self _ _
    exact (mem_sortByKey _ _ _).mp hes
  have hrest : ∀ x ∈ rest, x ∈ st.frontier := by
    intro x hx
    have hxs : x ∈ sortByKey (fun e => e.cost) st.frontier := by
      rw [hsort]
      exact List.mem_cons_of_mem _ hx
    exact (mem_sortByKey _ _ _).mp hxs
  have hnvm : e.node ∉ st.visited := fun h => hnv (List.elem_eq_true_of_mem h)
  obtain ⟨hwh, hwl, hwc, hwcost⟩ := inv.wf e hemem
  refine ⟨?_, ?_, ?_, ?_, ?_, ?_⟩
  · rw [hv2, inv.visited_eq, List.map_append]
    rfl
  · intro vc hvc q hq
    rcases List.mem_append.mp hvc with hvc | hvc
    · exact inv.settled vc hvc q hq
    · rcases List.mem_singleton.mp hvc with rfl
      obtain ⟨e1, he1, he1c⟩ := ucsInv_covers hn inv _ q hq hnvm
      exact le_trans (sortByKey_head_le _ hsort e1 he1) he1c
  · intro vc hvc y hadj hyv
    rw [hv2] at hyv
    have hyv2 : y ∉ st.visited ∧ y ≠ e.node := by
      constructor
      · exact fun h => hyv (List.mem_append_left _ h)
      · exact fun h => hyv (List.mem_append_right _ (List.mem_singleton.mpr h))
    rcases List.mem_append.mp hvc with hvc | hvc
    · obtain ⟨e1, he1, he1n, he1c⟩ := inv.covered vc hvc y hadj hyv2.1
      have he1s : e1 ∈ e :: rest := by
        rw [← hsort]
        exact (mem_sortByKey _ _ _).mpr he1
      rcases List.mem_cons.mp he1s with rfl | he1r
      · exact absurd he1n.symm hyv2.2
      · refine ⟨e1, ?_, he1n, he1c⟩
        rw [hf]
        exact ucsExpand_mem_preserved _ _ _ _ _ _ _ _ he1r
    · rcases List.mem_singleton.mp hvc with rfl
      obtain ⟨l, hlB, hld⟩ := pairMin_attained hadj
      obtain ⟨hlg, hor⟩ := mem_linksBetween.mp hlB
      have hnb : (⟨y, l.distance⟩ : Neighbor) ∈ getNeighbors g e.node :=
        getNeighbors_complete hlg hor hyv2.2
      have hycont : (st.visited ++ [e.node]).contains y = false := by
        refine contains_false_of_not_mem ?_
        intro h
        rcases List.mem_append.mp h with h | h
        · exact hyv2.1 h
        · exact hyv2.2 (List.mem_singleton.mp h)
      refine ⟨⟨y, e.path ++ [y], e.cost + l.distance⟩, ?_, rfl, ?_⟩
      · rw [hf]
        exact ucsExpand_mem_push e.path e.cost _ rest _ nd0 ep0
          ⟨y, l.distance⟩ hnb hycont
      · rw [hld]
  · intro e1 he1
    rw [hf] at he1
    rcases ucsExpand_mem_inv _ _ _ _ _ _ _ _ he1 with he1r | ⟨nb, hnb, rfl⟩
    · exact inv.wf e1 (hrest e1 he1r)
    · have hpne : e.path ≠ [] := by
        intro h
        rw [h] at hwh
        cases hwh
      have hadj2 : adjacent g e.node nb.id := adjacent_of_mem_getNeighbors hnb
      refine ⟨?_, ?_, ?_, ?_⟩
      · rw [List.head?_append_of_ne_nil _ hpne]
        exact hwh
      · exact List.getLast?_concat e.path
      · rw [List.chain'_append]
        refine ⟨hwc, List.chain'_singleton _, ?_⟩
        intro x hx y2 hy2
        simp only [List.head?_cons, Option.mem_def, Option.some.injEq] at hy2
        rw [hwl] at hx
        cases hx
        rw [← hy2]
        exact hadj2
      · rcases List.eq_nil_or_concat e.path with hpnil | ⟨p2, w, hp2⟩
        · exact absurd hpnil hpne
        rw [List.concat_eq_append] at hp2
        have hwn : w = e.node := by
          rw [hp2, List.getLast?_concat] at hwl
          exact Option.some.inj hwl
        dsimp only
        rw [hp2, hwn] at hwcost ⊢
        have hpm : pairMin g e.node nb.id ≤ nb.distance := by
          obtain ⟨l, hlg, hld, hor⟩ := mem_getNeighbors hnb
          have hlB : l ∈ linksBetween g e.node nb.id := by
            refine mem_linksBetween.mpr ⟨hlg, ?_⟩
            tauto
          rw [hld]
          exact pairMin_le hlB
        have hdec : walkCost g ((p2 ++ [e.node]) ++ [nb.id]) =
            walkCost g (p2 ++ [e.node]) + (pairMin g e.node nb.id + 0) := by
          rw [List.append_assoc]
          exact walkCost_append g p2 e.node [nb.id]
        rw [hdec]
        omega
  · by_cases hs : start ∈ st.visited
    · left
      rw [hv2]
      exact List.mem_append_left _ hs
    · rcases inv.start_cov with hsv | ⟨es, hes, hesn, hesc⟩
      · exact absurd hsv hs
      · have hess : es ∈ e :: rest := by
          rw [← hsort]
          exact (mem_sortByKey _ _ _).mpr hes
        rcases List.mem_cons.mp hess with rfl | hesr
        · left
          rw [hv2, ← hesn]
          exact List.mem_append_right _ (List.mem_singleton.mpr rfl)
        · refine Or.inr ⟨es, ?_, hesn, hesc⟩
          rw [hf]
          exact ucsExpand_mem_preserved _ _ _ _ _ _ _ _ hesr
  · intro v hv3
    rw [hv2] at hv3
    rcases List.mem_append.mp hv3 with hv3 | hv3
    · exact inv.no_goal_visited v hv3
    · rcases List.mem_singleton.mp hv3 with rfl
      cases hgb : isGoalNode e.node goal
      · rfl
      · exact absurd hgb hng

/-- Partial correctness of the UCS loop: under the invariant, a successful
outcome carries a start-rooted goal-ending linked path whose reported cost
bounds the path's walk cost from above and every goal walk's cost from
below. -/
theorem ucsLoop_optimal (g : GraphData) (start : String) (goal : GoalSpec)
    (running : ℕ → Bool) (hn : ∀ l ∈ g.links, 0 ≤ l.distance) :
    ∀ (fuel : ℕ) (st : UcsState) (D : List (String × ℤ)) (o : SearchOutcome),
      UcsInv g start goal st D →
      ucsLoop g goal running fuel st = some o → o.success = true →
      ∃ p c, o.path = some p ∧ o.cost = some c ∧
        p.head? = some start ∧
        (∃ z, p.getLast? = some z ∧ isGoalNode z goal = true) ∧
        List.Chain' (adjacent g) p ∧ walkCost g p ≤ c ∧
        ∀ u q, isGoalNode u goal = true → ValidWalk g start u q →
          c ≤ walkCost g q := by
  intro fuel
  induction fuel with
  | zero => intro st D o _ h; cases h
  | succ fuel ih =>
    intro st D o inv hrun hsucc
    rw [ucsLoop] at hrun
    split at hrun
    · cases Option.some.inj hrun
      cases hsucc
    · rename_i e0 rest0 hne
      split at hrun
      · cases Option.some.inj hrun
        cases hsucc
      · split at hrun
        · cases Option.some.inj hrun
          cases hsucc
        · rename_i e rest hsort
          split at hrun
          · rename_i hstale
            refine ih _ D o ?_ hrun hsucc
            exact ucsInv_stale inv hsort hstale _ rfl rfl
          · rename_i hstale
            split at hrun
            · rename_i hgoal
              cases Option.some.inj hrun
              have hemem : e ∈ st.frontier := by
                have hes : e ∈ sortByKey (fun e => e.cost) st.frontier := by
                  rw [hsort]
                  exact List.mem_cons_self _ _
                exact (mem_sortByKey _ _ _).mp hes
              obtain ⟨hwh, hwl, hwc, hwcost⟩ := inv.wf e hemem
              refine ⟨e.path, e.cost, rfl, rfl, hwh, ⟨e.node, hwl, hgoal⟩,
                hwc, hwcost, ?_⟩
              intro u q hug hwalk
              have hunv : u ∉ st.visited := by
                intro hmem
                rw [inv.no_goal_visited u hmem] at hug
                cases hug
              obtain ⟨e1, he1, he1c⟩ := ucsInv_covers hn inv u q hwalk hunv
              exact le_trans (sortByKey_head_le _ hsort e1 he1) he1c
            · rename_i hng
              refine ih _ (D ++ [(e.node, e.cost)]) o ?_ hrun hsucc
              exact ucsInv_expand hn inv hsort hstale hng _ _ _ rfl rfl

/-- With a reachable goal and no cancellation, the UCS loop can only
return successful outcomes: the exhausted-frontier exit is unreachable
because the cover property keeps a frontier entry alive for the goal
walk. -/
theorem ucsLoop_success_of_reach (g : GraphData) (start : String)
    (goal : GoalSpec) (hn : ∀ l ∈ g.links, 0 ≤ l.distance)
    (hreach : ∃ z q, isGoalNode z goal = true ∧ ValidWalk g start z q) :
    ∀ (fuel : ℕ) (st : UcsState) (D : List (String × ℤ)) (o : SearchOutcome),
      UcsInv g start goal st D →
      ucsLoop g goal runTrue fuel st = some o → o.success = true := by
  intro fuel
  induction fuel with
  | zero => intro st D o _ h; cases h
  | succ fuel ih =>
    intro st D o inv hrun
    rw [ucsLoop] at hrun
    split at hrun
    · rename_i hfr
      obtain ⟨z, q, hzg, hwalk⟩ := hreach
      have hzv : z ∉ st.visited := by
        intro hmem
        rw [inv.no_goal_visited z hmem] at hzg
        cases hzg
      obtain ⟨e1, he1, _⟩ := ucsInv_covers hn inv z q hwalk hzv
      rw [hfr] at he1
      cases he1
    · rename_i e0 rest0 hne
      split at hrun
      · rename_i hcancel
        simp [runTrue] at hcancel
      · split at hrun
        · rename_i hsort
          have hl := length_sortByKey (fun e => e.cost) st.frontier
          rw [hsort, hne] at hl
          simp at hl
        · rename_i e rest hsort
          split at hrun
          · rename_i hstale
            refine ih _ D o ?_ hrun
            exact ucsInv_stale inv hsort hstale _ rfl rfl
          · rename_i hstale
            split at hrun
            · cases Option.some.inj hrun
              rfl
            · rename_i hng
              refine ih _ (D ++ [(e.node, e.cost)]) o ?_ hrun
              exact ucsInv_expand hn inv hsort hstale hng _ _ _ rfl rfl

theorem filter_cons_true {α : Type} {p : α → Bool} {a : α} (t : List α)
    (h : p a = true) : List.filter p (a :: t) = a :: List.filter p t := by
  simp [List.filter_cons, h]

theorem filter_cons_false {α : Type} {p : α → Bool} {a : α} (t : List α)
    (h : p a = false) : List.filter p (a :: t) = List.filter p t := by
  simp [List.filter_cons, h]

theorem length_filter_mono {α : Type} (p q : α → Bool)
    (h : ∀ x, p x = true → q x = true) :
    ∀ l : List α, (l.filter p).length ≤ (l.filter q).length := by
  intro l
  induction l with
  | nil => exact le_refl 0
  | cons a t ih =>
    cases hpa : p a
    · rw [filter_cons_false t hpa]
      cases hqa : q a
      · rw [filter_cons_false t hqa]
        exact ih
      · rw [filter_cons_true t hqa]
        exact le_trans ih (Nat.le_succ _)
    · rw [filter_cons_true t hpa, filter_cons_true t (h a hpa)]
      simp only [List.length_cons]
      exact Nat.succ_le_succ ih

/-- Marking one more universe node as visited strictly shrinks the
unvisited-filter count. -/
theorem length_filter_out (v : List String) (x : String) :
    ∀ U : List String, x ∈ U → x ∉ v →
      (U.filter (fun y => ! (v ++ [x]).contains y)).length + 1 ≤
        (U.filter (fun y => ! v.contains y)).length := by
  have hmono : ∀ t : List String,
      (t.filter (fun y => ! (v ++ [x]).contains y)).length ≤
        (t.filter (fun y => ! v.contains y)).length := by
    refine length_filter_mono _ _ ?_
    intro y hy
    cases hc : v.contains y
    · rfl
    · have hcc : ((v ++ [x]).contains y) = true :=
        List.elem_eq_true_of_mem
          (List.mem_append_left _ (List.mem_of_elem_eq_true hc))
      rw [hcc] at hy
      cases hy
  intro U
  induction U with
  | nil => intro h; cases h
  | cons a t ih =>
    intro hxU hxv
    rcases List.mem_cons.mp hxU with rfl | haU
    · have h1 : ((v ++ [x]).contains x) = true :=
        List.elem_eq_true_of_mem
          (List.mem_append_right _ (List.mem_singleton.mpr rfl))
      have h2 : (v.contains x) = false := contains_false_of_not_mem hxv
      rw [filter_cons_false t
          (by show (! (v ++ [x]).contains x) = false; rw [h1]; rfl),
        filter_cons_true t
          (by show (! v.contains x) = true; rw [h2]; rfl)]
      simp only [List.length_cons]
      exact Nat.succ_le_succ (hmono t)
    · cases hpa : ((v ++ [x]).contains a)
      · have hva : (v.contains a) = false := by
          cases hv2 : v.contains a
          · rfl
          · have hcc : ((v ++ [x]).contains a) = true :=
              List.elem_eq_true_of_mem
                (List.mem_append_left _ (List.mem_of_elem_eq_true hv2))
            rw [hcc] at hpa
            cases hpa
        rw [filter_cons_true t
            (by show (! (v ++ [x]).contains a) = true; rw [hpa]; rfl),
          filter_cons_true t
            (by show (! v.contains a) = true; rw [hva]; rfl)]
        simp only [List.length_cons]
        exact Nat.succ_le_succ (ih haU hxv)
      · rw [filter_cons_false t
            (by show (! (v ++ [x]).contains a) = false; rw [hpa]; rfl)]
        cases hva : (v.contains a)
        · rw [filter_cons_true t
              (by show (! v.contains a) = true; rw [hva]; rfl)]
          simp only [List.length_cons]
          exact le_trans (ih haU hxv) (Nat.le_succ _)
        · rw [filter_cons_false t
              (by show (! v.contains a) = false; rw [hva]; rfl)]
          exact ih haU hxv

/-- Every neighbour id lies in the node universe. -/
theorem neighbor_mem_universe {g : GraphData} {u : String} {nb : Neighbor}
    (h : nb ∈ getNeighbors g u) (start : String) :
    nb.id ∈ nodeUniverse g start := by
  obtain ⟨l, hl, _, hor⟩ := mem_getNeighbors h
  unfold nodeUniverse
  rcases hor with ⟨_, h2⟩ | ⟨_, h2⟩
  · exact List.mem_cons_of_mem _
      (List.mem_append_right _ (List.mem_map.mpr ⟨l, hl, h2⟩))
  · exact List.mem_cons_of_mem _
      (List.mem_append_left _ (List.mem_map.mpr ⟨l, hl, h2⟩))

theorem getNeighbors_length_le (g : GraphData) (u : String) :
    (getNeighbors g u).length ≤ g.links.length :=
  List.length_filterMap_le _ _

/-- Totality of the UCS loop: with fuel above the measure the loop always
returns. -/
theorem ucsLoop_total (g : GraphData) (start : String) (goal : GoalSpec)
    (running : ℕ → Bool) :
    ∀ (fuel : ℕ) (st : UcsState),
      (∀ e ∈ st.frontier, e.node ∈ nodeUniverse g start) →
      ucsMeasure g start st < fuel →
      (ucsLoop g goal running fuel st).isSome = true := by
  intro fuel
  induction fuel with
  | zero => intro st _ hm; exact absurd hm (Nat.not_lt_zero _)
  | succ fuel ih =>
    intro st hu hm
    rw [ucsLoop]
    split
    · rfl
    · rename_i e0 rest0 hne
      split
      · rfl
      · split
        · rfl
        · rename_i e rest hsort
          have hflen : st.frontier.length = rest.length + 1 := by
            rw [← length_sortByKey (fun e => e.cost) st.frontier, hsort]
            rfl
          have hrestf : ∀ x ∈ rest, x ∈ st.frontier := by
            intro x hx
            have hxs : x ∈ sortByKey (fun e => e.cost) st.frontier := by
              rw [hsort]
              exact List.mem_cons_of_mem _ hx
            exact (mem_sortByKey _ _ _).mp hxs
          have h2 : ucsMeasure g start st =
              ((nodeUniverse g start).filter
                (fun y => ! st.visited.contains y)).length *
                (g.links.length + 1) + st.frontier.length := rfl
          split
          · rename_i hstale
            refine ih _ ?_ ?_
            · intro e1 he1
              exact hu e1 (hrestf e1 he1)
            · show ((nodeUniverse g start).filter
                  (fun y => ! st.visited.contains y)).length *
                  (g.links.length + 1) + rest.length < fuel
              omega
          · rename_i hstale
            split
            · rfl
            · rename_i hng
              have hemem : e ∈ st.frontier := by
                have hes : e ∈ sortByKey (fun e => e.cost) st.frontier := by
                  rw [hsort]
                  exact List.mem_cons_self _ _
                exact (mem_sortByKey _ _ _).mp hes
              have heU : e.node ∈ nodeUniverse g start := hu e hemem
              have henv : e.node ∉ st.visited := fun h =>
                hstale (List.elem_eq_true_of_mem h)
              refine ih _ ?_ ?_
              · intro e1 he1
                replace he1 : e1 ∈ (ucsExpand e.path e.cost rest
                    (st.visited ++ [e.node]) st.nodesDiscovered
                    st.edgesProcessed (getNeighbors g e.node)).frontier := he1
                rcases ucsExpand_mem_inv _ _ _ _ _ _ _ _ he1 with
                  h | ⟨nb, hnb, rfl⟩
                · exact hu e1 (hrestf e1 h)
                · exact neighbor_mem_universe hnb start
              · show ((nodeUniverse g start).filter
                    (fun y => ! (st.visited ++ [e.node]).contains y)).length *
                    (g.links.length + 1) +
                  (ucsExpand e.path e.cost rest (st.visited ++ [e.node])
                    st.nodesDiscovered st.edgesProcessed
                    (getNeighbors g e.node)).frontier.length < fuel
                have hF := length_filter_out st.visited e.node
                  (nodeUniverse g start) heU henv
                have hout := ucsExpand_length e.path e.cost
                  (getNeighbors g e.node) rest (st.visited ++ [e.node])
                  st.nodesDiscovered st.edgesProcessed
                have hnbl := getNeighbors_length_le g e.node
                have hmul : (((nodeUniverse g start).filter
                    (fun y => ! (st.visited ++ [e.node]).contains y)).length
                      + 1) * (g.links.length + 1) ≤
                    ((nodeUniverse g start).filter
                      (fun y => ! st.visited.contains y)).length *
                      (g.links.length + 1) :=
                  Nat.mul_le_mul_right _ hF
                rw [Nat.add_mul, one_mul] at hmul
                omega

/-- Full correctness of `uniformCostSearch` on graphs with non-negative
link distances and a reachable goal: with enough fuel the search succeeds
and returns a minimum-cost path together with its cost. -/
theorem uniformCostSearch_optimal (g : GraphData) (start : String)
    (goal : GoalSpec) (hn : ∀ l ∈ g.links, 0 ≤ l.distance)
    (hreach : ∃ z q, isGoalNode z goal = true ∧ ValidWalk g start z q)
    (fuel : ℕ) (hfuel : ucsFuelBound g start ≤ fuel) :
    ∃ o, uniformCostSearch g start goal runTrue fuel = some o ∧
      o.success = true ∧
      ∃ p c, o.path = some p ∧ o.cost = some c ∧
        p.head? = some start ∧
        (∃ z, p.getLast? = some z ∧ isGoalNode z goal = true) ∧
        List.Chain' (adjacent g) p ∧ c = walkCost g p ∧
        ∀ u q, isGoalNode u goal = true → ValidWalk g start u q →
          c ≤ walkCost g q := by
  have hinv : UcsInv g start goal
      { frontier := [⟨start, [start], 0⟩], visited := [], nodesExplored := 0,
        nodesDiscovered := 1, edgesProcessed := 0, k := 0 } [] := by
    refine ⟨rfl, ?_, ?_, ?_, ?_, ?_⟩
    · intro vc hvc
      cases hvc
    · intro vc hvc
      cases hvc
    · intro e he
      rcases List.mem_singleton.mp he with rfl
      exact ⟨rfl, rfl, List.chain'_singleton _, le_refl 0⟩
    · exact Or.inr ⟨⟨start, [start], 0⟩, List.mem_singleton.mpr rfl, rfl,
        le_refl 0⟩
    · intro v hv
      cases hv
  have huniv : ∀ e ∈ (⟨[⟨start, [start], 0⟩], [], 0, 1, 0, 0⟩ :
      UcsState).frontier, e.node ∈ nodeUniverse g start := by
    intro e he
    rcases List.mem_singleton.mp he with rfl
    exact List.mem_cons_self _ _
  have hmeas : ucsMeasure g start
      ⟨[⟨start, [start], 0⟩], [], 0, 1, 0, 0⟩ < fuel := by
    have h1 : ucsMeasure g start
        ⟨[⟨start, [start], 0⟩], [], 0, 1, 0, 0⟩ =
        ((nodeUniverse g start).filter
          (fun y => ! ([] : List String).contains y)).length *
          (g.links.length + 1) + 1 := rfl
    have h2 : (nodeUniverse g start).filter
        (fun y => ! ([] : List String).contains y) = nodeUniverse g start :=
      List.filter_eq_self.mpr (fun a _ => rfl)
    have h3 : ucsFuelBound g start =
        (nodeUniverse g start).length * (g.links.length + 1) + 2 := rfl
    rw [h1, h2]
    omega
  have htot := ucsLoop_total g start goal runTrue fuel _ huniv hmeas
  obtain ⟨o, ho⟩ := Option.isSome_iff_exists.mp htot
  have hsucc := ucsLoop_success_of_reach g start goal hn hreach fuel _ [] o
    hinv ho
  obtain ⟨p, c, hp, hc, hh, hz, hch, hwc, hmin⟩ :=
    ucsLoop_optimal g start goal runTrue hn fuel _ [] o hinv ho hsucc
  obtain ⟨z, hzl, hzg⟩ := hz
  have hcw : c ≤ walkCost g p := hmin z p hzg ⟨hh, hzl, hch⟩
  exact ⟨o, ho, hsucc, p, c, hp, hc, hh, ⟨z, hzl, hzg⟩, hch,
    le_antisymm hcw hwc, hmin⟩

/-- One expansion step of the A* loop, as an equation. -/
theorem astarLoop_step_expand (g : GraphData) (goal : GoalSpec)
    (h : String → ℤ) (running : ℕ → Bool) (fuel : ℕ) (st : AStarState)
    (e : AEntry) (rest : List AEntry)
    (hfr : st.frontier ≠ [])
    (hrun : running st.k = true)
    (hsort : sortByKey (fun e => e.f) st.frontier = e :: rest)
    (hnv : st.visited.contains e.node = false)
    (hng : isGoalNode e.node goal = false) :
    astarLoop g goal h running (fuel + 1) st =
      astarLoop g goal h running fuel
        { frontier := (astarExpand h e.path e.cost rest
            (st.visited ++ [e.node]) st.nodesDiscovered st.edgesProcessed
            (getNeighbors g e.node)).1,
          visited := st.visited ++ [e.node],
          nodesExplored := st.nodesExplored + 1,
          nodesDiscovered := (astarExpand h e.path e.cost rest
            (st.visited ++ [e.node]) st.nodesDiscovered st.edgesProcessed
            (getNeighbors g e.node)).2.1,
          edgesProcessed := (astarExpand h e.path e.cost rest
            (st.visited ++ [e.node]) st.nodesDiscovered st.edgesProcessed
            (getNeighbors g e.node)).2.2,
          k := st.k + 1 } := by
  rw [astarLoop]
  rcases hfrc : st.frontier with _ | ⟨f0, fr0⟩
  · exact absurd hfrc hfr
  · rw [hfrc] at hsort
    simp only [hfrc, hrun, hsort, hnv, hng]
    rfl

/-- The goal-reaching step of the A* loop, as an equation. -/
theorem astarLoop_step_goal (g : GraphData) (goal : GoalSpec)
    (h : String → ℤ) (running : ℕ → Bool) (fuel : ℕ) (st : AStarState)
    (e : AEntry) (rest : List AEntry)
    (hfr : st.frontier ≠ [])
    (hrun : running st.k = true)
    (hsort : sortByKey (fun e => e.f) st.frontier = e :: rest)
    (hnv : st.visited.contains e.node = false)
    (hgl : isGoalNode e.node goal = true) :
    astarLoop g goal h running (fuel + 1) st =
      some { success := true, path := some e.path, cost := some e.cost,
             nodesExplored := st.nodesExplored + 1,
             nodesDiscovered := st.nodesDiscovered,
             edgesProcessed := st.edgesProcessed,
             reachedGoal := reachedGoalFromPath e.path } := by
  rw [astarLoop]
  rcases hfrc : st.frontier with _ | ⟨f0, fr0⟩
  · exact absurd hfrc hfr
  · rw [hfrc] at hsort
    simp only [hfrc, hrun, hsort, hnv, hgl]
    rfl

/-- A* on the fixture graph with any admissible heuristic (at most the
true remaining cost at B, exact at the goal C) returns the cheap detour
`[A, B, C]` at cost 15, exploring three nodes. -/
theorem astar_fixture_admissible (h : String → ℤ) (hB5 : h "B" ≤ 5)
    (hC : h "C" = 0) :
    aStarSearch fixtureG h "A" (GoalSpec.single "C") runTrue 10 =
      some outABC := by
  have hs1 : sortByKey (fun e => e.f)
      [(⟨"B", ["A", "B"], 10, h "B", 10 + h "B"⟩ : AEntry),
       ⟨"C", ["A", "C"], 20, h "C", 20 + h "C"⟩] =
      (⟨"B", ["A", "B"], 10, h "B", 10 + h "B"⟩ : AEntry) ::
       [⟨"C", ["A", "C"], 20, h "C", 20 + h "C"⟩] := by
    show insertByKey (fun e => e.f)
        (⟨"B", ["A", "B"], 10, h "B", 10 + h "B"⟩ : AEntry)
        [⟨"C", ["A", "C"], 20, h "C", 20 + h "C"⟩] = _
    simp only [insertByKey]
    split
    · rfl
    · rename_i hcond
      exfalso
      rw [hC] at hcond
      omega
  have hs2 : sortByKey (fun e => e.f)
      [(⟨"C", ["A", "C"], 20, h "C", 20 + h "C"⟩ : AEntry),
       ⟨"C", ["A", "B", "C"], 15, h "C", 15 + h "C"⟩] =
      (⟨"C", ["A", "B", "C"], 15, h "C", 15 + h "C"⟩ : AEntry) ::
       [⟨"C", ["A", "C"], 20, h "C", 20 + h "C"⟩] := by
    show insertByKey (fun e => e.f)
        (⟨"C", ["A", "C"], 20, h "C", 20 + h "C"⟩ : AEntry)
        [⟨"C", ["A", "B", "C"], 15, h "C", 15 + h "C"⟩] = _
    simp only [insertByKey]
    split
    · rename_i hcond
      exfalso
      omega
    · rfl
  have s1 : aStarSearch fixtureG h "A" (GoalSpec.single "C") runTrue 10 =
      astarLoop fixtureG (GoalSpec.single "C") h runTrue 9
        ⟨[⟨"B", ["A", "B"], 10, h "B", 10 + h "B"⟩,
          ⟨"C", ["A", "C"], 20, h "C", 20 + h "C"⟩], ["A"], 1, 3, 2, 1⟩ :=
    Eq.trans
      (astarLoop_step_expand fixtureG (GoalSpec.single "C") h runTrue 9
        ⟨[⟨"A", ["A"], 0, h "A", h "A"⟩], [], 0, 1, 0, 0⟩
        ⟨"A", ["A"], 0, h "A", h "A"⟩ []
        (List.cons_ne_nil _ _) rfl rfl rfl rfl)
      rfl
  have s2 : astarLoop fixtureG (GoalSpec.single "C") h runTrue 9
        ⟨[⟨"B", ["A", "B"], 10, h "B", 10 + h "B"⟩,
          ⟨"C", ["A", "C"], 20, h "C", 20 + h "C"⟩], ["A"], 1, 3, 2, 1⟩ =
      astarLoop fixtureG (GoalSpec.single "C") h runTrue 8
        ⟨[⟨"C", ["A", "C"], 20, h "C", 20 + h "C"⟩,
          ⟨"C", ["A", "B", "C"], 15, h "C", 15 + h "C"⟩],
          ["A", "B"], 2, 4, 4, 2⟩ :=
    Eq.trans
      (astarLoop_step_expand fixtureG (GoalSpec.single "C") h runTrue 8
        ⟨[⟨"B", ["A", "B"], 10, h "B", 10 + h "B"⟩,
          ⟨"C", ["A", "C"], 20, h "C", 20 + h "C"⟩], ["A"], 1, 3, 2, 1⟩
        ⟨"B", ["A", "B"], 10, h "B", 10 + h "B"⟩
        [⟨"C", ["A", "C"], 20, h "C", 20 + h "C"⟩]
        (List.cons_ne_nil _ _) rfl hs1 rfl rfl)
      rfl
  have s3 : astarLoop fixtureG (GoalSpec.single "C") h runTrue 8
        ⟨[⟨"C", ["A", "C"], 20, h "C", 20 + h "C"⟩,
          ⟨"C", ["A", "B", "C"], 15, h "C", 15 + h "C"⟩],
          ["A", "B"], 2, 4, 4, 2⟩ = some outABC :=
    Eq.trans
      (astarLoop_step_goal fixtureG (GoalSpec.single "C") h runTrue 7
        ⟨[⟨"C", ["A", "C"], 20, h "C", 20 + h "C"⟩,
          ⟨"C", ["A", "B", "C"], 15, h "C", 15 + h "C"⟩],
          ["A", "B"], 2, 4, 4, 2⟩
        ⟨"C", ["A", "B", "C"], 15, h "C", 15 + h "C"⟩
        [⟨"C", ["A", "C"], 20, h "C", 20 + h "C"⟩]
        (List.cons_ne_nil _ _) rfl hs2 rfl rfl)
      rfl
  rw [s1, s2, s3]

/-- **C1 (amended).**  `uniformCostSearch` is universally optimal: on any
graph with non-negative link distances and a reachable goal, given enough
fuel it succeeds with a start-rooted, link-following path to a goal node
whose reported cost equals the path's walk cost and is a lower bound on
the cost of every start-to-goal walk.  On the fixture graph A–B 10,
B–C 5, A–C 20 it returns `[A, B, C]` at cost 15, and so does `aStarSearch`
for every admissible heuristic (`h(B) ≤ 5`, `h(C) = 0`), with the same
`nodesExplored` count 3 as UCS.  `aStarSearch` with an arbitrary (in
particular inadmissible) heuristic is not optimal — see the
counterexample. -/
theorem claim_C1 :
    (∀ (g : GraphData) (start : String) (goal : GoalSpec) (fuel : ℕ),
      (∀ l ∈ g.links, 0 ≤ l.distance) →
      (∃ z q, isGoalNode z goal = true ∧ ValidWalk g start z q) →
      ucsFuelBound g start ≤ fuel →
      ∃ o, uniformCostSearch g start goal runTrue fuel = some o ∧
        o.success = true ∧
        ∃ p c, o.path = some p ∧ o.cost = some c ∧
          p.head? = some start ∧
          (∃ z, p.getLast? = some z ∧ isGoalNode z goal = true) ∧
          List.Chain' (adjacent g) p ∧ c = walkCost g p ∧
          ∀ u q, isGoalNode u goal = true → ValidWalk g start u q →
            c ≤ walkCost g q) ∧
    uniformCostSearch fixtureG "A" (GoalSpec.single "C") runTrue 10 =
      some outABC ∧
    (∀ h : String → ℤ, h "B" ≤ 5 → h "C" = 0 →
      aStarSearch fixtureG h "A" (GoalSpec.single "C") runTrue 10 =
        some outABC) :=
  ⟨fun g start goal fuel hn hr hf =>
      uniformCostSearch_optimal g start goal hn hr fuel hf,
    by decide,
    astar_fixture_admissible⟩

/-- Witness for C1: the UCS clause at the line graph A–B–C (non-negative
distances, C reachable from A) with fuel 17, and the A* clause at the zero
heuristic. -/
theorem claim_C1_witness :
    ((∀ l ∈ lineG.links, 0 ≤ l.distance) ∧
      (∃ z q, isGoalNode z (GoalSpec.single "C") = true ∧
        ValidWalk lineG "A" z q) ∧
      ucsFuelBound lineG "A" ≤ 17 ∧
      ∃ o, uniformCostSearch lineG "A" (GoalSpec.single "C") runTrue 17 =
          some o ∧ o.success = true ∧
        ∃ p c, o.path = some p ∧ o.cost = some c ∧
          p.head? = some "A" ∧
          (∃ z, p.getLast? = some z ∧
            isGoalNode z (GoalSpec.single "C") = true) ∧
          List.Chain' (adjacent lineG) p ∧ c = walkCost lineG p ∧
          ∀ u q, isGoalNode u (GoalSpec.single "C") = true →
            ValidWalk lineG "A" u q → c ≤ walkCost lineG q) ∧
    (hZero "B" ≤ 5 ∧ hZero "C" = 0 ∧
      aStarSearch fixtureG hZero "A" (GoalSpec.single "C") runTrue 10 =
        some outABC) := by
  have hn : ∀ l ∈ lineG.links, 0 ≤ l.distance := by decide
  have hreach : ∃ z q, isGoalNode z (GoalSpec.single "C") = true ∧
      ValidWalk lineG "A" z q := by
    refine ⟨"C", ["A", "B", "C"], by decide, rfl, rfl, ?_⟩
    rw [List.chain'_cons, List.chain'_pair]
    exact ⟨⟨⟨"A", "B", 10⟩, by decide, Or.inl ⟨rfl, rfl⟩⟩,
      ⟨⟨"B", "C", 5⟩, by decide, Or.inl ⟨rfl, rfl⟩⟩⟩
  have hfb : ucsFuelBound lineG "A" ≤ 17 := by decide
  exact ⟨⟨hn, hreach, hfb,
      claim_C1.1 lineG "A" (GoalSpec.single "C") 17 hn hreach hfb⟩,
    by decide, rfl, claim_C1.2.2 hZero (by decide) rfl⟩

/-! ### C7: the counter-free skeleton of depth-limited search -/

theorem dlsNbrs_rel
    (prev : String → List String → DlsSt → DlsRes × DlsSt)
    (prevPure : String → List String → Option (List String))
    (hrel : ∀ n p st, RelRes (prev n p st) (prevPure n p))
    (path : List String) :
    ∀ (nbrs : List Neighbor) (st : DlsSt),
      RelRes (dlsNbrs prev path nbrs st) (dlsNbrsPure prevPure path nbrs) := by
  intro nbrs
  induction nbrs with
  | nil => intro st; trivial
  | cons nb rest ih =>
    intro st
    cases hc : path.contains nb.id
    · simp only [dlsNbrs, dlsNbrsPure, hc]
      have h1 := hrel nb.id (path ++ [nb.id]) { st with ep := st.ep + 1 }
      rcases hp : prev nb.id (path ++ [nb.id]) { st with ep := st.ep + 1 }
        with ⟨res, st2⟩
      rw [hp] at h1
      rcases res with o | r
      · rcases hq : prevPure nb.id (path ++ [nb.id]) with _ | p
        · rw [hq] at h1
          exact False.elim h1
        · rw [hq] at h1
          exact h1
      · rcases hq : prevPure nb.id (path ++ [nb.id]) with _ | p
        · rw [hq] at h1
          exact ih _
        · rw [hq] at h1
          exact False.elim h1
    · simp only [dlsNbrs, dlsNbrsPure, hc]
      exact ih _

theorem dlsGo_pure (g : GraphData) (goal : GoalSpec) :
    ∀ (fuel : ℕ) (node : String) (path : List String) (st : DlsSt),
      RelRes (dlsGo g goal runTrue fuel node path st)
        (dlsPure g goal fuel node path) := by
  intro fuel
  induction fuel with
  | zero =>
    intro node path st
    cases hg : isGoalNode node goal
    · rw [dlsGo_zero_cut g goal runTrue node path st rfl hg]
      rw [dlsPure]
      simp only [hg]
      trivial
    · rw [dlsGo_goal g goal runTrue 0 node path st rfl hg]
      rw [dlsPure]
      simp only [hg]
      exact ⟨rfl, rfl⟩
  | succ f ih =>
    intro node path st
    cases hg : isGoalNode node goal
    · rw [dlsGo_succ_expand g goal runTrue f node path st rfl hg]
      rw [dlsPure]
      simp only [hg]
      exact dlsNbrs_rel _ _ (fun n p st2 => ih n p st2) path
        (getNeighbors g node) _
    · rw [dlsGo_goal g goal runTrue (f + 1) node path st rfl hg]
      rw [dlsPure]
      simp only [hg]
      exact ⟨rfl, rfl⟩

/-- The root-level wrapper preserves the skeleton's verdict. -/
theorem dlsFrom_pure (g : GraphData) (start : String) (goal : GoalSpec)
    (d : ℤ) (k : ℕ) :
    (dlsPure g goal d.toNat start [start] = none →
      (depthLimitedSearchFrom g start goal d runTrue k).1.success = false) ∧
    (∀ p, dlsPure g goal d.toNat start [start] = some p →
      (depthLimitedSearchFrom g start goal d runTrue k).1.success = true ∧
      (depthLimitedSearchFrom g start goal d runTrue k).1.path = some p) := by
  have h := dlsGo_pure g goal d.toNat start [start] ⟨0, 1, 0, k⟩
  unfold depthLimitedSearchFrom
  rcases hr : dlsGo g goal runTrue d.toNat start [start] ⟨0, 1, 0, k⟩
    with ⟨res, st2⟩
  rw [hr] at h
  rcases res with o | r
  · constructor
    · intro hnone
      rw [hnone] at h
      exact False.elim h
    · intro p hp
      rw [hp] at h
      exact ⟨h.2, h.1⟩
  · constructor
    · intro _
      rfl
    · intro p hp
      rw [hp] at h
      exact False.elim h

/-- The IDDFS driver fails when every remaining depth fails. -/
theorem iddfsGo_pure_none (g : GraphData) (start : String) (goal : GoalSpec) :
    ∀ (ds : List ℤ) (tne tnd tep k : ℕ),
      (∀ d ∈ ds, dlsPure g goal d.toNat start [start] = none) →
      (iddfsGo g start goal runTrue ds tne tnd tep k).success = false := by
  intro ds
  induction ds with
  | nil => intro tne tnd tep k _; rfl
  | cons d rest ih =>
    intro tne tnd tep k hall
    rw [iddfsGo]
    rcases hr : depthLimitedSearchFrom g start goal d runTrue (k + 1)
      with ⟨r, k2⟩
    have hfail : r.success = false := by
      have := (dlsFrom_pure g start goal d (k + 1)).1
        (hall d (List.mem_cons_self _ _))
      rw [hr] at this
      exact this
    simp only [runTrue, hr, hfail]
    exact ih _ _ _ _ (fun d2 hd2 => hall d2 (List.mem_cons_of_mem _ hd2))

/-- The IDDFS driver returns the first depth's successful path. -/
theorem iddfsGo_pure_some (g : GraphData) (start : String) (goal : GoalSpec) :
    ∀ (ds : List ℤ) (tne tnd tep k : ℕ) (p : List String),
      iddfsFirst g goal start ds = some p →
      (iddfsGo g start goal runTrue ds tne tnd tep k).success = true ∧
      (iddfsGo g start goal runTrue ds tne tnd tep k).path = some p := by
  intro ds
  induction ds with
  | nil => intro tne tnd tep k p h; cases h
  | cons d rest ih =>
    intro tne tnd tep k p hfirst
    rw [iddfsGo]
    rw [iddfsFirst] at hfirst
    rcases hr : depthLimitedSearchFrom g start goal d runTrue (k + 1)
      with ⟨r, k2⟩
    rcases hd : dlsPure g goal d.toNat start [start] with _ | q
    · rw [hd] at hfirst
      have hfail : r.success = false := by
        have := (dlsFrom_pure g start goal d (k + 1)).1 hd
        rw [hr] at this
        exact this
      simp only [runTrue, hr, hfail]
      exact ih _ _ _ _ p hfirst
    · rw [hd] at hfirst
      cases Option.some.inj hfirst
      have hsucc := (dlsFrom_pure g start goal d (k + 1)).2 p hd
      rw [hr] at hsucc
      have hs1 : r.success = true := hsucc.1
      have hs2 : r.path = some p := hsucc.2
      simp only [runTrue, hr, hs1]
      exact ⟨rfl, hs2⟩

/-! ### C7: hop-count reachability -/

theorem Reach_mono {g : GraphData} {start : String} {m n : ℕ} {x : String}
    (hmn : m ≤ n) (h : Reach g start m x) : Reach g start n x := by
  obtain ⟨q, hw, hl⟩ := h
  exact ⟨q, hw, le_trans hl (by omega)⟩

theorem Reach_self (g : GraphData) (start : String) (n : ℕ) :
    Reach g start n start :=
  ⟨[start], ⟨rfl, rfl, List.chain'_singleton _⟩, by simp⟩

/-- Concatenating a walk `a → b` with a walk `b → c` (sharing the node
`b`). -/
theorem walk_trans {g : GraphData} {a b c : String} {q w2 : List String}
    (h1 : ValidWalk g a b q) (h2 : ValidWalk g b c (b :: w2)) :
    ValidWalk g a c (q ++ w2) := by
  obtain ⟨hh1, hl1, hc1⟩ := h1
  obtain ⟨hh2, hl2, hc2⟩ := h2
  have hqne : q ≠ [] := by
    intro h
    rw [h] at hh1
    cases hh1
  refine ⟨?_, ?_, ?_⟩
  · rw [List.head?_append_of_ne_nil _ hqne]
    exact hh1
  · cases w2 with
    | nil =>
      rw [List.append_nil]
      rw [List.getLast?_singleton] at hl2
      rw [hl1, ← hl2]
    | cons w ws =>
      rw [List.getLast?_append_of_ne_nil _ (List.cons_ne_nil w ws)]
      rw [List.getLast?_cons_cons] at hl2
      exact hl2
  · rw [List.chain'_append]
    refine ⟨hc1, ?_, ?_⟩
    · exact hc2.tail
    · intro x hx y hy
      rw [hl1] at hx
      cases hx
      cases w2 with
      | nil => cases hy
      | cons w ws =>
        simp only [List.head?_cons, Option.mem_def, Option.some.injEq] at hy
        rw [← hy]
        exact (List.chain'_cons.mp hc2).1

/-- A node within `m` hops extended by a walk of `n` more hops is within
`m + n` hops. -/
theorem Reach_extend {g : GraphData} {start y z : String} {m : ℕ}
    {q : List String} (h1 : Reach g start m y)
    (h2 : ValidWalk g y z (y :: q)) : Reach g start (m + q.length) z := by
  obtain ⟨qy, hw, hl⟩ := h1
  refine ⟨qy ++ q, walk_trans hw h2, ?_⟩
  rw [List.length_append]
  omega

/-- Every decomposition point of a walk is reachable within its prefix
length. -/
theorem walk_prefix {g : GraphData} {start z x : String}
    {q q1 q2 : List String} (hw : ValidWalk g start z q)
    (heq : q = q1 ++ x :: q2) : Reach g start q1.length x := by
  obtain ⟨hh, hl, hc⟩ := hw
  refine ⟨q1 ++ [x], ⟨?_, List.getLast?_concat q1, ?_⟩, ?_⟩
  · cases q1 with
    | nil =>
      rw [heq] at hh
      exact hh
    | cons a q1t =>
      rw [heq, List.head?_append_of_ne_nil _ (List.cons_ne_nil a q1t)] at hh
      rw [List.head?_append_of_ne_nil _ (List.cons_ne_nil a q1t)]
      exact hh
  · have hc2 : List.Chain' (adjacent g) ((q1 ++ [x]) ++ q2) := by
      rw [List.append_assoc]
      rw [heq] at hc
      exact hc
    exact (List.chain'_append.mp hc2).1
  · rw [List.length_append]
    simp

/-- The suffix of a walk from any of its decomposition points is a walk to
the same endpoint. -/
theorem walk_suffix {g : GraphData} {start z x : String}
    {q q1 q2 : List String} (hw : ValidWalk g start z q)
    (heq : q = q1 ++ x :: q2) : ValidWalk g x z (x :: q2) := by
  obtain ⟨hh, hl, hc⟩ := hw
  refine ⟨rfl, ?_, ?_⟩
  · rw [heq] at hl
    cases q2 with
    | nil =>
      rw [List.getLast?_concat] at hl
      rw [List.getLast?_singleton, hl]
    | cons b q2t =>
      rw [List.getLast?_append_of_ne_nil _ (List.cons_ne_nil x (b :: q2t))] at hl
      exact hl
  · rw [heq] at hc
    exact (List.chain'_append.mp hc).2.1

/-! ### C7: basic scan and expansion lemmas -/

theorem fdls_append (g : GraphData) (goal : GoalSpec) (f : ℕ) :
    ∀ (A B : List QEntry),
      fdls g goal f (A ++ B) =
        match fdls g goal f A with
        | some r => some r
        | none => fdls g goal f B := by
  intro A
  induction A with
  | nil => intro B; rfl
  | cons e A ih =>
    intro B
    show fdls g goal f (e :: (A ++ B)) = _
    rw [fdls]
    rcases hd : dlsPure g goal f e.node e.path with _ | r
    · rw [ih B]
      conv_rhs => rw [fdls]
      rw [hd]
    · conv_rhs => rw [fdls]
      rw [hd]

theorem fdls_isSome_of_mem (g : GraphData) (goal : GoalSpec) (f : ℕ) :
    ∀ (A : List QEntry) (e : QEntry), e ∈ A →
      (dlsPure g goal f e.node e.path).isSome = true →
      (fdls g goal f A).isSome = true := by
  intro A
  induction A with
  | nil => intro e he; cases he
  | cons a A ih =>
    intro e he hs
    rw [fdls]
    rcases hd : dlsPure g goal f a.node a.path with _ | r
    · rcases List.mem_cons.mp he with rfl | he
      · rw [hd] at hs
        cases hs
      · exact ih e he hs
    · rfl

theorem fdls_cancel (g : GraphData) (goal : GoalSpec) (f : ℕ)
    (A B : List QEntry) (e : QEntry)
    (hfail : dlsPure g goal f e.node e.path = none) :
    fdls g goal f (A ++ e :: B) = fdls g goal f (A ++ B) := by
  rw [fdls_append, fdls_append]
  rcases hA : fdls g goal f A with _ | r
  · rw [fdls, hfail]
  · rfl

theorem fdls_frozen (g : GraphData) (goal : GoalSpec) (f : ℕ)
    (A B C : List QEntry) (r : List String)
    (hA : fdls g goal f A = some r) :
    fdls g goal f (A ++ B) = fdls g goal f (A ++ C) := by
  rw [fdls_append, fdls_append, hA]

theorem bfsExpand_queue_factor (path : List String) :
    ∀ (nbrs : List Neighbor) (X Y : List QEntry) (vis : List String)
      (nd ep : ℕ),
      (bfsExpand path (X ++ Y) vis nd ep nbrs).queue =
        X ++ (bfsExpand path Y vis nd ep nbrs).queue ∧
      (bfsExpand path (X ++ Y) vis nd ep nbrs).visited =
        (bfsExpand path Y vis nd ep nbrs).visited := by
  intro nbrs
  induction nbrs with
  | nil => intro X Y vis nd ep; exact ⟨rfl, rfl⟩
  | cons nb rest ih =>
    intro X Y vis nd ep
    simp only [bfsExpand]
    cases hc : vis.contains nb.id
    · have h := ih X (Y ++ [⟨nb.id, path ++ [nb.id]⟩]) (vis ++ [nb.id])
        (nd + 1) (ep + 1)
      rw [← List.append_assoc] at h
      exact h
    · exact ih X Y vis nd (ep + 1)

theorem bfsExpand_counters_indep (path : List String) :
    ∀ (nbrs : List Neighbor) (acc : List QEntry) (vis : List String)
      (nd ep nd2 ep2 : ℕ),
      (bfsExpand path acc vis nd ep nbrs).queue =
        (bfsExpand path acc vis nd2 ep2 nbrs).queue ∧
      (bfsExpand path acc vis nd ep nbrs).visited =
        (bfsExpand path acc vis nd2 ep2 nbrs).visited := by
  intro nbrs
  induction nbrs with
  | nil => intro acc vis nd ep nd2 ep2; exact ⟨rfl, rfl⟩
  | cons nb rest ih =>
    intro acc vis nd ep nd2 ep2
    simp only [bfsExpand]
    cases hc : vis.contains nb.id
    · exact ih _ _ (nd + 1) (ep + 1) (nd2 + 1) (ep2 + 1)
    · exact ih acc vis nd (ep + 1) nd2 (ep2 + 1)

theorem bfsExpand_vis_mono (path : List String) :
    ∀ (nbrs : List Neighbor) (acc : List QEntry) (vis : List String)
      (nd ep : ℕ) (x : String), x ∈ vis →
      x ∈ (bfsExpand path acc vis nd ep nbrs).visited := by
  intro nbrs
  induction nbrs with
  | nil => intro acc vis nd ep x hx; exact hx
  | cons nb rest ih =>
    intro acc vis nd ep x hx
    simp only [bfsExpand]
    cases hc : vis.contains nb.id
    · exact ih _ _ (nd + 1) (ep + 1) x (List.mem_append_left _ hx)
    · exact ih acc vis nd (ep + 1) x hx

theorem bfsExpand_covers (path : List String) :
    ∀ (nbrs : List Neighbor) (acc : List QEntry) (vis : List String)
      (nd ep : ℕ) (nb : Neighbor), nb ∈ nbrs →
      nb.id ∈ (bfsExpand path acc vis nd ep nbrs).visited := by
  intro nbrs
  induction nbrs with
  | nil => intro acc vis nd ep nb h; cases h
  | cons nb0 rest ih =>
    intro acc vis nd ep nb hmem
    simp only [bfsExpand]
    cases hc : vis.contains nb0.id
    · rcases List.mem_cons.mp hmem with rfl | hmem
      · exact bfsExpand_vis_mono path rest _ _ (nd + 1) (ep + 1) _
          (List.mem_append_right _ (List.mem_singleton.mpr rfl))
      · exact ih _ _ (nd + 1) (ep + 1) nb hmem
    · rcases List.mem_cons.mp hmem with rfl | hmem
      · exact bfsExpand_vis_mono path rest acc vis nd (ep + 1) _
          (List.mem_of_elem_eq_true hc)
      · exact ih acc vis nd (ep + 1) nb hmem

theorem lvlStep_vis_mono (g : GraphData) :
    ∀ (Qs : List QEntry) (A : List QEntry) (Vs : List String) (x : String),
      x ∈ Vs → x ∈ (lvlStep g Qs A Vs).2 := by
  intro Qs
  induction Qs with
  | nil => intro A Vs x hx; exact hx
  | cons e Qs ih =>
    intro A Vs x hx
    simp only [lvlStep]
    exact ih _ _ x (bfsExpand_vis_mono e.path _ A Vs 0 0 x hx)

theorem lvlStep_covers (g : GraphData) :
    ∀ (Qs : List QEntry) (A : List QEntry) (Vs : List String) (e : QEntry)
      (nb : Neighbor), e ∈ Qs → nb ∈ getNeighbors g e.node →
      nb.id ∈ (lvlStep g Qs A Vs).2 := by
  intro Qs
  induction Qs with
  | nil => intro A Vs e nb h; cases h
  | cons e0 Qs ih =>
    intro A Vs e nb hmem hnb
    simp only [lvlStep]
    rcases List.mem_cons.mp hmem with rfl | hmem
    · exact lvlStep_vis_mono g Qs _ _ _
        (bfsExpand_covers e.path _ A Vs 0 0 nb hnb)
    · exact ih _ _ e nb hmem hnb

/-- Every node of a simple rooted path of length `n + 1` lies within `n`
hops of the root. -/
theorem path_nodes_reach {g : GraphData} {start node : String}
    {p : List String} {n : ℕ} (hp : PathOk g start node p)
    (hlen : p.length = n + 1) : ∀ x ∈ p, Reach g start n x := by
  intro x hx
  obtain ⟨q1, q2, heq⟩ := List.append_of_mem hx
  have hw : ValidWalk g start node p := ⟨hp.1, hp.2.1, hp.2.2.1⟩
  have hr := walk_prefix hw heq
  refine Reach_mono ?_ hr
  have hlen2 : p.length = q1.length + (q2.length + 1) := by
    rw [heq, List.length_append, List.length_cons]
  omega

/-! ### C7: soundness and completeness of the skeleton -/

theorem dlsNbrsPure_sound
    (prev : String → List String → Option (List String))
    (path : List String) :
    ∀ (nbrs : List Neighbor) (r : List String),
      dlsNbrsPure prev path nbrs = some r →
      ∃ nb ∈ nbrs, path.contains nb.id = false ∧
        prev nb.id (path ++ [nb.id]) = some r := by
  intro nbrs
  induction nbrs with
  | nil => intro r h; cases h
  | cons nb rest ih =>
    intro r h
    cases hc : path.contains nb.id
    · simp only [dlsNbrsPure, hc] at h
      rcases hp : prev nb.id (path ++ [nb.id]) with _ | q
      · rw [hp] at h
        obtain ⟨nb2, hmem, hc2, hp2⟩ := ih r h
        exact ⟨nb2, List.mem_cons_of_mem _ hmem, hc2, hp2⟩
      · rw [hp] at h
        cases Option.some.inj h
        exact ⟨nb, List.mem_cons_self _ _, hc, hp⟩
    · simp only [dlsNbrsPure, hc] at h
      obtain ⟨nb2, hmem, hc2, hp2⟩ := ih r h
      exact ⟨nb2, List.mem_cons_of_mem _ hmem, hc2, hp2⟩

theorem dlsPure_sound (g : GraphData) (goal : GoalSpec) :
    ∀ (fuel : ℕ) (node : String) (path : List String) (r : List String),
      dlsPure g goal fuel node path = some r →
      ∃ q, r = path ++ q ∧ q.length ≤ fuel ∧ (∀ x ∈ q, x ∉ path) ∧
        q.Nodup ∧ List.Chain' (adjacent g) (node :: q) ∧
        ∃ z, (node :: q).getLast? = some z ∧ isGoalNode z goal = true := by
  intro fuel
  induction fuel with
  | zero =>
    intro node path r h
    rw [dlsPure] at h
    cases hg : isGoalNode node goal
    · simp only [hg] at h
      exact Option.noConfusion h
    · simp only [hg] at h
      cases Option.some.inj h
      exact ⟨[], by simp, by simp, by simp, List.nodup_nil,
        List.chain'_singleton _, node, rfl, hg⟩
  | succ f ih =>
    intro node path r h
    rw [dlsPure] at h
    cases hg : isGoalNode node goal
    · simp only [hg] at h
      obtain ⟨nb, hmem, hcont, hprev⟩ := dlsNbrsPure_sound _ path _ r h
      obtain ⟨q2, hr, hlen, havoid, hnodup, hchain, z, hz, hzg⟩ :=
        ih nb.id (path ++ [nb.id]) r hprev
      refine ⟨nb.id :: q2, ?_, ?_, ?_, ?_, ?_, z, ?_, hzg⟩
      · rw [hr, List.append_assoc]
        rfl
      · simp only [List.length_cons]
        omega
      · intro x hx
        rcases List.mem_cons.mp hx with rfl | hx
        · intro hmem2
          have hcc : path.contains nb.id = true :=
            List.elem_eq_true_of_mem hmem2
          rw [hcont] at hcc
          cases hcc
        · intro hmem2
          exact havoid x hx (List.mem_append_left _ hmem2)
      · rw [List.nodup_cons]
        refine ⟨?_, hnodup⟩
        intro hx
        exact havoid nb.id hx
          (List.mem_append_right _ (List.mem_singleton.mpr rfl))
      · rw [List.chain'_cons]
        exact ⟨adjacent_of_mem_getNeighbors hmem, hchain⟩
      · rw [List.getLast?_cons_cons]
        exact hz
    · simp only [hg] at h
      cases Option.some.inj h
      exact ⟨[], by simp, by simp, by simp, List.nodup_nil,
        List.chain'_singleton _, node, rfl, hg⟩

theorem dlsNbrsPure_isSome
    (prev : String → List String → Option (List String))
    (path : List String) :
    ∀ (nbrs : List Neighbor) (nb : Neighbor), nb ∈ nbrs →
      path.contains nb.id = false →
      (prev nb.id (path ++ [nb.id])).isSome = true →
      (dlsNbrsPure prev path nbrs).isSome = true := by
  intro nbrs
  induction nbrs with
  | nil => intro nb h; cases h
  | cons nb0 rest ih =>
    intro nb hmem hcont hsome
    cases hc : path.contains nb0.id
    · simp only [dlsNbrsPure, hc]
      rcases hp : prev nb0.id (path ++ [nb0.id]) with _ | q
      · rcases List.mem_cons.mp hmem with rfl | hmem
        · rw [hp] at hsome
          cases hsome
        · exact ih nb hmem hcont hsome
      · rfl
    · simp only [dlsNbrsPure, hc]
      rcases List.mem_cons.mp hmem with rfl | hmem
      · rw [hcont] at hc
        cases hc
      · exact ih nb hmem hcont hsome

theorem dlsPure_complete (g : GraphData) (goal : GoalSpec) :
    ∀ (q : List String) (fuel : ℕ) (node : String) (path : List String),
      q.length ≤ fuel →
      List.Chain' (adjacent g) (node :: q) →
      q.Nodup →
      (∀ x ∈ q, x ∉ path) →
      node ∈ path →
      (∃ z, (node :: q).getLast? = some z ∧ isGoalNode z goal = true) →
      (dlsPure g goal fuel node path).isSome = true := by
  intro q
  induction q with
  | nil =>
    intro fuel node path _ _ _ _ _ hgoal
    obtain ⟨z, hz, hzg⟩ := hgoal
    rw [List.getLast?_singleton] at hz
    cases Option.some.inj hz
    rw [dlsPure.eq_def]
    simp only [hzg]
    rfl
  | cons w q2 ih =>
    intro fuel node path hlen hchain hnodup havoid hin hgoal
    cases hg : isGoalNode node goal
    · cases fuel with
      | zero =>
        simp only [List.length_cons] at hlen
        omega
      | succ f =>
        rw [dlsPure]
        simp only [hg]
        have hadj : adjacent g node w := (List.chain'_cons.mp hchain).1
        have hwne : w ≠ node := by
          intro heq
          exact havoid w (List.mem_cons_self _ _) (heq ▸ hin)
        obtain ⟨l, hl, hor⟩ := hadj
        have hnb : (⟨w, l.distance⟩ : Neighbor) ∈ getNeighbors g node :=
          getNeighbors_complete hl hor hwne
        refine dlsNbrsPure_isSome _ path (getNeighbors g node)
          ⟨w, l.distance⟩ hnb ?_ ?_
        · exact contains_false_of_not_mem
            (fun hmem => havoid w (List.mem_cons_self _ _) hmem)
        · refine ih f w (path ++ [w]) ?_ ?_ ?_ ?_ ?_ ?_
          · simp only [List.length_cons] at hlen
            omega
          · exact (List.chain'_cons.mp hchain).2
          · exact (List.nodup_cons.mp hnodup).2
          · intro x hx hmem
            rcases List.mem_append.mp hmem with hmem | hmem
            · exact havoid x (List.mem_cons_of_mem _ hx) hmem
            · rcases List.mem_singleton.mp hmem with rfl
              exact (List.nodup_cons.mp hnodup).1 hx
          · exact List.mem_append_right _ (List.mem_singleton.mpr rfl)
          · obtain ⟨z, hz, hzg⟩ := hgoal
            rw [List.getLast?_cons_cons] at hz
            exact ⟨z, hz, hzg⟩
    · rw [dlsPure.eq_def]
      simp only [hg]
      rfl

/-! ### C7: one-level unfolding of the skeleton scan -/

theorem pushList_cons_keep (path : List String) (nb : Neighbor)
    (rest : List Neighbor) (hc : path.contains nb.id = false) :
    pushList path (nb :: rest) =
      ⟨nb.id, path ++ [nb.id]⟩ :: pushList path rest := by
  simp only [pushList, List.filterMap_cons, hc]
  rfl

theorem pushList_cons_skip (path : List String) (nb : Neighbor)
    (rest : List Neighbor) (hc : path.contains nb.id = true) :
    pushList path (nb :: rest) = pushList path rest := by
  simp only [pushList, List.filterMap_cons, hc]
  rfl

theorem dlsNbrsPure_eq_fdls (g : GraphData) (goal : GoalSpec) (f : ℕ)
    (path : List String) :
    ∀ nbrs, dlsNbrsPure (fun n p => dlsPure g goal f n p) path nbrs =
      fdls g goal f (pushList path nbrs) := by
  intro nbrs
  induction nbrs with
  | nil => rfl
  | cons nb rest ih =>
    cases hc : path.contains nb.id
    · rw [pushList_cons_keep path nb rest hc, fdls]
      simp only [dlsNbrsPure, hc]
      rcases hd : dlsPure g goal f nb.id (path ++ [nb.id]) with _ | r
      · exact ih
      · rfl
    · rw [pushList_cons_skip path nb rest hc]
      simp only [dlsNbrsPure, hc]
      exact ih

theorem dlsPure_succ_eq_fdls (g : GraphData) (goal : GoalSpec) (f : ℕ)
    (node : String) (path : List String)
    (hg : isGoalNode node goal = false) :
    dlsPure g goal (f + 1) node path =
      fdls g goal f (pushList path (getNeighbors g node)) := by
  rw [dlsPure]
  simp only [hg]
  exact dlsNbrsPure_eq_fdls g goal f path (getNeighbors g node)

theorem fdls_eq_qfull (g : GraphData) (goal : GoalSpec) (f : ℕ) :
    ∀ Q : List QEntry, (∀ e ∈ Q, isGoalNode e.node goal = false) →
      fdls g goal (f + 1) Q = fdls g goal f (qfull g Q) := by
  intro Q
  induction Q with
  | nil => intro _; rfl
  | cons e Q ih =>
    intro hng
    rw [fdls, qfull, fdls_append]
    rw [dlsPure_succ_eq_fdls g goal f e.node e.path
      (hng e (List.mem_cons_self _ _))]
    rcases hd : fdls g goal f (pushList e.path (getNeighbors g e.node))
      with _ | r
    · rw [ih (fun e2 he2 => hng e2 (List.mem_cons_of_mem _ he2))]
    · rfl

theorem bfsExpand_cons_push (p : List String) (acc : List QEntry)
    (vis : List String) (nd ep : ℕ) (nb : Neighbor) (rest : List Neighbor)
    (hc : vis.contains nb.id = false) :
    bfsExpand p acc vis nd ep (nb :: rest) =
      bfsExpand p (acc ++ [⟨nb.id, p ++ [nb.id]⟩]) (vis ++ [nb.id])
        (nd + 1) (ep + 1) rest := by
  simp only [bfsExpand, hc]
  rfl

theorem bfsExpand_cons_skip (p : List String) (acc : List QEntry)
    (vis : List String) (nd ep : ℕ) (nb : Neighbor) (rest : List Neighbor)
    (hc : vis.contains nb.id = true) :
    bfsExpand p acc vis nd ep (nb :: rest) =
      bfsExpand p acc vis nd (ep + 1) rest := by
  simp only [bfsExpand, hc]
  rfl

/-- The heart of C7: scanning all depth-limited children of one frontier
entry is equivalent to scanning only the not-yet-visited ones that the
breadth-first expansion enqueues, because under the minimality hypothesis
a child under an already-visited node can only succeed if the earlier
queue entry that first discovered that node succeeds too. -/
theorem level_pass_inner (g : GraphData) (start : String) (goal : GoalSpec)
    (k L : ℕ)
    (hmin : ∀ z, isGoalNode z goal = true → ¬ Reach g start (k + L) z)
    (node : String) (p : List String)
    (hwf : PathOk g start node p) (hplen : p.length = k + 1) :
    ∀ (nbrs : List Neighbor), (∀ nb ∈ nbrs, nb ∈ getNeighbors g node) →
    ∀ (A : List QEntry) (Vs : List String) (T : List QEntry),
      PassInv g start k A Vs →
      (∀ x ∈ p, x ∈ Vs) →
      fdls g goal L (A ++ (pushList p nbrs ++ T)) =
        fdls g goal L ((bfsExpand p A Vs 0 0 nbrs).queue ++ T) ∧
      PassInv g start k (bfsExpand p A Vs 0 0 nbrs).queue
        (bfsExpand p A Vs 0 0 nbrs).visited := by
  intro nbrs
  induction nbrs with
  | nil =>
    intro _ A Vs T hPI hp
    exact ⟨rfl, hPI⟩
  | cons nb rest ih =>
    intro hnbs A Vs T hPI hp
    cases hvc : Vs.contains nb.id
    · -- fresh neighbour: both keep it
      have hpc : p.contains nb.id = false := by
        cases hpc2 : p.contains nb.id
        · rfl
        · have hmem : nb.id ∈ Vs := hp _ (List.mem_of_elem_eq_true hpc2)
          have hcc : Vs.contains nb.id = true := List.elem_eq_true_of_mem hmem
          rw [hvc] at hcc
          cases hcc
      have hadj : adjacent g node nb.id :=
        adjacent_of_mem_getNeighbors (hnbs nb (List.mem_cons_self _ _))
      have hfresh : nb.id ∉ p := fun hmem => by
        have hcc : p.contains nb.id = true := List.elem_eq_true_of_mem hmem
        rw [hpc] at hcc
        cases hcc
      have hEwf : PathOk g start nb.id (p ++ [nb.id]) :=
        hwf.extend hadj hfresh
      have hPI2 : PassInv g start k
          (A ++ [⟨nb.id, p ++ [nb.id]⟩]) (Vs ++ [nb.id]) := by
        refine ⟨?_, ?_⟩
        · intro y hy
          rcases List.mem_append.mp hy with hy | hy
          · rcases hPI.hv y hy with hk | ⟨eA, heA, heAn⟩
            · exact Or.inl hk
            · exact Or.inr ⟨eA, List.mem_append_left _ heA, heAn⟩
          · rcases List.mem_singleton.mp hy with rfl
            exact Or.inr ⟨⟨nb.id, p ++ [nb.id]⟩,
              List.mem_append_right _ (List.mem_singleton.mpr rfl), rfl⟩
        · intro e he
          rcases List.mem_append.mp he with he | he
          · exact hPI.ha e he
          · rcases List.mem_singleton.mp he with rfl
            refine ⟨hEwf, ?_⟩
            simp only [List.length_append, List.length_cons, List.length_nil]
            omega
      have hstep := bfsExpand_cons_push p A Vs 0 0 nb rest hvc
      have hq01 := (bfsExpand_counters_indep p rest
        (A ++ [⟨nb.id, p ++ [nb.id]⟩]) (Vs ++ [nb.id]) 1 1 0 0).1
      have hv01 := (bfsExpand_counters_indep p rest
        (A ++ [⟨nb.id, p ++ [nb.id]⟩]) (Vs ++ [nb.id]) 1 1 0 0).2
      rw [pushList_cons_keep p nb rest hpc, hstep, hq01, hv01]
      obtain ⟨ihEq, ihPI⟩ := ih
        (fun nb2 h2 => hnbs nb2 (List.mem_cons_of_mem _ h2))
        (A ++ [⟨nb.id, p ++ [nb.id]⟩]) (Vs ++ [nb.id]) T hPI2
        (fun x hx => List.mem_append_left _ (hp x hx))
      refine ⟨?_, ihPI⟩
      refine Eq.trans ?_ ihEq
      rw [List.append_assoc]
      rfl
    · -- already-visited neighbour: the breadth-first pass skips it
      have hstep := bfsExpand_cons_skip p A Vs 0 0 nb rest hvc
      have hq01 := (bfsExpand_counters_indep p rest A Vs 0 1 0 0).1
      have hv01 := (bfsExpand_counters_indep p rest A Vs 0 1 0 0).2
      obtain ⟨ihEq, ihPI⟩ := ih
        (fun nb2 h2 => hnbs nb2 (List.mem_cons_of_mem _ h2)) A Vs T hPI hp
      cases hpc : p.contains nb.id
      · -- on the skeleton side the child survives: it must be harmless
        rw [pushList_cons_keep p nb rest hpc, hstep, hq01, hv01]
        refine ⟨?_, ihPI⟩
        rcases hA : fdls g goal L A with _ | r
        · -- everything accumulated so far fails, so this child fails too
          have hEfail : dlsPure g goal L nb.id (p ++ [nb.id]) = none := by
            rcases hE : dlsPure g goal L nb.id (p ++ [nb.id]) with _ | r2
            · rfl
            · exfalso
              obtain ⟨q, hr, hqlen, hqavoid, hqnodup, hqchain, z, hzl, hzg⟩ :=
                dlsPure_sound g goal L nb.id (p ++ [nb.id]) r2 hE
              have hyVs : nb.id ∈ Vs := List.mem_of_elem_eq_true hvc
              have hwalk : ValidWalk g nb.id z (nb.id :: q) := ⟨rfl, hzl, hqchain⟩
              rcases hPI.hv nb.id hyVs with hky | ⟨eA, heA, heAn⟩
              · have hz2 := Reach_extend hky hwalk
                exact hmin z hzg (Reach_mono (by omega) hz2)
              · obtain ⟨heAwf, heAlen⟩ := hPI.ha eA heA
                have hqfar : ∀ x ∈ q, ¬ Reach g start (k + 1) x := by
                  intro x hx hRx
                  obtain ⟨q1, q2, hq12⟩ := List.append_of_mem hx
                  have heqs : nb.id :: q = (nb.id :: q1) ++ x :: q2 := by
                    rw [hq12, List.cons_append]
                  have hsuf : ValidWalk g x z (x :: q2) :=
                    walk_suffix hwalk heqs
                  have hz2 := Reach_extend hRx hsuf
                  refine hmin z hzg (Reach_mono ?_ hz2)
                  have hql : q.length = q1.length + (q2.length + 1) := by
                    rw [hq12, List.length_append, List.length_cons]
                  omega
                have hsome : (dlsPure g goal L eA.node eA.path).isSome = true := by
                  rw [heAn]
                  refine dlsPure_complete g goal q L nb.id eA.path hqlen
                    hqchain hqnodup ?_ ?_ ⟨z, hzl, hzg⟩
                  · intro x hx hmem
                    exact hqfar x hx (path_nodes_reach heAwf heAlen x hmem)
                  · have hne := heAwf.ne_nil
                    rw [← heAn]
                    have hl := heAwf.2.1
                    rw [List.getLast?_eq_getLast _ hne] at hl
                    rw [← Option.some.inj hl]
                    exact List.getLast_mem hne
                have hAs := fdls_isSome_of_mem g goal L A eA heA hsome
                rw [hA] at hAs
                cases hAs
          refine Eq.trans ?_ ihEq
          exact fdls_cancel g goal L A (pushList p rest ++ T) _ hEfail
        · -- an accumulated entry already succeeds: both scans are frozen
          have hfact := (bfsExpand_queue_factor p rest A [] Vs 0 0).1
          rw [List.append_nil] at hfact
          rw [hfact, List.append_assoc]
          exact fdls_frozen g goal L A _ _ r hA
      · -- the child sits on its own path: both sides skip it
        rw [pushList_cons_skip p nb rest hpc, hstep, hq01, hv01]
        exact ⟨ihEq, ihPI⟩

/-- Adjacency always shows up as a neighbour record. -/
theorem mem_getNeighbors_of_adjacent {g : GraphData} {u x : String}
    (h : adjacent g u x) : ∃ nb ∈ getNeighbors g u, nb.id = x := by
  obtain ⟨l, hl, hor⟩ := h
  rcases hor with ⟨h1, h2⟩ | ⟨h1, h2⟩
  · refine ⟨⟨l.target, l.distance⟩, ?_, h2⟩
    unfold getNeighbors
    exact List.mem_filterMap.mpr ⟨l, hl, by rw [if_pos h1]⟩
  · by_cases hs : l.source = u
    · refine ⟨⟨l.target, l.distance⟩, ?_, ?_⟩
      · unfold getNeighbors
        exact List.mem_filterMap.mpr ⟨l, hl, by rw [if_pos hs]⟩
      · rw [h2, ← h1, hs]
    · refine ⟨⟨l.source, l.distance⟩, ?_, h1⟩
      unfold getNeighbors
      refine List.mem_filterMap.mpr ⟨l, hl, ?_⟩
      rw [if_neg hs, if_pos h2]

/-- The endpoint of a rooted path lies on it. -/
theorem pathok_node_mem {g : GraphData} {root u : String} {p : List String}
    (hp : PathOk g root u p) : u ∈ p := by
  have hne := hp.ne_nil
  have hl := hp.2.1
  rw [List.getLast?_eq_getLast _ hne] at hl
  rw [← Option.some.inj hl]
  exact List.getLast_mem hne

/-- Zero-hop reachability pins the node to the start. -/
theorem Reach_zero {g : GraphData} {start x : String}
    (h : Reach g start 0 x) : x = start := by
  obtain ⟨q, ⟨hh, hl, _⟩, hlen⟩ := h
  cases q with
  | nil => cases hh
  | cons a t =>
    cases t with
    | nil =>
      rw [List.head?_cons] at hh
      rw [List.getLast?_singleton] at hl
      have ha : a = x := Option.some.inj hl
      have hs : a = start := Option.some.inj hh
      rw [← ha]
      exact hs
    | cons b t2 =>
      simp only [List.length_cons] at hlen
      omega

/-- A full level pass: scanning all children of all frontier entries is
equivalent to scanning only the deduplicated children collected by the
breadth-first expansion. -/
theorem level_pass (g : GraphData) (start : String) (goal : GoalSpec)
    (k L : ℕ)
    (hmin : ∀ z, isGoalNode z goal = true → ¬ Reach g start (k + L) z) :
    ∀ (Qs : List QEntry) (A : List QEntry) (Vs : List String),
      (∀ e ∈ Qs, PathOk g start e.node e.path ∧ e.path.length = k + 1) →
      (∀ e ∈ Qs, ∀ x ∈ e.path, x ∈ Vs) →
      PassInv g start k A Vs →
      fdls g goal L (A ++ qfull g Qs) = fdls g goal L (lvlStep g Qs A Vs).1 ∧
      PassInv g start k (lvlStep g Qs A Vs).1 (lvlStep g Qs A Vs).2 := by
  intro Qs
  induction Qs with
  | nil =>
    intro A Vs _ _ hPI
    refine ⟨?_, hPI⟩
    rw [qfull, List.append_nil]
    rfl
  | cons e Qs ih =>
    intro A Vs hwf hcov hPI
    obtain ⟨hewf, helen⟩ := hwf e (List.mem_cons_self _ _)
    obtain ⟨inEq, inPI⟩ := level_pass_inner g start goal k L hmin e.node e.path
      hewf helen (getNeighbors g e.node) (fun _ h => h) A Vs (qfull g Qs) hPI
      (hcov e (List.mem_cons_self _ _))
    have hcov2 : ∀ e2 ∈ Qs, ∀ x ∈ e2.path,
        x ∈ (bfsExpand e.path A Vs 0 0 (getNeighbors g e.node)).visited :=
      fun e2 he2 x hx => bfsExpand_vis_mono e.path _ A Vs 0 0 x
        (hcov e2 (List.mem_cons_of_mem _ he2) x hx)
    obtain ⟨ihEq, ihPI⟩ := ih
      (bfsExpand e.path A Vs 0 0 (getNeighbors g e.node)).queue
      (bfsExpand e.path A Vs 0 0 (getNeighbors g e.node)).visited
      (fun e2 he2 => hwf e2 (List.mem_cons_of_mem _ he2)) hcov2 inPI
    rw [lvlStep, qfull]
    exact ⟨Eq.trans inEq ihEq, ihPI⟩

/-- A level invariant makes every entry path visited. -/
theorem lvlinv_cov {g : GraphData} {start : String} {k : ℕ}
    {Q : List QEntry} {V : List String} (hinv : LvlInv g start k Q V) :
    ∀ e ∈ Q, ∀ x ∈ e.path, x ∈ V := by
  intro e he x hx
  obtain ⟨hwf, hlen⟩ := hinv.wf e he
  exact hinv.reach_v x (path_nodes_reach hwf hlen x hx)

/-- A level invariant seeds an empty pass invariant. -/
theorem lvlinv_pass0 {g : GraphData} {start : String} {k : ℕ}
    {Q : List QEntry} {V : List String} (hinv : LvlInv g start k Q V) :
    PassInv g start k [] V :=
  ⟨fun y hy => Or.inl (hinv.v_reach y hy),
   fun e he => absurd he (List.not_mem_nil e)⟩

/-- Discovering a whole level from a well-formed frontier yields a
well-formed next frontier: the new visited set is the `(k + 1)`-hop ball
and the new entries cover the nodes at distance exactly `k + 1`. -/
theorem lvl_next (g : GraphData) (start : String) (k : ℕ)
    (Q : List QEntry) (V : List String) (hinv : LvlInv g start k Q V) :
    LvlInv g start (k + 1) (lvlStep g Q [] V).1 (lvlStep g Q [] V).2 := by
  have hPI := (level_pass g start (.multi []) k 0
    (fun z hz => nomatch hz) Q [] V hinv.wf (lvlinv_cov hinv)
    (lvlinv_pass0 hinv)).2
  have hreach_v : ∀ x, Reach g start (k + 1) x → x ∈ (lvlStep g Q [] V).2 := by
    intro x hx
    by_cases hk : Reach g start k x
    · exact lvlStep_vis_mono g Q [] V x (hinv.reach_v x hk)
    · obtain ⟨q, hw, hql⟩ := hx
      have hqe : q.length = k + 2 := by
        rcases Nat.lt_or_ge q.length (k + 2) with hlt | hge
        · exact absurd (⟨q, hw, by omega⟩ : Reach g start k x) hk
        · omega
      have hqne : q ≠ [] := by
        intro h
        rw [h, List.length_nil] at hqe
        omega
      obtain ⟨q1, xx, hq1⟩ := (List.eq_nil_or_concat q).resolve_left hqne
      rw [List.concat_eq_append] at hq1
      have hxl := hw.2.1
      rw [hq1, List.getLast?_concat] at hxl
      obtain rfl := Option.some.inj hxl
      have hq1l : q1.length = k + 1 := by
        have h2 := hqe
        rw [hq1, List.length_append, List.length_cons, List.length_nil] at h2
        omega
      have hq1ne : q1 ≠ [] := by
        intro h
        rw [h, List.length_nil] at hq1l
        omega
      obtain ⟨q2, w, hq2⟩ := (List.eq_nil_or_concat q1).resolve_left hq1ne
      rw [List.concat_eq_append] at hq2
      have hq2l : q2.length = k := by
        have h2 := hq1l
        rw [hq2, List.length_append, List.length_cons, List.length_nil] at h2
        omega
      have heqq : q = q2 ++ w :: [xx] := by
        rw [hq1, hq2, List.append_assoc, List.singleton_append]
      have hRw : Reach g start k w := by
        have h2 := walk_prefix hw heqq
        rwa [hq2l] at h2
      have hws : ValidWalk g w xx (w :: [xx]) := walk_suffix hw heqq
      have hadj : adjacent g w xx := (List.chain'_cons.mp hws.2.2).1
      have hwmin : ∀ m, m < k → ¬ Reach g start m w := by
        intro m hm hRm
        have hstep : Reach g start (m + 1) xx := by
          have h2 := Reach_extend hRm hws
          simpa using h2
        exact hk (Reach_mono (by omega) hstep)
      obtain ⟨e, he, hen⟩ := hinv.cover w hRw hwmin
      obtain ⟨nb, hnb, hnbid⟩ := mem_getNeighbors_of_adjacent
        (show adjacent g e.node xx by rw [hen]; exact hadj)
      rw [← hnbid]
      exact lvlStep_covers g Q [] V e nb he hnb
  refine ⟨?_, ?_, hreach_v, ?_⟩
  · intro e he
    obtain ⟨h1, h2⟩ := hPI.ha e he
    exact ⟨h1, by omega⟩
  · intro v hv
    rcases hPI.hv v hv with hk | ⟨e, he, hen⟩
    · exact Reach_mono (by omega) hk
    · obtain ⟨hwf, hlen⟩ := hPI.ha e he
      rw [← hen]
      exact path_nodes_reach hwf (by omega : e.path.length = (k + 1) + 1)
        e.node (pathok_node_mem hwf)
  · intro x hx hmins
    have hnk : ¬ Reach g start k x := hmins k (by omega)
    have hxv := hreach_v x hx
    rcases hPI.hv x hxv with hk | he
    · exact absurd hk hnk
    · exact he

/-- The breadth-first levels: frontier and visited set after `k` whole
levels have been discovered. -/
def qvIter (g : GraphData) (start : String) : ℕ → List QEntry × List String
  | 0 => ([⟨start, [start]⟩], [start])
  | k + 1 => lvlStep g (qvIter g start k).1 [] (qvIter g start k).2

/-- Every breadth-first level satisfies the level invariant. -/
theorem lvlinv_iter (g : GraphData) (start : String) :
    ∀ k, LvlInv g start k (qvIter g start k).1 (qvIter g start k).2 := by
  intro k
  induction k with
  | zero =>
    refine ⟨?_, ?_, ?_, ?_⟩
    · intro e he
      rcases List.mem_singleton.mp he with rfl
      exact ⟨PathOk_singleton g start, rfl⟩
    · intro v hv
      have hv2 : v = start := List.mem_singleton.mp hv
      rw [hv2]
      exact Reach_self g start 0
    · intro x hx
      exact List.mem_singleton.mpr (Reach_zero hx)
    · intro x hx _
      exact ⟨⟨start, [start]⟩, List.mem_singleton.mpr rfl, (Reach_zero hx).symm⟩
  | succ k ih =>
    exact lvl_next g start k (qvIter g start k).1 (qvIter g start k).2 ih

/-- A singleton frontier scan is just the one depth-limited call. -/
theorem fdls_singleton (g : GraphData) (goal : GoalSpec) (f : ℕ) (e : QEntry) :
    fdls g goal f [e] = dlsPure g goal f e.node e.path := by
  rw [fdls]
  rcases h : dlsPure g goal f e.node e.path with _ | r
  · rfl
  · rfl

/-- Descending through the levels: a depth-`(j + 1)` scan of level `k`
equals a depth-`0` scan of level `k + j + 1`, as long as no goal lies
within `k + j` hops. -/
theorem descent (g : GraphData) (start : String) (goal : GoalSpec) :
    ∀ (j k : ℕ),
      (∀ z, isGoalNode z goal = true → ¬ Reach g start (k + j) z) →
      fdls g goal (j + 1) (qvIter g start k).1 =
        fdls g goal 0 (qvIter g start (k + j + 1)).1 := by
  intro j
  induction j with
  | zero =>
    intro k hmin
    have hinv := lvlinv_iter g start k
    have hng : ∀ e ∈ (qvIter g start k).1, isGoalNode e.node goal = false := by
      intro e he
      cases hc : isGoalNode e.node goal
      · rfl
      · exfalso
        obtain ⟨hwf, hlen⟩ := hinv.wf e he
        exact hmin e.node hc
          (path_nodes_reach hwf hlen e.node (pathok_node_mem hwf))
    rw [fdls_eq_qfull g goal 0 _ hng]
    exact (level_pass g start goal k 0 hmin (qvIter g start k).1 []
      (qvIter g start k).2 hinv.wf (lvlinv_cov hinv) (lvlinv_pass0 hinv)).1
  | succ j ih =>
    intro k hmin
    have hinv := lvlinv_iter g start k
    have hngk : ∀ z, isGoalNode z goal = true → ¬ Reach g start k z :=
      fun z hz hr => hmin z hz (Reach_mono (by omega) hr)
    have hng : ∀ e ∈ (qvIter g start k).1, isGoalNode e.node goal = false := by
      intro e he
      cases hc : isGoalNode e.node goal
      · rfl
      · exfalso
        obtain ⟨hwf, hlen⟩ := hinv.wf e he
        exact hngk e.node hc
          (path_nodes_reach hwf hlen e.node (pathok_node_mem hwf))
    rw [fdls_eq_qfull g goal (j + 1) _ hng]
    have hlp := (level_pass g start goal k (j + 1) hmin (qvIter g start k).1 []
      (qvIter g start k).2 hinv.wf (lvlinv_cov hinv) (lvlinv_pass0 hinv)).1
    refine Eq.trans hlp ?_
    have hmin2 : ∀ z, isGoalNode z goal = true →
        ¬ Reach g start (k + 1 + j) z := by
      intro z hz
      have hcast : k + 1 + j = k + (j + 1) := by omega
      rw [hcast]
      exact hmin z hz
    have hih := ih (k + 1) hmin2
    have hidx : k + 1 + j + 1 = k + (j + 1) + 1 := by omega
    rw [← hidx]
    exact hih

/-- A shallow depth-limited search fails when no goal is in range. -/
theorem dls_shallow_fail (g : GraphData) (start : String) (goal : GoalSpec)
    (d : ℕ) (hmin : ∀ z, isGoalNode z goal = true → ¬ Reach g start d z) :
    dlsPure g goal d start [start] = none := by
  rcases hE : dlsPure g goal d start [start] with _ | r
  · rfl
  · exfalso
    obtain ⟨q, hr, hqlen, hqavoid, hqnodup, hqchain, z, hzl, hzg⟩ :=
      dlsPure_sound g goal d start [start] r hE
    refine hmin z hzg ⟨start :: q, ⟨rfl, hzl, hqchain⟩, ?_⟩
    simp only [List.length_cons]
    omega

/-- More fuel never changes a committed BFS answer. -/
theorem bfsLoop_mono (g : GraphData) (goal : GoalSpec) (running : ℕ → Bool) :
    ∀ (fuel : ℕ) (st : BfsState) (x : SearchOutcome),
      bfsLoop g goal running fuel st = some x →
      bfsLoop g goal running (fuel + 1) st = some x := by
  intro fuel
  induction fuel with
  | zero =>
    intro st x h
    rw [bfsLoop] at h
    cases h
  | succ f ih =>
    intro st x h
    rw [bfsLoop] at h
    split at h
    · rename_i hqe
      rw [bfsLoop, hqe]
      exact h
    · rename_i e rest hqe
      split at h
      · rename_i hrun
        rw [bfsLoop, hqe]
        simp only [if_pos hrun]
        exact h
      · rename_i hrun
        split at h
        · rename_i hgoal
          rw [bfsLoop, hqe]
          simp only [if_neg hrun, if_pos hgoal]
          exact h
        · rename_i hgoal
          rw [bfsLoop, hqe]
          simp only [if_neg hrun, if_neg hgoal]
          exact ih _ x h

/-- Fuel monotonicity, arbitrary gap. -/
theorem bfsLoop_mono_le (g : GraphData) (goal : GoalSpec) (running : ℕ → Bool)
    (f1 f2 : ℕ) (st : BfsState) (x : SearchOutcome) (hle : f1 ≤ f2)
    (h : bfsLoop g goal running f1 st = some x) :
    bfsLoop g goal running f2 st = some x := by
  obtain ⟨d, rfl⟩ := Nat.exists_eq_add_of_le hle
  clear hle
  induction d with
  | zero => exact h
  | succ n ihn => exact bfsLoop_mono g goal running (f1 + n) st x ihn

/-- Running BFS across one whole goal-free level: the queue turns over
exactly as `lvlStep` describes, at a cost of one fuel unit per entry. -/
theorem bfsLoop_level (g : GraphData) (goal : GoalSpec) :
    ∀ (Qs A : List QEntry) (Vs : List String) (ne nd ep kk : ℕ),
      (∀ e ∈ Qs, isGoalNode e.node goal = false) →
      ∃ ne2 nd2 ep2 kk2, ∀ fuel,
        bfsLoop g goal runTrue (fuel + Qs.length)
          ⟨Qs ++ A, Vs, ne, nd, ep, kk⟩ =
        bfsLoop g goal runTrue fuel
          ⟨(lvlStep g Qs A Vs).1, (lvlStep g Qs A Vs).2,
            ne2, nd2, ep2, kk2⟩ := by
  intro Qs
  induction Qs with
  | nil =>
    intro A Vs ne nd ep kk _
    exact ⟨ne, nd, ep, kk, fun fuel => rfl⟩
  | cons e Qs ih =>
    intro A Vs ne nd ep kk hng
    obtain ⟨ne2, nd2, ep2, kk2, hrec⟩ := ih
      (bfsExpand e.path A Vs 0 0 (getNeighbors g e.node)).queue
      (bfsExpand e.path A Vs 0 0 (getNeighbors g e.node)).visited
      (ne + 1)
      (bfsExpand e.path (Qs ++ A) Vs nd ep (getNeighbors g e.node)).nd
      (bfsExpand e.path (Qs ++ A) Vs nd ep (getNeighbors g e.node)).ep
      (kk + 1)
      (fun e2 h2 => hng e2 (List.mem_cons_of_mem _ h2))
    refine ⟨ne2, nd2, ep2, kk2, fun fuel => ?_⟩
    have hlen : fuel + (e :: Qs).length = (fuel + Qs.length) + 1 := by
      simp only [List.length_cons]
      omega
    rw [hlen, List.cons_append, bfsLoop]
    have hg := hng e (List.mem_cons_self _ _)
    simp only [runTrue, hg]
    rw [(bfsExpand_queue_factor e.path (getNeighbors g e.node) Qs A Vs nd ep).1,
        (bfsExpand_queue_factor e.path (getNeighbors g e.node) Qs A Vs nd ep).2,
        (bfsExpand_counters_indep e.path (getNeighbors g e.node) A Vs nd ep 0 0).1,
        (bfsExpand_counters_indep e.path (getNeighbors g e.node) A Vs nd ep 0 0).2]
    exact hrec fuel

/-- Iterating whole goal-free levels from the initial BFS state. -/
theorem bfs_levels (g : GraphData) (start : String) (goal : GoalSpec) :
    ∀ k : ℕ,
      (∀ m, m < k → ∀ z, isGoalNode z goal = true → ¬ Reach g start m z) →
      ∃ ne nd ep kk F0, ∀ fuel,
        bfsLoop g goal runTrue (fuel + F0)
          ⟨[⟨start, [start]⟩], [start], 0, 1, 0, 0⟩ =
        bfsLoop g goal runTrue fuel
          ⟨(qvIter g start k).1, (qvIter g start k).2, ne, nd, ep, kk⟩ := by
  intro k
  induction k with
  | zero =>
    intro _
    exact ⟨0, 1, 0, 0, 0, fun fuel => rfl⟩
  | succ k ih =>
    intro hng
    obtain ⟨ne, nd, ep, kk, F0, h1⟩ := ih (fun m hm => hng m (by omega))
    have hnge : ∀ e ∈ (qvIter g start k).1, isGoalNode e.node goal = false := by
      intro e he
      cases hc : isGoalNode e.node goal
      · rfl
      · exfalso
        obtain ⟨hwf, hlen⟩ := (lvlinv_iter g start k).wf e he
        exact hng k (by omega) e.node hc
          (path_nodes_reach hwf hlen e.node (pathok_node_mem hwf))
    obtain ⟨ne2, nd2, ep2, kk2, h2⟩ := bfsLoop_level g goal
      (qvIter g start k).1 [] (qvIter g start k).2 ne nd ep kk hnge
    refine ⟨ne2, nd2, ep2, kk2, F0 + (qvIter g start k).1.length,
      fun fuel => ?_⟩
    have hidx : fuel + (F0 + (qvIter g start k).1.length) =
        (fuel + (qvIter g start k).1.length) + F0 := by omega
    rw [hidx, h1 (fuel + (qvIter g start k).1.length)]
    have h2f := h2 fuel
    rw [List.append_nil] at h2f
    rw [h2f]
    rfl

/-- A goal-bearing frontier at exhausted depth: BFS returns the first
goal entry, whose path is exactly what the depth-0 scan finds. -/
theorem bfs_scan (g : GraphData) (goal : GoalSpec) :
    ∀ (Q A : List QEntry) (Vs : List String) (ne nd ep kk : ℕ)
      (p : List String),
      fdls g goal 0 Q = some p →
      ∃ ob, (∀ fuel, bfsLoop g goal runTrue (fuel + (Q.length + 1))
          ⟨Q ++ A, Vs, ne, nd, ep, kk⟩ = some ob) ∧
        ob.success = true ∧ ob.path = some p := by
  intro Q
  induction Q with
  | nil =>
    intro A Vs ne nd ep kk p h
    rw [fdls] at h
    cases h
  | cons e Q ih =>
    intro A Vs ne nd ep kk p h
    rw [fdls] at h
    cases hg : isGoalNode e.node goal
    · have hd : dlsPure g goal 0 e.node e.path = none := by
        rw [dlsPure]
        simp only [hg]
        rfl
      rw [hd] at h
      obtain ⟨ob, hrun, hs, hp⟩ := ih
        (bfsExpand e.path A Vs 0 0 (getNeighbors g e.node)).queue
        (bfsExpand e.path A Vs 0 0 (getNeighbors g e.node)).visited
        (ne + 1)
        (bfsExpand e.path (Q ++ A) Vs nd ep (getNeighbors g e.node)).nd
        (bfsExpand e.path (Q ++ A) Vs nd ep (getNeighbors g e.node)).ep
        (kk + 1) p h
      refine ⟨ob, fun fuel => ?_, hs, hp⟩
      have hlen : fuel + ((e :: Q).length + 1) =
          (fuel + (Q.length + 1)) + 1 := by
        simp only [List.length_cons]
        omega
      rw [hlen, List.cons_append, bfsLoop]
      simp only [runTrue, hg]
      rw [(bfsExpand_queue_factor e.path (getNeighbors g e.node) Q A Vs nd ep).1,
          (bfsExpand_queue_factor e.path (getNeighbors g e.node) Q A Vs nd ep).2,
          (bfsExpand_counters_indep e.path (getNeighbors g e.node) A Vs nd ep 0 0).1,
          (bfsExpand_counters_indep e.path (getNeighbors g e.node) A Vs nd ep 0 0).2]
      exact hrun fuel
    · have hd : dlsPure g goal 0 e.node e.path = some e.path := by
        rw [dlsPure]
        simp only [hg]
        rfl
      rw [hd] at h
      have hpe : e.path = p := by
        have h2 : (some e.path : Option (List String)) = some p := h
        exact Option.some.inj h2
      refine ⟨foundOutcome g e.path (ne + 1) nd ep, fun fuel => ?_, rfl, ?_⟩
      · have hlen : fuel + ((e :: Q).length + 1) =
            (fuel + (Q.length + 1)) + 1 := by
          simp only [List.length_cons]
          omega
        rw [hlen, List.cons_append, bfsLoop]
        simp only [runTrue, hg]
        rfl
      · rw [← hpe]
        rfl

/-- A frontier with a goal entry yields a successful depth-0 scan. -/
theorem fdls_zero_some (g : GraphData) (goal : GoalSpec) :
    ∀ (Q : List QEntry), (∃ e ∈ Q, isGoalNode e.node goal = true) →
      ∃ p, fdls g goal 0 Q = some p := by
  intro Q hex
  obtain ⟨e, he, hg⟩ := hex
  have hs : (dlsPure g goal 0 e.node e.path).isSome = true := by
    rw [dlsPure]
    simp only [hg]
    rfl
  have hsome := fdls_isSome_of_mem g goal 0 Q e he hs
  rcases hq : fdls g goal 0 Q with _ | p
  · rw [hq] at hsome
    cases hsome
  · exact ⟨p, rfl⟩

/-- Master equivalence: with `d` the exact hop distance of the nearest
goal and `d` within the iterative-deepening bound, IDDFS succeeds with
the first goal path of breadth-first level `d`, BFS terminates, and every
terminating BFS run returns that same path. -/
theorem c7_master (g : GraphData) (start : String) (goal : GoalSpec) (d : ℕ)
    (hPd : ∃ z, isGoalNode z goal = true ∧ Reach g start d z)
    (hmins : ∀ m, m < d → ∀ z, isGoalNode z goal = true → ¬ Reach g start m z)
    (hdle : d ≤ maxIterativeDepth) :
    ∃ p : List String,
      (iterativeDeepeningSearch g start goal runTrue).success = true ∧
      (iterativeDeepeningSearch g start goal runTrue).path = some p ∧
      (∃ fuel ob, breadthFirstSearch g start goal runTrue fuel = some ob) ∧
      (∀ (fuel : ℕ) (ob : SearchOutcome),
        breadthFirstSearch g start goal runTrue fuel = some ob →
        ob.success = true ∧ ob.path = some p) := by
  obtain ⟨zg, hzg, hrg⟩ := hPd
  have hzmin : ∀ m, m < d → ¬ Reach g start m zg :=
    fun m hm hr => hmins m hm zg hzg hr
  obtain ⟨eg, heg, hegn⟩ := (lvlinv_iter g start d).cover zg hrg hzmin
  obtain ⟨p, hp⟩ := fdls_zero_some g goal (qvIter g start d).1
    ⟨eg, heg, by rw [hegn]; exact hzg⟩
  have htop : dlsPure g goal d start [start] = some p := by
    rcases Nat.eq_zero_or_pos d with hd0 | hdpos
    · subst hd0
      have hsing : fdls g goal 0 [⟨start, [start]⟩] =
          dlsPure g goal 0 start [start] :=
        fdls_singleton g goal 0 ⟨start, [start]⟩
      rw [← hsing]
      exact hp
    · obtain ⟨d2, rfl⟩ := Nat.exists_eq_succ_of_ne_zero (by omega : d ≠ 0)
      have hmin2 : ∀ z, isGoalNode z goal = true →
          ¬ Reach g start (0 + d2) z := by
        intro z hz
        have hc : (0 : ℕ) + d2 = d2 := by omega
        rw [hc]
        exact hmins d2 (by omega) z hz
      have hdes := descent g start goal d2 0 hmin2
      have hc2 : (0 : ℕ) + d2 + 1 = d2 + 1 := by omega
      rw [hc2] at hdes
      have hsing : fdls g goal (d2 + 1) [⟨start, [start]⟩] =
          dlsPure g goal (d2 + 1) start [start] :=
        fdls_singleton g goal (d2 + 1) ⟨start, [start]⟩
      rw [← hsing]
      exact Eq.trans hdes hp
  have hfails : ∀ m : ℕ, m < d → dlsPure g goal m start [start] = none :=
    fun m hm => dls_shallow_fail g start goal m (hmins m hm)
  have hfirst : iddfsFirst g goal start [0, 1, 2, 3, 4, 5] = some p := by
    have hd5 : d ≤ 5 := hdle
    interval_cases d
    · have k0 : dlsPure g goal ((0 : ℤ)).toNat start [start] = some p := htop
      simp only [iddfsFirst, k0]
    · have k0 : dlsPure g goal ((0 : ℤ)).toNat start [start] = none :=
        hfails 0 (by omega)
      have k1 : dlsPure g goal ((1 : ℤ)).toNat start [start] = some p := htop
      simp only [iddfsFirst, k0, k1]
    · have k0 : dlsPure g goal ((0 : ℤ)).toNat start [start] = none :=
        hfails 0 (by omega)
      have k1 : dlsPure g goal ((1 : ℤ)).toNat start [start] = none :=
        hfails 1 (by omega)
      have k2 : dlsPure g goal ((2 : ℤ)).toNat start [start] = some p := htop
      simp only [iddfsFirst, k0, k1, k2]
    · have k0 : dlsPure g goal ((0 : ℤ)).toNat start [start] = none :=
        hfails 0 (by omega)
      have k1 : dlsPure g goal ((1 : ℤ)).toNat start [start] = none :=
        hfails 1 (by omega)
      have k2 : dlsPure g goal ((2 : ℤ)).toNat start [start] = none :=
        hfails 2 (by omega)
      have k3 : dlsPure g goal ((3 : ℤ)).toNat start [start] = some p := htop
      simp only [iddfsFirst, k0, k1, k2, k3]
    · have k0 : dlsPure g goal ((0 : ℤ)).toNat start [start] = none :=
        hfails 0 (by omega)
      have k1 : dlsPure g goal ((1 : ℤ)).toNat start [start] = none :=
        hfails 1 (by omega)
      have k2 : dlsPure g goal ((2 : ℤ)).toNat start [start] = none :=
        hfails 2 (by omega)
      have k3 : dlsPure g goal ((3 : ℤ)).toNat start [start] = none :=
        hfails 3 (by omega)
      have k4 : dlsPure g goal ((4 : ℤ)).toNat start [start] = some p := htop
      simp only [iddfsFirst, k0, k1, k2, k3, k4]
    · have k0 : dlsPure g goal ((0 : ℤ)).toNat start [start] = none :=
        hfails 0 (by omega)
      have k1 : dlsPure g goal ((1 : ℤ)).toNat start [start] = none :=
        hfails 1 (by omega)
      have k2 : dlsPure g goal ((2 : ℤ)).toNat start [start] = none :=
        hfails 2 (by omega)
      have k3 : dlsPure g goal ((3 : ℤ)).toNat start [start] = none :=
        hfails 3 (by omega)
      have k4 : dlsPure g goal ((4 : ℤ)).toNat start [start] = none :=
        hfails 4 (by omega)
      have k5 : dlsPure g goal ((5 : ℤ)).toNat start [start] = some p := htop
      simp only [iddfsFirst, k0, k1, k2, k3, k4, k5]
  have hidd := iddfsGo_pure_some g start goal [0, 1, 2, 3, 4, 5] 0 0 0 0 p hfirst
  obtain ⟨ne, nd, ep, kk, F0, hlev⟩ := bfs_levels g start goal d hmins
  obtain ⟨ob0, hss, hobs, hobp⟩ := bfs_scan g goal (qvIter g start d).1 []
    (qvIter g start d).2 ne nd ep kk p hp
  have hall : ∀ fuel, bfsLoop g goal runTrue
      (fuel + ((qvIter g start d).1.length + 1 + F0))
      ⟨[⟨start, [start]⟩], [start], 0, 1, 0, 0⟩ = some ob0 := by
    intro fuel
    have hidx : fuel + ((qvIter g start d).1.length + 1 + F0) =
        (fuel + ((qvIter g start d).1.length + 1)) + F0 := by omega
    rw [hidx, hlev (fuel + ((qvIter g start d).1.length + 1))]
    have hcur := hss fuel
    rw [List.append_nil] at hcur
    exact hcur
  refine ⟨p, hidd.1, hidd.2, ?_, ?_⟩
  · refine ⟨(qvIter g start d).1.length + 1 + F0, ob0, ?_⟩
    have h0 := hall 0
    rw [Nat.zero_add] at h0
    exact h0
  · intro fuel ob hob
    have h1 : bfsLoop g goal runTrue
        (fuel + ((qvIter g start d).1.length + 1 + F0))
        ⟨[⟨start, [start]⟩], [start], 0, 1, 0, 0⟩ = some ob :=
      bfsLoop_mono_le g goal runTrue fuel
        (fuel + ((qvIter g start d).1.length + 1 + F0))
        ⟨[⟨start, [start]⟩], [start], 0, 1, 0, 0⟩ ob (by omega) hob
    have h2 := hall fuel
    have hoo : ob = ob0 := Option.some.inj (h1.symm.trans h2)
    rw [hoo]
    exact ⟨hobs, hobp⟩

/-- C7: for every start and goal whose shortest hop-count distance is at
most the configured maximum iterative-deepening depth (witnessed by a
goal walk on at most `maxIterativeDepth + 1` nodes), the iterative
deepening search returns a successful outcome, breadth-first search
terminates on sufficient fuel, and both return the same path. -/
theorem claim_C7 (g : GraphData) (start : String) (goal : GoalSpec)
    (z : String) (q : List String)
    (hw : ValidWalk g start z q) (hz : isGoalNode z goal = true)
    (hlen : q.length ≤ maxIterativeDepth + 1) :
    ∃ p : List String,
      (iterativeDeepeningSearch g start goal runTrue).success = true ∧
      (iterativeDeepeningSearch g start goal runTrue).path = some p ∧
      (∃ fuel ob, breadthFirstSearch g start goal runTrue fuel = some ob) ∧
      (∀ (fuel : ℕ) (ob : SearchOutcome),
        breadthFirstSearch g start goal runTrue fuel = some ob →
        ob.success = true ∧ ob.path = some p) := by
  classical
  have hex : ∃ n, ∃ z2, isGoalNode z2 goal = true ∧ Reach g start n z2 :=
    ⟨maxIterativeDepth, z, hz, ⟨q, hw, hlen⟩⟩
  refine c7_master g start goal (Nat.find hex) (Nat.find_spec hex) ?_ ?_
  · intro m hm z2 hz2 hr
    exact Nat.find_min hex hm ⟨z2, hz2, hr⟩
  · exact Nat.find_le ⟨z, hz, ⟨q, hw, hlen⟩⟩

/-- C7 witness: on the line graph A–B–C, IDDFS and BFS agree. -/
theorem claim_C7_witness :
    ∃ p : List String,
      (iterativeDeepeningSearch lineG "A" (.single "C") runTrue).success =
        true ∧
      (iterativeDeepeningSearch lineG "A" (.single "C") runTrue).path =
        some p ∧
      (∃ fuel ob,
        breadthFirstSearch lineG "A" (.single "C") runTrue fuel = some ob) ∧
      (∀ (fuel : ℕ) (ob : SearchOutcome),
        breadthFirstSearch lineG "A" (.single "C") runTrue fuel = some ob →
        ob.success = true ∧ ob.path = some p) :=
  claim_C7 lineG "A" (.single "C") "C" ["A", "B", "C"]
    ⟨rfl, rfl,
      List.chain'_cons.mpr ⟨⟨⟨"A", "B", 10⟩, by decide, Or.inl ⟨rfl, rfl⟩⟩,
        List.chain'_cons.mpr ⟨⟨⟨"B", "C", 5⟩, by decide, Or.inl ⟨rfl, rfl⟩⟩,
          List.chain'_singleton _⟩⟩⟩
    (by decide) (by decide)

/-! ### C5: general counter semantics of the neighbour passes -/

theorem dfsExpand_cons_skip (path : List String) (stack : List QEntry)
    (vis : List String) (nd ep : ℕ) (nb : Neighbor) (rest : List Neighbor)
    (hc : vis.contains nb.id = true) :
    dfsExpand path stack vis nd ep (nb :: rest) =
      dfsExpand path stack vis nd (ep + 1) rest := by
  simp only [dfsExpand, hc]
  rfl

theorem dfsExpand_cons_push (path : List String) (stack : List QEntry)
    (vis : List String) (nd ep : ℕ) (nb : Neighbor) (rest : List Neighbor)
    (hc : vis.contains nb.id = false) :
    dfsExpand path stack vis nd ep (nb :: rest) =
      dfsExpand path (⟨nb.id, path ++ [nb.id]⟩ :: stack) (vis ++ [nb.id])
        (nd + 1) (ep + 1) rest := by
  simp only [dfsExpand, hc]
  rfl

theorem ucsExpand_cons_skip (path : List String) (c : ℤ)
    (fr : List CEntry) (vis : List String) (nd ep : ℕ) (nb : Neighbor)
    (rest : List Neighbor) (hc : vis.contains nb.id = true) :
    ucsExpand path c fr vis nd ep (nb :: rest) =
      ucsExpand path c fr vis nd (ep + 1) rest := by
  simp only [ucsExpand, hc]
  rfl

theorem ucsExpand_cons_push (path : List String) (c : ℤ)
    (fr : List CEntry) (vis : List String) (nd ep : ℕ) (nb : Neighbor)
    (rest : List Neighbor) (hc : vis.contains nb.id = false) :
    ucsExpand path c fr vis nd ep (nb :: rest) =
      ucsExpand path c (fr ++ [⟨nb.id, path ++ [nb.id], c + nb.distance⟩])
        vis (nd + 1) (ep + 1) rest := by
  simp only [ucsExpand, hc]
  rfl

theorem greedyExpand_cons_skip (h : String → ℤ) (path : List String)
    (fr : List HEntry) (vis : List String) (nd ep : ℕ) (nb : Neighbor)
    (rest : List Neighbor) (hc : vis.contains nb.id = true) :
    greedyExpand h path fr vis nd ep (nb :: rest) =
      greedyExpand h path fr vis nd (ep + 1) rest := by
  simp only [greedyExpand, hc]
  rfl

theorem greedyExpand_cons_push (h : String → ℤ) (path : List String)
    (fr : List HEntry) (vis : List String) (nd ep : ℕ) (nb : Neighbor)
    (rest : List Neighbor) (hc : vis.contains nb.id = false) :
    greedyExpand h path fr vis nd ep (nb :: rest) =
      greedyExpand h path (fr ++ [⟨nb.id, path ++ [nb.id], h nb.id⟩]) vis
        (nd + 1) (ep + 1) rest := by
  simp only [greedyExpand, hc]
  rfl

theorem astarExpand_cons_skip (h : String → ℤ) (path : List String) (c : ℤ)
    (fr : List AEntry) (vis : List String) (nd ep : ℕ) (nb : Neighbor)
    (rest : List Neighbor) (hc : vis.contains nb.id = true) :
    astarExpand h path c fr vis nd ep (nb :: rest) =
      astarExpand h path c fr vis nd (ep + 1) rest := by
  simp only [astarExpand, hc]
  rfl

theorem astarExpand_cons_push (h : String → ℤ) (path : List String) (c : ℤ)
    (fr : List AEntry) (vis : List String) (nd ep : ℕ) (nb : Neighbor)
    (rest : List Neighbor) (hc : vis.contains nb.id = false) :
    astarExpand h path c fr vis nd ep (nb :: rest) =
      astarExpand h path c
        (fr ++ [⟨nb.id, path ++ [nb.id], c + nb.distance, h nb.id,
          c + nb.distance + h nb.id⟩])
        vis (nd + 1) (ep + 1) rest := by
  simp only [astarExpand, hc]
  rfl

theorem bidiExpand_cons_skip (path : List String) (q : List QEntry)
    (vis : List (String × List String)) (nd ep : ℕ) (nb : Neighbor)
    (rest : List Neighbor) (hc : (lookupA vis nb.id).isSome = true) :
    bidiExpand path q vis nd ep (nb :: rest) =
      bidiExpand path q vis nd (ep + 1) rest := by
  simp only [bidiExpand, hc]
  rfl

theorem bidiExpand_cons_push (path : List String) (q : List QEntry)
    (vis : List (String × List String)) (nd ep : ℕ) (nb : Neighbor)
    (rest : List Neighbor) (hc : (lookupA vis nb.id).isSome = false) :
    bidiExpand path q vis nd ep (nb :: rest) =
      bidiExpand path (q ++ [⟨nb.id, path ++ [nb.id]⟩])
        (vis ++ [(nb.id, path ++ [nb.id])]) (nd + 1) (ep + 1) rest := by
  simp only [bidiExpand, hc]
  rfl

theorem not_mem_of_contains_false {l : List String} {x : String}
    (h : l.contains x = false) : x ∉ l := by
  intro hm
  have h2 : l.contains x = true := List.elem_eq_true_of_mem hm
  rw [h] at h2
  cases h2

theorem nodup_append_singleton {α : Type} {l : List α} {x : α}
    (hn : l.Nodup) (hx : x ∉ l) : (l ++ [x]).Nodup := by
  rw [List.nodup_append]
  exact ⟨hn, List.nodup_singleton x,
    fun a ha hb => hx (List.mem_singleton.mp hb ▸ ha)⟩

theorem lookupA_isSome_of_key (m : List (String × List String)) (s : String)
    (h : s ∈ m.map Prod.fst) : (lookupA m s).isSome = true := by
  obtain ⟨p, hp, hfst⟩ := List.mem_map.mp h
  unfold lookupA
  rcases hf : m.find? (fun q => q.1 == s) with _ | q
  · rw [List.find?_eq_none] at hf
    exact absurd
      (show ((fun (q : String × List String) => q.1 == s) p) = true by
        simp [hfst])
      (hf p hp)
  · rw [hf]
    rfl

theorem bfsExpand_ep_count (path : List String) :
    ∀ (nbrs : List Neighbor) (q : List QEntry) (vis : List String)
      (nd ep : ℕ), (bfsExpand path q vis nd ep nbrs).ep = ep + nbrs.length := by
  intro nbrs
  induction nbrs with
  | nil => intro q vis nd ep; rfl
  | cons nb rest ih =>
    intro q vis nd ep
    cases hc : vis.contains nb.id
    · rw [bfsExpand_cons_push path q vis nd ep nb rest hc, ih]
      simp only [List.length_cons]
      omega
    · rw [bfsExpand_cons_skip path q vis nd ep nb rest hc, ih]
      simp only [List.length_cons]
      omega

theorem dfsExpand_ep_count (path : List String) :
    ∀ (nbrs : List Neighbor) (stack : List QEntry) (vis : List String)
      (nd ep : ℕ), (dfsExpand path stack vis nd ep nbrs).ep = ep + nbrs.length := by
  intro nbrs
  induction nbrs with
  | nil => intro stack vis nd ep; rfl
  | cons nb rest ih =>
    intro stack vis nd ep
    cases hc : vis.contains nb.id
    · rw [dfsExpand_cons_push path stack vis nd ep nb rest hc, ih]
      simp only [List.length_cons]
      omega
    · rw [dfsExpand_cons_skip path stack vis nd ep nb rest hc, ih]
      simp only [List.length_cons]
      omega

theorem ucsExpand_ep_count (path : List String) (c : ℤ) :
    ∀ (nbrs : List Neighbor) (fr : List CEntry) (vis : List String)
      (nd ep : ℕ), (ucsExpand path c fr vis nd ep nbrs).ep = ep + nbrs.length := by
  intro nbrs
  induction nbrs with
  | nil => intro fr vis nd ep; rfl
  | cons nb rest ih =>
    intro fr vis nd ep
    cases hc : vis.contains nb.id
    · rw [ucsExpand_cons_push path c fr vis nd ep nb rest hc, ih]
      simp only [List.length_cons]
      omega
    · rw [ucsExpand_cons_skip path c fr vis nd ep nb rest hc, ih]
      simp only [List.length_cons]
      omega

theorem greedyExpand_ep_count (h : String → ℤ) (path : List String) :
    ∀ (nbrs : List Neighbor) (fr : List HEntry) (vis : List String)
      (nd ep : ℕ),
      (greedyExpand h path fr vis nd ep nbrs).2.2 = ep + nbrs.length := by
  intro nbrs
  induction nbrs with
  | nil => intro fr vis nd ep; rfl
  | cons nb rest ih =>
    intro fr vis nd ep
    cases hc : vis.contains nb.id
    · rw [greedyExpand_cons_push h path fr vis nd ep nb rest hc, ih]
      simp only [List.length_cons]
      omega
    · rw [greedyExpand_cons_skip h path fr vis nd ep nb rest hc, ih]
      simp only [List.length_cons]
      omega

theorem astarExpand_ep_count (h : String → ℤ) (path : List String) (c : ℤ) :
    ∀ (nbrs : List Neighbor) (fr : List AEntry) (vis : List String)
      (nd ep : ℕ),
      (astarExpand h path c fr vis nd ep nbrs).2.2 = ep + nbrs.length := by
  intro nbrs
  induction nbrs with
  | nil => intro fr vis nd ep; rfl
  | cons nb rest ih =>
    intro fr vis nd ep
    cases hc : vis.contains nb.id
    · rw [astarExpand_cons_push h path c fr vis nd ep nb rest hc, ih]
      simp only [List.length_cons]
      omega
    · rw [astarExpand_cons_skip h path c fr vis nd ep nb rest hc, ih]
      simp only [List.length_cons]
      omega

theorem bidiExpand_ep_count (path : List String) :
    ∀ (nbrs : List Neighbor) (q : List QEntry)
      (vis : List (String × List String)) (nd ep : ℕ),
      (bidiExpand path q vis nd ep nbrs).ep = ep + nbrs.length := by
  intro nbrs
  induction nbrs with
  | nil => intro q vis nd ep; rfl
  | cons nb rest ih =>
    intro q vis nd ep
    cases hc : (lookupA vis nb.id).isSome
    · rw [bidiExpand_cons_push path q vis nd ep nb rest hc, ih]
      simp only [List.length_cons]
      omega
    · rw [bidiExpand_cons_skip path q vis nd ep nb rest hc, ih]
      simp only [List.length_cons]
      omega

theorem bfsExpand_nd_visited (path : List String) :
    ∀ (nbrs : List Neighbor) (q : List QEntry) (vis : List String)
      (nd ep : ℕ),
      (bfsExpand path q vis nd ep nbrs).nd + vis.length =
        (bfsExpand path q vis nd ep nbrs).visited.length + nd := by
  intro nbrs
  induction nbrs with
  | nil =>
    intro q vis nd ep
    show nd + vis.length = vis.length + nd
    omega
  | cons nb rest ih =>
    intro q vis nd ep
    cases hc : vis.contains nb.id
    · rw [bfsExpand_cons_push path q vis nd ep nb rest hc]
      have hi := ih (q ++ [⟨nb.id, path ++ [nb.id]⟩]) (vis ++ [nb.id])
        (nd + 1) (ep + 1)
      rw [List.length_append, List.length_cons, List.length_nil] at hi
      omega
    · rw [bfsExpand_cons_skip path q vis nd ep nb rest hc]
      exact ih q vis nd (ep + 1)

theorem dfsExpand_nd_visited (path : List String) :
    ∀ (nbrs : List Neighbor) (stack : List QEntry) (vis : List String)
      (nd ep : ℕ),
      (dfsExpand path stack vis nd ep nbrs).nd + vis.length =
        (dfsExpand path stack vis nd ep nbrs).visited.length + nd := by
  intro nbrs
  induction nbrs with
  | nil =>
    intro stack vis nd ep
    show nd + vis.length = vis.length + nd
    omega
  | cons nb rest ih =>
    intro stack vis nd ep
    cases hc : vis.contains nb.id
    · rw [dfsExpand_cons_push path stack vis nd ep nb rest hc]
      have hi := ih (⟨nb.id, path ++ [nb.id]⟩ :: stack) (vis ++ [nb.id])
        (nd + 1) (ep + 1)
      rw [List.length_append, List.length_cons, List.length_nil] at hi
      omega
    · rw [dfsExpand_cons_skip path stack vis nd ep nb rest hc]
      exact ih stack vis nd (ep + 1)

theorem bidiExpand_nd_visited (path : List String) :
    ∀ (nbrs : List Neighbor) (q : List QEntry)
      (vis : List (String × List String)) (nd ep : ℕ),
      (bidiExpand path q vis nd ep nbrs).nd + vis.length =
        (bidiExpand path q vis nd ep nbrs).visited.length + nd := by
  intro nbrs
  induction nbrs with
  | nil =>
    intro q vis nd ep
    show nd + vis.length = vis.length + nd
    omega
  | cons nb rest ih =>
    intro q vis nd ep
    cases hc : (lookupA vis nb.id).isSome
    · rw [bidiExpand_cons_push path q vis nd ep nb rest hc]
      have hi := ih (q ++ [⟨nb.id, path ++ [nb.id]⟩])
        (vis ++ [(nb.id, path ++ [nb.id])]) (nd + 1) (ep + 1)
      rw [List.length_append, List.length_cons, List.length_nil] at hi
      omega
    · rw [bidiExpand_cons_skip path q vis nd ep nb rest hc]
      exact ih q vis nd (ep + 1)

theorem bfsExpand_visited_nodup (path : List String) :
    ∀ (nbrs : List Neighbor) (q : List QEntry) (vis : List String)
      (nd ep : ℕ), vis.Nodup →
      (bfsExpand path q vis nd ep nbrs).visited.Nodup := by
  intro nbrs
  induction nbrs with
  | nil => intro q vis nd ep hn; exact hn
  | cons nb rest ih =>
    intro q vis nd ep hn
    cases hc : vis.contains nb.id
    · rw [bfsExpand_cons_push path q vis nd ep nb rest hc]
      exact ih _ _ _ _
        (nodup_append_singleton hn (not_mem_of_contains_false hc))
    · rw [bfsExpand_cons_skip path q vis nd ep nb rest hc]
      exact ih q vis nd (ep + 1) hn

theorem dfsExpand_visited_nodup (path : List String) :
    ∀ (nbrs : List Neighbor) (stack : List QEntry) (vis : List String)
      (nd ep : ℕ), vis.Nodup →
      (dfsExpand path stack vis nd ep nbrs).visited.Nodup := by
  intro nbrs
  induction nbrs with
  | nil => intro stack vis nd ep hn; exact hn
  | cons nb rest ih =>
    intro stack vis nd ep hn
    cases hc : vis.contains nb.id
    · rw [dfsExpand_cons_push path stack vis nd ep nb rest hc]
      exact ih _ _ _ _
        (nodup_append_singleton hn (not_mem_of_contains_false hc))
    · rw [dfsExpand_cons_skip path stack vis nd ep nb rest hc]
      exact ih stack vis nd (ep + 1) hn

theorem bidiExpand_keys_nodup (path : List String) :
    ∀ (nbrs : List Neighbor) (q : List QEntry)
      (vis : List (String × List String)) (nd ep : ℕ),
      (vis.map Prod.fst).Nodup →
      ((bidiExpand path q vis nd ep nbrs).visited.map Prod.fst).Nodup := by
  intro nbrs
  induction nbrs with
  | nil => intro q vis nd ep hn; exact hn
  | cons nb rest ih =>
    intro q vis nd ep hn
    cases hc : (lookupA vis nb.id).isSome
    · rw [bidiExpand_cons_push path q vis nd ep nb rest hc]
      have hkey : nb.id ∉ vis.map Prod.fst := by
        intro hm
        rw [lookupA_isSome_of_key vis nb.id hm] at hc
        cases hc
      refine ih _ _ _ _ ?_
      rw [List.map_append]
      exact nodup_append_singleton hn hkey
    · rw [bidiExpand_cons_skip path q vis nd ep nb rest hc]
      exact ih q vis nd (ep + 1) hn

theorem ucsExpand_push_count (path : List String) (c : ℤ) :
    ∀ (nbrs : List Neighbor) (fr : List CEntry) (vis : List String)
      (nd ep : ℕ),
      (ucsExpand path c fr vis nd ep nbrs).nd =
        nd + (nbrs.filter (fun nb => !vis.contains nb.id)).length ∧
      (ucsExpand path c fr vis nd ep nbrs).frontier.length =
        fr.length + (nbrs.filter (fun nb => !vis.contains nb.id)).length := by
  intro nbrs
  induction nbrs with
  | nil => intro fr vis nd ep; exact ⟨rfl, rfl⟩
  | cons nb rest ih =>
    intro fr vis nd ep
    cases hc : vis.contains nb.id
    · rw [ucsExpand_cons_push path c fr vis nd ep nb rest hc]
      have hpred : (fun (nb2 : Neighbor) => !vis.contains nb2.id) nb = true := by
        show (!vis.contains nb.id) = true
        rw [hc]
        rfl
      rw [filter_cons_true rest hpred]
      obtain ⟨h1, h2⟩ := ih
        (fr ++ [⟨nb.id, path ++ [nb.id], c + nb.distance⟩]) vis
        (nd + 1) (ep + 1)
      constructor
      · rw [h1]
        simp only [List.length_cons]
        omega
      · rw [h2, List.length_append]
        simp only [List.length_cons, List.length_nil]
        omega
    · rw [ucsExpand_cons_skip path c fr vis nd ep nb rest hc]
      have hpred : (fun (nb2 : Neighbor) => !vis.contains nb2.id) nb = false := by
        show (!vis.contains nb.id) = false
        rw [hc]
        rfl
      rw [filter_cons_false rest hpred]
      exact ih fr vis nd (ep + 1)

theorem greedyExpand_push_count (h : String → ℤ) (path : List String) :
    ∀ (nbrs : List Neighbor) (fr : List HEntry) (vis : List String)
      (nd ep : ℕ),
      (greedyExpand h path fr vis nd ep nbrs).2.1 =
        nd + (nbrs.filter (fun nb => !vis.contains nb.id)).length ∧
      (greedyExpand h path fr vis nd ep nbrs).1.length =
        fr.length + (nbrs.filter (fun nb => !vis.contains nb.id)).length := by
  intro nbrs
  induction nbrs with
  | nil => intro fr vis nd ep; exact ⟨rfl, rfl⟩
  | cons nb rest ih =>
    intro fr vis nd ep
    cases hc : vis.contains nb.id
    · rw [greedyExpand_cons_push h path fr vis nd ep nb rest hc]
      have hpred : (fun (nb2 : Neighbor) => !vis.contains nb2.id) nb = true := by
        show (!vis.contains nb.id) = true
        rw [hc]
        rfl
      rw [filter_cons_true rest hpred]
      obtain ⟨h1, h2⟩ := ih (fr ++ [⟨nb.id, path ++ [nb.id], h nb.id⟩]) vis
        (nd + 1) (ep + 1)
      constructor
      · rw [h1]
        simp only [List.length_cons]
        omega
      · rw [h2, List.length_append]
        simp only [List.length_cons, List.length_nil]
        omega
    · rw [greedyExpand_cons_skip h path fr vis nd ep nb rest hc]
      have hpred : (fun (nb2 : Neighbor) => !vis.contains nb2.id) nb = false := by
        show (!vis.contains nb.id) = false
        rw [hc]
        rfl
      rw [filter_cons_false rest hpred]
      exact ih fr vis nd (ep + 1)

theorem astarExpand_push_count (h : String → ℤ) (path : List String)
    (c : ℤ) :
    ∀ (nbrs : List Neighbor) (fr : List AEntry) (vis : List String)
      (nd ep : ℕ),
      (astarExpand h path c fr vis nd ep nbrs).2.1 =
        nd + (nbrs.filter (fun nb => !vis.contains nb.id)).length ∧
      (astarExpand h path c fr vis nd ep nbrs).1.length =
        fr.length + (nbrs.filter (fun nb => !vis.contains nb.id)).length := by
  intro nbrs
  induction nbrs with
  | nil => intro fr vis nd ep; exact ⟨rfl, rfl⟩
  | cons nb rest ih =>
    intro fr vis nd ep
    cases hc : vis.contains nb.id
    · rw [astarExpand_cons_push h path c fr vis nd ep nb rest hc]
      have hpred : (fun (nb2 : Neighbor) => !vis.contains nb2.id) nb = true := by
        show (!vis.contains nb.id) = true
        rw [hc]
        rfl
      rw [filter_cons_true rest hpred]
      obtain ⟨h1, h2⟩ := ih
        (fr ++ [⟨nb.id, path ++ [nb.id], c + nb.distance, h nb.id,
          c + nb.distance + h nb.id⟩]) vis (nd + 1) (ep + 1)
      constructor
      · rw [h1]
        simp only [List.length_cons]
        omega
      · rw [h2, List.length_append]
        simp only [List.length_cons, List.length_nil]
        omega
    · rw [astarExpand_cons_skip h path c fr vis nd ep nb rest hc]
      have hpred : (fun (nb2 : Neighbor) => !vis.contains nb2.id) nb = false := by
        show (!vis.contains nb.id) = false
        rw [hc]
        rfl
      rw [filter_cons_false rest hpred]
      exact ih fr vis nd (ep + 1)

/-! ### C5: one explored count per processed pop, as step equations -/

theorem bfsLoop_step_goal (g : GraphData) (goal : GoalSpec)
    (running : ℕ → Bool) (fuel : ℕ) (st : BfsState) (e : QEntry)
    (rest : List QEntry) (hq : st.queue = e :: rest)
    (hrun : running st.k = true) (hg : isGoalNode e.node goal = true) :
    bfsLoop g goal running (fuel + 1) st =
      some (foundOutcome g e.path (st.nodesExplored + 1) st.nodesDiscovered
        st.edgesProcessed) := by
  rw [bfsLoop]
  simp only [hq, hrun, hg]
  rfl

theorem bfsLoop_step_expand (g : GraphData) (goal : GoalSpec)
    (running : ℕ → Bool) (fuel : ℕ) (st : BfsState) (e : QEntry)
    (rest : List QEntry) (hq : st.queue = e :: rest)
    (hrun : running st.k = true) (hg : isGoalNode e.node goal = false) :
    bfsLoop g goal running (fuel + 1) st =
      bfsLoop g goal running fuel
        { queue := (bfsExpand e.path rest st.visited st.nodesDiscovered
            st.edgesProcessed (getNeighbors g e.node)).queue,
          visited := (bfsExpand e.path rest st.visited st.nodesDiscovered
            st.edgesProcessed (getNeighbors g e.node)).visited,
          nodesExplored := st.nodesExplored + 1,
          nodesDiscovered := (bfsExpand e.path rest st.visited
            st.nodesDiscovered st.edgesProcessed (getNeighbors g e.node)).nd,
          edgesProcessed := (bfsExpand e.path rest st.visited
            st.nodesDiscovered st.edgesProcessed (getNeighbors g e.node)).ep,
          k := st.k + 1 } := by
  rw [bfsLoop]
  simp only [hq, hrun, hg]
  rfl

theorem dfsLoop_step_goal (g : GraphData) (goal : GoalSpec)
    (running : ℕ → Bool) (fuel : ℕ) (st : BfsState) (e : QEntry)
    (rest : List QEntry) (hq : st.queue = e :: rest)
    (hrun : running st.k = true) (hg : isGoalNode e.node goal = true) :
    dfsLoop g goal running (fuel + 1) st =
      some (foundOutcome g e.path (st.nodesExplored + 1) st.nodesDiscovered
        st.edgesProcessed) := by
  rw [dfsLoop]
  simp only [hq, hrun, hg]
  rfl

theorem dfsLoop_step_expand (g : GraphData) (goal : GoalSpec)
    (running : ℕ → Bool) (fuel : ℕ) (st : BfsState) (e : QEntry)
    (rest : List QEntry) (hq : st.queue = e :: rest)
    (hrun : running st.k = true) (hg : isGoalNode e.node goal = false) :
    dfsLoop g goal running (fuel + 1) st =
      dfsLoop g goal running fuel
        { queue := (dfsExpand e.path rest st.visited st.nodesDiscovered
            st.edgesProcessed (getNeighbors g e.node).reverse).queue,
          visited := (dfsExpand e.path rest st.visited st.nodesDiscovered
            st.edgesProcessed (getNeighbors g e.node).reverse).visited,
          nodesExplored := st.nodesExplored + 1,
          nodesDiscovered := (dfsExpand e.path rest st.visited
            st.nodesDiscovered st.edgesProcessed
            (getNeighbors g e.node).reverse).nd,
          edgesProcessed := (dfsExpand e.path rest st.visited
            st.nodesDiscovered st.edgesProcessed
            (getNeighbors g e.node).reverse).ep,
          k := st.k + 1 } := by
  rw [dfsLoop]
  simp only [hq, hrun, hg]
  rfl

theorem ucsLoop_step_stale (g : GraphData) (goal : GoalSpec)
    (running : ℕ → Bool) (fuel : ℕ) (st : UcsState) (e : CEntry)
    (rest : List CEntry) (hfr : st.frontier ≠ [])
    (hrun : running st.k = true)
    (hsort : sortByKey (fun e => e.cost) st.frontier = e :: rest)
    (hv : st.visited.contains e.node = true) :
    ucsLoop g goal running (fuel + 1) st =
      ucsLoop g goal running fuel { st with frontier := rest, k := st.k + 1 } := by
  rw [ucsLoop]
  rcases hfrc : st.frontier with _ | ⟨f0, fr0⟩
  · exact absurd hfrc hfr
  · rw [hfrc] at hsort
    simp only [hfrc, hrun, hsort, hv]
    rfl

theorem ucsLoop_step_goal (g : GraphData) (goal : GoalSpec)
    (running : ℕ → Bool) (fuel : ℕ) (st : UcsState) (e : CEntry)
    (rest : List CEntry) (hfr : st.frontier ≠ [])
    (hrun : running st.k = true)
    (hsort : sortByKey (fun e => e.cost) st.frontier = e :: rest)
    (hv : st.visited.contains e.node = false)
    (hgl : isGoalNode e.node goal = true) :
    ucsLoop g goal running (fuel + 1) st =
      some { success := true, path := some e.path, cost := some e.cost,
             nodesExplored := st.nodesExplored + 1,
             nodesDiscovered := st.nodesDiscovered,
             edgesProcessed := st.edgesProcessed,
             reachedGoal := reachedGoalFromPath e.path } := by
  rw [ucsLoop]
  rcases hfrc : st.frontier with _ | ⟨f0, fr0⟩
  · exact absurd hfrc hfr
  · rw [hfrc] at hsort
    simp only [hfrc, hrun, hsort, hv, hgl]
    rfl

theorem ucsLoop_step_expand (g : GraphData) (goal : GoalSpec)
    (running : ℕ → Bool) (fuel : ℕ) (st : UcsState) (e : CEntry)
    (rest : List CEntry) (hfr : st.frontier ≠ [])
    (hrun : running st.k = true)
    (hsort : sortByKey (fun e => e.cost) st.frontier = e :: rest)
    (hv : st.visited.contains e.node = false)
    (hng : isGoalNode e.node goal = false) :
    ucsLoop g goal running (fuel + 1) st =
      ucsLoop g goal running fuel
        { frontier := (ucsExpand e.path e.cost rest
            (st.visited ++ [e.node]) st.nodesDiscovered st.edgesProcessed
            (getNeighbors g e.node)).frontier,
          visited := st.visited ++ [e.node],
          nodesExplored := st.nodesExplored + 1,
          nodesDiscovered := (ucsExpand e.path e.cost rest
            (st.visited ++ [e.node]) st.nodesDiscovered st.edgesProcessed
            (getNeighbors g e.node)).nd,
          edgesProcessed := (ucsExpand e.path e.cost rest
            (st.visited ++ [e.node]) st.nodesDiscovered st.edgesProcessed
            (getNeighbors g e.node)).ep,
          k := st.k + 1 } := by
  rw [ucsLoop]
  rcases hfrc : st.frontier with _ | ⟨f0, fr0⟩
  · exact absurd hfrc hfr
  · rw [hfrc] at hsort
    simp only [hfrc, hrun, hsort, hv, hng]
    rfl

theorem greedyLoop_step_stale (g : GraphData) (goal : GoalSpec)
    (h : String → ℤ) (running : ℕ → Bool) (fuel : ℕ) (st : GreedyState)
    (e : HEntry) (rest : List HEntry) (hfr : st.frontier ≠ [])
    (hrun : running st.k = true)
    (hsort : sortByKey (fun e => e.heuristic) st.frontier = e :: rest)
    (hv : st.visited.contains e.node = true) :
    greedyLoop g goal h running (fuel + 1) st =
      greedyLoop g goal h running fuel
        { st with frontier := rest, k := st.k + 1 } := by
  rw [greedyLoop]
  rcases hfrc : st.frontier with _ | ⟨f0, fr0⟩
  · exact absurd hfrc hfr
  · rw [hfrc] at hsort
    simp only [hfrc, hrun, hsort, hv]
    rfl

theorem greedyLoop_step_goal (g : GraphData) (goal : GoalSpec)
    (h : String → ℤ) (running : ℕ → Bool) (fuel : ℕ) (st : GreedyState)
    (e : HEntry) (rest : List HEntry) (hfr : st.frontier ≠ [])
    (hrun : running st.k = true)
    (hsort : sortByKey (fun e => e.heuristic) st.frontier = e :: rest)
    (hv : st.visited.contains e.node = false)
    (hgl : isGoalNode e.node goal = true) :
    greedyLoop g goal h running (fuel + 1) st =
      some (foundOutcome g e.path (st.nodesExplored + 1) st.nodesDiscovered
        st.edgesProcessed) := by
  rw [greedyLoop]
  rcases hfrc : st.frontier with _ | ⟨f0, fr0⟩
  · exact absurd hfrc hfr
  · rw [hfrc] at hsort
    simp only [hfrc, hrun, hsort, hv, hgl]
    rfl

theorem greedyLoop_step_expand (g : GraphData) (goal : GoalSpec)
    (h : String → ℤ) (running : ℕ → Bool) (fuel : ℕ) (st : GreedyState)
    (e : HEntry) (rest : List HEntry) (hfr : st.frontier ≠ [])
    (hrun : running st.k = true)
    (hsort : sortByKey (fun e => e.heuristic) st.frontier = e :: rest)
    (hv : st.visited.contains e.node = false)
    (hng : isGoalNode e.node goal = false) :
    greedyLoop g goal h running (fuel + 1) st =
      greedyLoop g goal h running fuel
        { frontier := (greedyExpand h e.path rest (st.visited ++ [e.node])
            st.nodesDiscovered st.edgesProcessed (getNeighbors g e.node)).1,
          visited := st.visited ++ [e.node],
          nodesExplored := st.nodesExplored + 1,
          nodesDiscovered := (greedyExpand h e.path rest
            (st.visited ++ [e.node]) st.nodesDiscovered st.edgesProcessed
            (getNeighbors g e.node)).2.1,
          edgesProcessed := (greedyExpand h e.path rest
            (st.visited ++ [e.node]) st.nodesDiscovered st.edgesProcessed
            (getNeighbors g e.node)).2.2,
          k := st.k + 1 } := by
  rw [greedyLoop]
  rcases hfrc : st.frontier with _ | ⟨f0, fr0⟩
  · exact absurd hfrc hfr
  · rw [hfrc] at hsort
    simp only [hfrc, hrun, hsort, hv, hng]
    rfl

theorem astarLoop_step_stale (g : GraphData) (goal : GoalSpec)
    (h : String → ℤ) (running : ℕ → Bool) (fuel : ℕ) (st : AStarState)
    (e : AEntry) (rest : List AEntry) (hfr : st.frontier ≠ [])
    (hrun : running st.k = true)
    (hsort : sortByKey (fun e => e.f) st.frontier = e :: rest)
    (hv : st.visited.contains e.node = true) :
    astarLoop g goal h running (fuel + 1) st =
      astarLoop g goal h running fuel
        { st with frontier := rest, k := st.k + 1 } := by
  rw [astarLoop]
  rcases hfrc : st.frontier with _ | ⟨f0, fr0⟩
  · exact absurd hfrc hfr
  · rw [hfrc] at hsort
    simp only [hfrc, hrun, hsort, hv]
    rfl

theorem bidiFrontStep_meet (g : GraphData) (st : BidiState) (e : QEntry)
    (rest : List QEntry) (bp : List String)
    (hq : st.frontQueue = e :: rest)
    (hmeet : lookupA st.backVisited e.node = some bp) :
    bidiFrontStep g st = .done
      { success := true,
        path := some (e.path ++ bp.dropLast.reverse),
        cost := some (calculatePathCost g (e.path ++ bp.dropLast.reverse)),
        nodesExplored := st.ne + 1, nodesDiscovered := st.nd,
        edgesProcessed := st.ep } := by
  unfold bidiFrontStep
  simp only [hq, hmeet]

theorem bidiFrontStep_miss (g : GraphData) (st : BidiState) (e : QEntry)
    (rest : List QEntry) (hq : st.frontQueue = e :: rest)
    (hmiss : lookupA st.backVisited e.node = none) :
    bidiFrontStep g st = .cont { st with
      frontQueue := (bidiExpand e.path rest st.frontVisited st.nd st.ep
        (getNeighbors g e.node)).queue,
      frontVisited := (bidiExpand e.path rest st.frontVisited st.nd st.ep
        (getNeighbors g e.node)).visited,
      ne := st.ne + 1,
      nd := (bidiExpand e.path rest st.frontVisited st.nd st.ep
        (getNeighbors g e.node)).nd,
      ep := (bidiExpand e.path rest st.frontVisited st.nd st.ep
        (getNeighbors g e.node)).ep } := by
  unfold bidiFrontStep
  simp only [hq, hmiss]

theorem bidiBackStep_meet (g : GraphData) (st : BidiState) (e : QEntry)
    (rest : List QEntry) (fp : List String)
    (hq : st.backQueue = e :: rest)
    (hmeet : lookupA st.frontVisited e.node = some fp) :
    bidiBackStep g st = .done
      { success := true,
        path := some (fp ++ e.path.dropLast.reverse),
        cost := some (calculatePathCost g (fp ++ e.path.dropLast.reverse)),
        nodesExplored := st.ne + 1, nodesDiscovered := st.nd,
        edgesProcessed := st.ep } := by
  unfold bidiBackStep
  simp only [hq, hmeet]

theorem bidiBackStep_miss (g : GraphData) (st : BidiState) (e : QEntry)
    (rest : List QEntry) (hq : st.backQueue = e :: rest)
    (hmiss : lookupA st.frontVisited e.node = none) :
    bidiBackStep g st = .cont { st with
      backQueue := (bidiExpand e.path rest st.backVisited st.nd st.ep
        (getNeighbors g e.node)).queue,
      backVisited := (bidiExpand e.path rest st.backVisited st.nd st.ep
        (getNeighbors g e.node)).visited,
      ne := st.ne + 1,
      nd := (bidiExpand e.path rest st.backVisited st.nd st.ep
        (getNeighbors g e.node)).nd,
      ep := (bidiExpand e.path rest st.backVisited st.nd st.ep
        (getNeighbors g e.node)).ep } := by
  unfold bidiBackStep
  simp only [hq, hmiss]

/-- **C5 (amended, general).**  Counter semantics for every strategy,
state and input: `edgesProcessed` advances by exactly one per neighbour
edge examined, including edges to already-visited nodes (all six
neighbour passes); in BFS, DFS and bidirectional search the
`nodesDiscovered` counter advances in lockstep with the visited set/map,
which stays duplicate-free, so it counts distinct nodes ever added; in
UCS/Greedy/A* it advances by one per frontier insertion — one for every
not-yet-visited neighbour, with nothing marked during the pass, so a node
pushed via several parents before being visited is counted once per push;
and `nodesExplored` advances by exactly one per pop actually processed
(goal or expansion), while a stale pop — a sorted-frontier head already
visited in UCS/Greedy/A* — is skipped without counting.  Concretely, UCS
on the diamond graph reports `nodesDiscovered = 6` though only five
distinct nodes ever enter the frontier, while BFS reports the distinct
count 5 on the same input. -/
theorem claim_C5 :
    (∀ (path : List String) (nbrs : List Neighbor) (q : List QEntry)
        (vis : List String) (nd ep : ℕ),
        (bfsExpand path q vis nd ep nbrs).ep = ep + nbrs.length) ∧
    (∀ (path : List String) (nbrs : List Neighbor) (stack : List QEntry)
        (vis : List String) (nd ep : ℕ),
        (dfsExpand path stack vis nd ep nbrs).ep = ep + nbrs.length) ∧
    (∀ (path : List String) (c : ℤ) (nbrs : List Neighbor)
        (fr : List CEntry) (vis : List String) (nd ep : ℕ),
        (ucsExpand path c fr vis nd ep nbrs).ep = ep + nbrs.length) ∧
    (∀ (h : String → ℤ) (path : List String) (nbrs : List Neighbor)
        (fr : List HEntry) (vis : List String) (nd ep : ℕ),
        (greedyExpand h path fr vis nd ep nbrs).2.2 = ep + nbrs.length) ∧
    (∀ (h : String → ℤ) (path : List String) (c : ℤ)
        (nbrs : List Neighbor) (fr : List AEntry) (vis : List String)
        (nd ep : ℕ),
        (astarExpand h path c fr vis nd ep nbrs).2.2 = ep + nbrs.length) ∧
    (∀ (path : List String) (nbrs : List Neighbor) (q : List QEntry)
        (vis : List (String × List String)) (nd ep : ℕ),
        (bidiExpand path q vis nd ep nbrs).ep = ep + nbrs.length) ∧
    (∀ (path : List String) (nbrs : List Neighbor) (q : List QEntry)
        (vis : List String) (nd ep : ℕ),
        (bfsExpand path q vis nd ep nbrs).nd + vis.length =
          (bfsExpand path q vis nd ep nbrs).visited.length + nd) ∧
    (∀ (path : List String) (nbrs : List Neighbor) (stack : List QEntry)
        (vis : List String) (nd ep : ℕ),
        (dfsExpand path stack vis nd ep nbrs).nd + vis.length =
          (dfsExpand path stack vis nd ep nbrs).visited.length + nd) ∧
    (∀ (path : List String) (nbrs : List Neighbor) (q : List QEntry)
        (vis : List (String × List String)) (nd ep : ℕ),
        (bidiExpand path q vis nd ep nbrs).nd + vis.length =
          (bidiExpand path q vis nd ep nbrs).visited.length + nd) ∧
    (∀ (path : List String) (nbrs : List Neighbor) (q : List QEntry)
        (vis : List String) (nd ep : ℕ), vis.Nodup →
        (bfsExpand path q vis nd ep nbrs).visited.Nodup) ∧
    (∀ (path : List String) (nbrs : List Neighbor) (stack : List QEntry)
        (vis : List String) (nd ep : ℕ), vis.Nodup →
        (dfsExpand path stack vis nd ep nbrs).visited.Nodup) ∧
    (∀ (path : List String) (nbrs : List Neighbor) (q : List QEntry)
        (vis : List (String × List String)) (nd ep : ℕ),
        (vis.map Prod.fst).Nodup →
        ((bidiExpand path q vis nd ep nbrs).visited.map Prod.fst).Nodup) ∧
    (∀ (path : List String) (c : ℤ) (nbrs : List Neighbor)
        (fr : List CEntry) (vis : List String) (nd ep : ℕ),
        (ucsExpand path c fr vis nd ep nbrs).nd =
          nd + (nbrs.filter (fun nb => !vis.contains nb.id)).length ∧
        (ucsExpand path c fr vis nd ep nbrs).frontier.length =
          fr.length + (nbrs.filter (fun nb => !vis.contains nb.id)).length) ∧
    (∀ (h : String → ℤ) (path : List String) (nbrs : List Neighbor)
        (fr : List HEntry) (vis : List String) (nd ep : ℕ),
        (greedyExpand h path fr vis nd ep nbrs).2.1 =
          nd + (nbrs.filter (fun nb => !vis.contains nb.id)).length ∧
        (greedyExpand h path fr vis nd ep nbrs).1.length =
          fr.length + (nbrs.filter (fun nb => !vis.contains nb.id)).length) ∧
    (∀ (h : String → ℤ) (path : List String) (c : ℤ)
        (nbrs : List Neighbor) (fr : List AEntry) (vis : List String)
        (nd ep : ℕ),
        (astarExpand h path c fr vis nd ep nbrs).2.1 =
          nd + (nbrs.filter (fun nb => !vis.contains nb.id)).length ∧
        (astarExpand h path c fr vis nd ep nbrs).1.length =
          fr.length + (nbrs.filter (fun nb => !vis.contains nb.id)).length) ∧
    (∀ (g : GraphData) (goal : GoalSpec) (running : ℕ → Bool) (fuel : ℕ)
        (st : BfsState) (e : QEntry) (rest : List QEntry),
        st.queue = e :: rest → running st.k = true →
        isGoalNode e.node goal = true →
        bfsLoop g goal running (fuel + 1) st =
          some (foundOutcome g e.path (st.nodesExplored + 1)
            st.nodesDiscovered st.edgesProcessed)) ∧
    (∀ (g : GraphData) (goal : GoalSpec) (running : ℕ → Bool) (fuel : ℕ)
        (st : BfsState) (e : QEntry) (rest : List QEntry),
        st.queue = e :: rest → running st.k = true →
        isGoalNode e.node goal = false →
        bfsLoop g goal running (fuel + 1) st =
          bfsLoop g goal running fuel
            { queue := (bfsExpand e.path rest st.visited st.nodesDiscovered
                st.edgesProcessed (getNeighbors g e.node)).queue,
              visited := (bfsExpand e.path rest st.visited
                st.nodesDiscovered st.edgesProcessed
                (getNeighbors g e.node)).visited,
              nodesExplored := st.nodesExplored + 1,
              nodesDiscovered := (bfsExpand e.path rest st.visited
                st.nodesDiscovered st.edgesProcessed
                (getNeighbors g e.node)).nd,
              edgesProcessed := (bfsExpand e.path rest st.visited
                st.nodesDiscovered st.edgesProcessed
                (getNeighbors g e.node)).ep,
              k := st.k + 1 }) ∧
    (∀ (g : GraphData) (goal : GoalSpec) (running : ℕ → Bool) (fuel : ℕ)
        (st : BfsState) (e : QEntry) (rest : List QEntry),
        st.queue = e :: rest → running st.k = true →
        isGoalNode e.node goal = true →
        dfsLoop g goal running (fuel + 1) st =
          some (foundOutcome g e.path (st.nodesExplored + 1)
            st.nodesDiscovered st.edgesProcessed)) ∧
    (∀ (g : GraphData) (goal : GoalSpec) (running : ℕ → Bool) (fuel : ℕ)
        (st : BfsState) (e : QEntry) (rest : List QEntry),
        st.queue = e :: rest → running st.k = true →
        isGoalNode e.node goal = false →
        dfsLoop g goal running (fuel + 1) st =
          dfsLoop g goal running fuel
            { queue := (dfsExpand e.path rest st.visited st.nodesDiscovered
                st.edgesProcessed (getNeighbors g e.node).reverse).queue,
              visited := (dfsExpand e.path rest st.visited
                st.nodesDiscovered st.edgesProcessed
                (getNeighbors g e.node).reverse).visited,
              nodesExplored := st.nodesExplored + 1,
              nodesDiscovered := (dfsExpand e.path rest st.visited
                st.nodesDiscovered st.edgesProcessed
                (getNeighbors g e.node).reverse).nd,
              edgesProcessed := (dfsExpand e.path rest st.visited
                st.nodesDiscovered st.edgesProcessed
                (getNeighbors g e.node).reverse).ep,
              k := st.k + 1 }) ∧
    (∀ (g : GraphData) (goal : GoalSpec) (running : ℕ → Bool) (fuel : ℕ)
        (st : UcsState) (e : CEntry) (rest : List CEntry),
        st.frontier ≠ [] → running st.k = true →
        sortByKey (fun e => e.cost) st.frontier = e :: rest →
        st.visited.contains e.node = true →
        ucsLoop g goal running (fuel + 1) st =
          ucsLoop g goal running fuel
            { st with frontier := rest, k := st.k + 1 }) ∧
    (∀ (g : GraphData) (goal : GoalSpec) (running : ℕ → Bool) (fuel : ℕ)
        (st : UcsState) (e : CEntry) (rest : List CEntry),
        st.frontier ≠ [] → running st.k = true →
        sortByKey (fun e => e.cost) st.frontier = e :: rest →
        st.visited.contains e.node = false →
        isGoalNode e.node goal = true →
        ucsLoop g goal running (fuel + 1) st =
          some { success := true, path := some e.path, cost := some e.cost,
                 nodesExplored := st.nodesExplored + 1,
                 nodesDiscovered := st.nodesDiscovered,
                 edgesProcessed := st.edgesProcessed,
                 reachedGoal := reachedGoalFromPath e.path }) ∧
    (∀ (g : GraphData) (goal : GoalSpec) (running : ℕ → Bool) (fuel : ℕ)
        (st : UcsState) (e : CEntry) (rest : List CEntry),
        st.frontier ≠ [] → running st.k = true →
        sortByKey (fun e => e.cost) st.frontier = e :: rest →
        st.visited.contains e.node = false →
        isGoalNode e.node goal = false →
        ucsLoop g goal running (fuel + 1) st =
          ucsLoop g goal running fuel
            { frontier := (ucsExpand e.path e.cost rest
                (st.visited ++ [e.node]) st.nodesDiscovered
                st.edgesProcessed (getNeighbors g e.node)).frontier,
              visited := st.visited ++ [e.node],
              nodesExplored := st.nodesExplored + 1,
              nodesDiscovered := (ucsExpand e.path e.cost rest
                (st.visited ++ [e.node]) st.nodesDiscovered
                st.edgesProcessed (getNeighbors g e.node)).nd,
              edgesProcessed := (ucsExpand e.path e.cost rest
                (st.visited ++ [e.node]) st.nodesDiscovered
                st.edgesProcessed (getNeighbors g e.node)).ep,
              k := st.k + 1 }) ∧
    (∀ (g : GraphData) (goal : GoalSpec) (h : String → ℤ)
        (running : ℕ → Bool) (fuel : ℕ) (st : GreedyState) (e : HEntry)
        (rest : List HEntry),
        st.frontier ≠ [] → running st.k = true →
        sortByKey (fun e => e.heuristic) st.frontier = e :: rest →
        st.visited.contains e.node = true →
        greedyLoop g goal h running (fuel + 1) st =
          greedyLoop g goal h running fuel
            { st with frontier := rest, k := st.k + 1 }) ∧
    (∀ (g : GraphData) (goal : GoalSpec) (h : String → ℤ)
        (running : ℕ → Bool) (fuel : ℕ) (st : GreedyState) (e : HEntry)
        (rest : List HEntry),
        st.frontier ≠ [] → running st.k = true →
        sortByKey (fun e => e.heuristic) st.frontier = e :: rest →
        st.visited.contains e.node = false →
        isGoalNode e.node goal = true →
        greedyLoop g goal h running (fuel + 1) st =
          some (foundOutcome g e.path (st.nodesExplored + 1)
            st.nodesDiscovered st.edgesProcessed)) ∧
    (∀ (g : GraphData) (goal : GoalSpec) (h : String → ℤ)
        (running : ℕ → Bool) (fuel : ℕ) (st : GreedyState) (e : HEntry)
        (rest : List HEntry),
        st.frontier ≠ [] → running st.k = true →
        sortByKey (fun e => e.heuristic) st.frontier = e :: rest →
        st.visited.contains e.node = false →
        isGoalNode e.node goal = false →
        greedyLoop g goal h running (fuel + 1) st =
          greedyLoop g goal h running fuel
            { frontier := (greedyExpand h e.path rest
                (st.visited ++ [e.node]) st.nodesDiscovered
                st.edgesProcessed (getNeighbors g e.node)).1,
              visited := st.visited ++ [e.node],
              nodesExplored := st.nodesExplored + 1,
              nodesDiscovered := (greedyExpand h e.path rest
                (st.visited ++ [e.node]) st.nodesDiscovered
                st.edgesProcessed (getNeighbors g e.node)).2.1,
              edgesProcessed := (greedyExpand h e.path rest
                (st.visited ++ [e.node]) st.nodesDiscovered
                st.edgesProcessed (getNeighbors g e.node)).2.2,
              k := st.k + 1 }) ∧
    (∀ (g : GraphData) (goal : GoalSpec) (h : String → ℤ)
        (running : ℕ → Bool) (fuel : ℕ) (st : AStarState) (e : AEntry)
        (rest : List AEntry),
        st.frontier ≠ [] → running st.k = true →
        sortByKey (fun e => e.f) st.frontier = e :: rest →
        st.visited.contains e.node = true →
        astarLoop g goal h running (fuel + 1) st =
          astarLoop g goal h running fuel
            { st with frontier := rest, k := st.k + 1 }) ∧
    (∀ (g : GraphData) (goal : GoalSpec) (h : String → ℤ)
        (running : ℕ → Bool) (fuel : ℕ) (st : AStarState) (e : AEntry)
        (rest : List AEntry),
        st.frontier ≠ [] → running st.k = true →
        sortByKey (fun e => e.f) st.frontier = e :: rest →
        st.visited.contains e.node = false →
        isGoalNode e.node goal = true →
        astarLoop g goal h running (fuel + 1) st =
          some { success := true, path := some e.path, cost := some e.cost,
                 nodesExplored := st.nodesExplored + 1,
                 nodesDiscovered := st.nodesDiscovered,
                 edgesProcessed := st.edgesProcessed,
                 reachedGoal := reachedGoalFromPath e.path }) ∧
    (∀ (g : GraphData) (goal : GoalSpec) (h : String → ℤ)
        (running : ℕ → Bool) (fuel : ℕ) (st : AStarState) (e : AEntry)
        (rest : List AEntry),
        st.frontier ≠ [] → running st.k = true →
        sortByKey (fun e => e.f) st.frontier = e :: rest →
        st.visited.contains e.node = false →
        isGoalNode e.node goal = false →
        astarLoop g goal h running (fuel + 1) st =
          astarLoop g goal h running fuel
            { frontier := (astarExpand h e.path e.cost rest
                (st.visited ++ [e.node]) st.nodesDiscovered
                st.edgesProcessed (getNeighbors g e.node)).1,
              visited := st.visited ++ [e.node],
              nodesExplored := st.nodesExplored + 1,
              nodesDiscovered := (astarExpand h e.path e.cost rest
                (st.visited ++ [e.node]) st.nodesDiscovered
                st.edgesProcessed (getNeighbors g e.node)).2.1,
              edgesProcessed := (astarExpand h e.path e.cost rest
                (st.visited ++ [e.node]) st.nodesDiscovered
                st.edgesProcessed (getNeighbors g e.node)).2.2,
              k := st.k + 1 }) ∧
    (∀ (g : GraphData) (st : BidiState) (e : QEntry) (rest : List QEntry)
        (bp : List String), st.frontQueue = e :: rest →
        lookupA st.backVisited e.node = some bp →
        bidiFrontStep g st = .done
          { success := true,
            path := some (e.path ++ bp.dropLast.reverse),
            cost := some (calculatePathCost g (e.path ++ bp.dropLast.reverse)),
            nodesExplored := st.ne + 1, nodesDiscovered := st.nd,
            edgesProcessed := st.ep }) ∧
    (∀ (g : GraphData) (st : BidiState) (e : QEntry) (rest : List QEntry),
        st.frontQueue = e :: rest →
        lookupA st.backVisited e.node = none →
        bidiFrontStep g st = .cont { st with
          frontQueue := (bidiExpand e.path rest st.frontVisited st.nd st.ep
            (getNeighbors g e.node)).queue,
          frontVisited := (bidiExpand e.path rest st.frontVisited st.nd
            st.ep (getNeighbors g e.node)).visited,
          ne := st.ne + 1,
          nd := (bidiExpand e.path rest st.frontVisited st.nd st.ep
            (getNeighbors g e.node)).nd,
          ep := (bidiExpand e.path rest st.frontVisited st.nd st.ep
            (getNeighbors g e.node)).ep }) ∧
    (∀ (g : GraphData) (st : BidiState) (e : QEntry) (rest : List QEntry)
        (fp : List String), st.backQueue = e :: rest →
        lookupA st.frontVisited e.node = some fp →
        bidiBackStep g st = .done
          { success := true,
            path := some (fp ++ e.path.dropLast.reverse),
            cost := some (calculatePathCost g (fp ++ e.path.dropLast.reverse)),
            nodesExplored := st.ne + 1, nodesDiscovered := st.nd,
            edgesProcessed := st.ep }) ∧
    (∀ (g : GraphData) (st : BidiState) (e : QEntry) (rest : List QEntry),
        st.backQueue = e :: rest →
        lookupA st.frontVisited e.node = none →
        bidiBackStep g st = .cont { st with
          backQueue := (bidiExpand e.path rest st.backVisited st.nd st.ep
            (getNeighbors g e.node)).queue,
          backVisited := (bidiExpand e.path rest st.backVisited st.nd st.ep
            (getNeighbors g e.node)).visited,
          ne := st.ne + 1,
          nd := (bidiExpand e.path rest st.backVisited st.nd st.ep
            (getNeighbors g e.node)).nd,
          ep := (bidiExpand e.path rest st.backVisited st.nd st.ep
            (getNeighbors g e.node)).ep }) ∧
    uniformCostSearch diamondG "A" (GoalSpec.single "E") runTrue 20 =
      some { success := true, path := some ["A", "B", "D", "E"],
             cost := some 12, nodesExplored := 5, nodesDiscovered := 6,
             edgesProcessed := 9, reachedGoal := some "E" } ∧
    breadthFirstSearch diamondG "A" (GoalSpec.single "E") runTrue 20 =
      some { success := true, path := some ["A", "B", "D", "E"],
             cost := some 12, nodesExplored := 5, nodesDiscovered := 5,
             edgesProcessed := 9, reachedGoal := some "E" } := by
  refine ⟨bfsExpand_ep_count, dfsExpand_ep_count, ucsExpand_ep_count,
    greedyExpand_ep_count, astarExpand_ep_count, bidiExpand_ep_count,
    bfsExpand_nd_visited, dfsExpand_nd_visited, bidiExpand_nd_visited,
    bfsExpand_visited_nodup, dfsExpand_visited_nodup, bidiExpand_keys_nodup,
    ucsExpand_push_count, greedyExpand_push_count, astarExpand_push_count,
    bfsLoop_step_goal, bfsLoop_step_expand, dfsLoop_step_goal,
    dfsLoop_step_expand, ucsLoop_step_stale, ucsLoop_step_goal,
    ucsLoop_step_expand, greedyLoop_step_stale, greedyLoop_step_goal,
    greedyLoop_step_expand, astarLoop_step_stale, astarLoop_step_goal,
    astarLoop_step_expand, bidiFrontStep_meet, bidiFrontStep_miss,
    bidiBackStep_meet, bidiBackStep_miss, ?_, ?_⟩
  · decide
  · decide

/-- C5 witness: the duplicate-freedom clause and the stale-skip step
clause instantiated on the diamond graph. -/
theorem claim_C5_witness :
    (bfsExpand ["A"] [] ["A"] 1 0 (getNeighbors diamondG "A")).visited.Nodup ∧
    ucsLoop diamondG (GoalSpec.single "E") runTrue 1
      ⟨[⟨"A", ["A"], 0⟩], ["A"], 1, 1, 2, 3⟩ =
      ucsLoop diamondG (GoalSpec.single "E") runTrue 0
        ⟨[], ["A"], 1, 1, 2, 4⟩ := by
  obtain ⟨e1, e2, e3, e4, e5, e6, d1, d2, d3, n1, n2, n3, p1, p2, p3,
    l1, l2, l3, l4, l5, l6, l7, l8, l9, l10, l11, l12, l13,
    b1, b2, b3, b4, c1, c2⟩ := claim_C5
  constructor
  · exact n1 ["A"] (getNeighbors diamondG "A") [] ["A"] 1 0 (by decide)
  · exact l5 diamondG (GoalSpec.single "E") runTrue 0
      ⟨[⟨"A", ["A"], 0⟩], ["A"], 1, 1, 2, 3⟩ ⟨"A", ["A"], 0⟩ []
      (by decide) rfl (by decide) (by decide)

end SearchAlgo
